import Mathlib

/-!
# Equation evaluator: embedding of `evaluator.cpp` / `evaluator.h`

Strings are lists of characters (one `Char` per C++ `char`).  The C++ `double`
is an abstract type `D` with the operations the program uses collected in
`FloatOps`; `strtod` is the rounding `FloatOps.ofRat` applied to the exact
decimal value of the text it reads.

A function of the program yields an `Outcome`: a value, a thrown `ErrorType`,
or `undefined` when the model has no result (the C++ would dereference `end()`
or a null pointer, read the inactive member of the union, or the recursion
budget of the model is used up).
-/

namespace EquationEvaluator

/-! ## evaluator.h -/

/-- Exception error types that can be thrown during equation parsing. -/
inductive ErrorType where
  | InvalidOperand
  | InvalidOperator
  | EmptyGroup
  | MissingClosingSymbol
  | UnknownError
  deriving DecidableEq, Repr

/-- The enumerator `Addition = '+'` of `OperatorType`. -/
def Addition : Char := '+'
/-- The enumerator `Subtraction = '-'` of `OperatorType`. -/
def Subtraction : Char := '-'
/-- The enumerator `Multiplication = '*'` of `OperatorType`. -/
def Multiplication : Char := '*'
/-- The enumerator `Division = '/'` of `OperatorType`. -/
def Division : Char := '/'
/-- The enumerator `Power = '^'` of `OperatorType`. -/
def Power : Char := '^'
/-- The enumerator `Negate = '~'` of `OperatorType`. -/
def Negate : Char := '~'

/-- A value of type `Node*`.  `literal` is a node with `isLiteral == true` whose
union holds `liternal`; `operator` is a node with `isLiteral == false` whose
union holds `operatorSymbol` (every site of the program that writes the union
writes `isLiteral` accordingly).  Both carry the `left` and `right` pointers. -/
inductive Node (D : Type) where
  | nullptr : Node D
  | literal (liternal : D) (left right : Node D) : Node D
  | operator (operatorSymbol : Char) (left right : Node D) : Node D
  deriving DecidableEq, Repr

/-- Result of a function of the program. -/
inductive Outcome (α : Type) where
  | ok (value : α) : Outcome α
  | throw (e : ErrorType) : Outcome α
  | undefined : Outcome α
  deriving DecidableEq, Repr

/-- The arithmetic of `double` used by the program. `ofRat` rounds an exact
decimal value to a `double` (as `strtod` does); `zero` is the constant `0`. -/
structure FloatOps (D : Type) where
  ofRat : ℚ → D
  zero : D
  add : D → D → D
  sub : D → D → D
  mul : D → D → D
  div : D → D → D
  pow : D → D → D
  neg : D → D

/-! ## Library functions used by the program -/

/-- The function `isspace` of the C locale. -/
def isspace (c : Char) : Bool :=
  c == ' ' || c == '\t' || c == '\n' || c == '\x0b' || c == '\x0c' || c == '\r'

/-- The regex class `\d`. -/
def isDigit (c : Char) : Bool := '0' ≤ c && c ≤ '9'

/-- The regex atom `.` (ECMAScript): any character but a line terminator. -/
def isAnyButNewline (c : Char) : Bool := c != '\n' && c != '\r'

/-- Value of a decimal digit. -/
def digitValue (c : Char) : Nat := c.toNat - '0'.toNat

/-- Value of a string of decimal digits. -/
def digitsToNat (ds : List Char) : Nat :=
  ds.foldl (fun acc c => 10 * acc + digitValue c) 0

/-- The exact value of the decimal number `strtod` reads at the head of a text
that starts with a digit or a dot: the digits, then, if a dot follows, the
digits after it. -/
def decimalValue (s : List Char) : ℚ :=
  let intPart := s.takeWhile isDigit
  match s.dropWhile isDigit with
  | '.' :: more =>
    let frac := more.takeWhile isDigit
    (digitsToNat intPart : ℚ) + (digitsToNat frac : ℚ) / (10 : ℚ) ^ frac.length
  | _ => (digitsToNat intPart : ℚ)

/-- The call `strtod(text, nullptr)`. -/
def strtod {D : Type} (ops : FloatOps D) (s : List Char) : D :=
  ops.ofRat (decimalValue s)

/-! ## evaluator.cpp: regular expressions -/

/-- The call `regex_match(s, openGroupReg)` with `openGroupReg = "^[(].*"`. -/
def matchOpenGroup (s : List Char) : Bool :=
  match s with
  | c :: rest => c == '(' && rest.all isAnyButNewline
  | [] => false

/-- The call `regex_search(s, sm, validOperandLiteralReg)` with
`validOperandLiteralReg = "^\\d+[.]*\\d*"`: the matched text and `sm.suffix()`. -/
def searchOperandLiteral (s : List Char) : Option (List Char × List Char) :=
  let digits := s.takeWhile isDigit
  let rest := s.dropWhile isDigit
  let dots := rest.takeWhile (fun c => c == '.')
  let rest2 := rest.dropWhile (fun c => c == '.')
  let digits2 := rest2.takeWhile isDigit
  let rest3 := rest2.dropWhile isDigit
  if digits.isEmpty then none else some (digits ++ dots ++ digits2, rest3)

/-- The character class of `validOperatorReg = "^([\\+\\-\\*\\/\\^]{1})"`. -/
def isOperatorChar (c : Char) : Bool :=
  c == '+' || c == '-' || c == '*' || c == '/' || c == '^'

/-- The call `regex_search(s, sm, validOperatorReg)`: `sm[1]` and `sm.suffix()`. -/
def searchOperator (s : List Char) : Option (Char × List Char) :=
  match s with
  | c :: rest => if isOperatorChar c then some (c, rest) else none
  | [] => none

/-- The call `regex_search(s, sm, negateReg)` with `negateReg = "^[-]{1}"`:
`sm.suffix()`. -/
def searchNegate (s : List Char) : Option (List Char) :=
  match s with
  | c :: rest => if c == '-' then some rest else none
  | [] => none

/-! ## evaluator.cpp: string parsing -/

/-- The function `popNegateFromEquation`: the node (null when there is no
negate symbol) and the equation left. -/
def popNegateFromEquation {D : Type} (equation : List Char) : Node D × List Char :=
  match searchNegate equation with
  | some suffix => (Node.operator Negate Node.nullptr Node.nullptr, suffix)
  | none => (Node.nullptr, equation)

/-- The `do ... while (level > 0 && traversePos != equation.end())` loop of
`popGroupFromEquation`, entered with `traversePos` before the head of the given
text: the final `level` and `traversePos`. -/
def scanGroup : List Char → Int → Nat → Int × Nat
  | [], level, traversePos => (level, traversePos)
  | c :: rest, level, traversePos =>
    let level1 := if c == '(' then level + 1 else if c == ')' then level - 1 else level
    if level1 > 0 && !rest.isEmpty then scanGroup rest level1 (traversePos + 1)
    else (level1, traversePos + 1)

/-- The function `popGroupFromEquation`; `build` is the recursive call
`buildEquationTree(groupStr, true)`. -/
def popGroupFromEquation {D : Type} (build : List Char → Bool → Outcome (Node D))
    (equation : List Char) : Outcome (Node D × List Char) :=
  match equation with
  | [] => Outcome.undefined
  | _ :: _ =>
    let r := scanGroup equation 0 0
    if r.1 > 0 then Outcome.throw ErrorType.MissingClosingSymbol
    else if r.2 < 2 then Outcome.undefined
    else
      let groupStr := (equation.take (r.2 - 1)).drop 1
      let remaining := equation.drop r.2
      match build groupStr true with
      | Outcome.ok node => Outcome.ok (node, remaining)
      | Outcome.throw e => Outcome.throw e
      | Outcome.undefined => Outcome.undefined

/-- The function `popLiteralFromEquation`. -/
def popLiteralFromEquation {D : Type} (ops : FloatOps D) (equation : List Char) :
    Outcome (Node D × List Char) :=
  match searchOperandLiteral equation with
  | some (str, suffix) =>
    Outcome.ok (Node.literal (strtod ops str) Node.nullptr Node.nullptr, suffix)
  | none => Outcome.throw ErrorType.InvalidOperand

/-- The function `popOperandFromEquation`. -/
def popOperandFromEquation {D : Type} (ops : FloatOps D)
    (build : List Char → Bool → Outcome (Node D)) (equation : List Char) :
    Outcome (Node D × List Char) :=
  if matchOpenGroup equation then popGroupFromEquation build equation
  else popLiteralFromEquation ops equation

/-- The function `popOperatorFromEquation`. -/
def popOperatorFromEquation {D : Type} (equation : List Char) :
    Outcome (Node D × List Char) :=
  match searchOperator equation with
  | some (c, suffix) => Outcome.ok (Node.operator c Node.nullptr Node.nullptr, suffix)
  | none => Outcome.throw ErrorType.InvalidOperator

/-! ## evaluator.cpp: tree building -/

/-- The function `processNegationNode`. -/
def processNegationNode {D : Type} (nodeList : List (Node D)) : Outcome (List (Node D)) :=
  match nodeList with
  | [] => Outcome.undefined
  | Node.nullptr :: _ => Outcome.undefined
  | Node.literal _ _ _ :: _ => Outcome.ok nodeList
  | Node.operator sym left Node.nullptr :: rest =>
    if sym == Negate then
      match rest with
      | [] => Outcome.undefined
      | second :: rest1 => Outcome.ok (Node.operator sym left second :: rest1)
    else Outcome.ok nodeList
  | Node.operator _ _ _ :: _ => Outcome.ok nodeList

/-- State of the `for` loop of `processOperatorNodes`: the list (nodes are
addressed by position, a position stands for an iterator), `previousIter`, and
`elementsToRemove`. -/
structure ForState (D : Type) where
  nodeList : List (Node D)
  previousIter : Nat
  elementsToRemove : List Nat

/-- The body of the `for` loop of `processOperatorNodes` at iterator `i`. -/
def forBody {D : Type} (op1 op2 : Char) (st : ForState D) (i : Nat) : Outcome (ForState D) :=
  match st.nodeList[i]? with
  | some (Node.operator sym _ _) =>
    if sym == op1 || sym == op2 then
      match st.nodeList[st.previousIter]?, st.nodeList[i + 1]? with
      | some previous, some next =>
        Outcome.ok
          { nodeList := st.nodeList.set i (Node.operator sym previous next)
            previousIter := i
            elementsToRemove := (i + 1) :: st.previousIter :: st.elementsToRemove }
      | _, _ => Outcome.undefined
    else Outcome.ok { st with previousIter := i + 1 }
  | _ => Outcome.undefined

/-- The `for` loop of `processOperatorNodes` from iterator `i` on; the first
argument bounds the number of iterations. -/
def forLoop {D : Type} (op1 op2 : Char) : Nat → Nat → ForState D → Outcome (ForState D)
  | 0, _, _ => Outcome.undefined
  | fuel + 1, i, st =>
    if i = st.nodeList.length then Outcome.ok st
    else if i > st.nodeList.length then Outcome.undefined
    else
      match forBody op1 op2 st i with
      | Outcome.ok st1 => forLoop op1 op2 fuel (i + 2) st1
      | Outcome.throw e => Outcome.throw e
      | Outcome.undefined => Outcome.undefined

/-- The list without its elements at the positions in `elementsToRemove`; the
head of the given list is at position `pos`. -/
def eraseAllFrom {D : Type} (elementsToRemove : List Nat) : Nat → List (Node D) → List (Node D)
  | _, [] => []
  | pos, node :: rest =>
    if elementsToRemove.contains pos then eraseAllFrom elementsToRemove (pos + 1) rest
    else node :: eraseAllFrom elementsToRemove (pos + 1) rest

/-- The loop `nodeList.erase(*i)` over `elementsToRemove`. -/
def eraseAll {D : Type} (nodeList : List (Node D)) (elementsToRemove : List Nat) :
    List (Node D) :=
  eraseAllFrom elementsToRemove 0 nodeList

/-- The function `processOperatorNodes`. -/
def processOperatorNodes {D : Type} (nodeList : List (Node D)) (op1 op2 : Char) :
    Outcome (List (Node D)) :=
  match nodeList with
  | [] => Outcome.undefined
  | _ :: _ =>
    match forLoop op1 op2 (nodeList.length + 1) 1
        { nodeList := nodeList, previousIter := 0, elementsToRemove := [] } with
    | Outcome.ok st => Outcome.ok (eraseAll st.nodeList st.elementsToRemove)
    | Outcome.throw e => Outcome.throw e
    | Outcome.undefined => Outcome.undefined

/-- The function `buildTreeFromNodes`. -/
def buildTreeFromNodes {D : Type} (nodeList : List (Node D)) : Outcome (Node D) :=
  match processNegationNode nodeList with
  | Outcome.ok l0 =>
    match processOperatorNodes l0 Power Power with
    | Outcome.ok l1 =>
      match processOperatorNodes l1 Multiplication Division with
      | Outcome.ok l2 =>
        match processOperatorNodes l2 Addition Subtraction with
        | Outcome.ok l3 =>
          match l3 with
          | [root] => Outcome.ok root
          | _ => Outcome.throw ErrorType.UnknownError
        | Outcome.throw e => Outcome.throw e
        | Outcome.undefined => Outcome.undefined
      | Outcome.throw e => Outcome.throw e
      | Outcome.undefined => Outcome.undefined
    | Outcome.throw e => Outcome.throw e
    | Outcome.undefined => Outcome.undefined
  | Outcome.throw e => Outcome.throw e
  | Outcome.undefined => Outcome.undefined

/-- The `while (!equation.empty())` loop of `buildEquationTree(equation, isSubGroup)`;
the first argument bounds the number of iterations. -/
def whileLoop {D : Type} (ops : FloatOps D) (build : List Char → Bool → Outcome (Node D)) :
    Nat → List Char → List (Node D) → Outcome (List (Node D))
  | 0, _, _ => Outcome.undefined
  | fuel + 1, equation, equationNodes =>
    if equation.isEmpty then Outcome.ok equationNodes
    else
      match popOperatorFromEquation equation with
      | Outcome.ok (operatorNode, equation1) =>
        match popOperandFromEquation ops build equation1 with
        | Outcome.ok (operandNode, equation2) =>
          whileLoop ops build fuel equation2 (equationNodes ++ [operatorNode, operandNode])
        | Outcome.throw e => Outcome.throw e
        | Outcome.undefined => Outcome.undefined
      | Outcome.throw e => Outcome.throw e
      | Outcome.undefined => Outcome.undefined

/-- The function `buildEquationTree(std::string equation, bool isSubGroup)`; the
first argument bounds the depth of the recursion through groups. -/
def buildEquationTreeRec {D : Type} (ops : FloatOps D) :
    Nat → List Char → Bool → Outcome (Node D)
  | 0, _, _ => Outcome.undefined
  | fuel + 1, equation, isSubGroup =>
    if equation.isEmpty then
      if isSubGroup then Outcome.throw ErrorType.EmptyGroup else Outcome.ok Node.nullptr
    else
      let neg : Node D × List Char := popNegateFromEquation equation
      let equationNodes : List (Node D) :=
        match neg.1 with
        | Node.nullptr => []
        | negateNode => [negateNode]
      match popOperandFromEquation ops (buildEquationTreeRec ops fuel) neg.2 with
      | Outcome.ok (operandNode, equation1) =>
        match whileLoop ops (buildEquationTreeRec ops fuel) (equation1.length + 1) equation1
            (equationNodes ++ [operandNode]) with
        | Outcome.ok nodes => buildTreeFromNodes nodes
        | Outcome.throw e => Outcome.throw e
        | Outcome.undefined => Outcome.undefined
      | Outcome.throw e => Outcome.throw e
      | Outcome.undefined => Outcome.undefined

/-! ## evaluator.cpp: entry functions -/

/-- The statement `equation.erase(std::remove_if(..., isspace), equation.end())`. -/
def removeWhitespace (equation : List Char) : List Char :=
  equation.filter (fun c => !isspace c)

/-- The function `buildEquationTree(std::string equation)`. -/
def buildEquationTree {D : Type} (ops : FloatOps D) (equation : List Char) : Outcome (Node D) :=
  let stripped := removeWhitespace equation
  buildEquationTreeRec ops (stripped.length + 1) stripped false

/-- The function `evaluateEquationTree`. -/
def evaluateEquationTree {D : Type} (ops : FloatOps D) : Node D → D
  | Node.nullptr => ops.zero
  | Node.literal liternal _ _ => liternal
  | Node.operator sym left right =>
    if sym == Addition then
      ops.add (evaluateEquationTree ops left) (evaluateEquationTree ops right)
    else if sym == Subtraction then
      ops.sub (evaluateEquationTree ops left) (evaluateEquationTree ops right)
    else if sym == Multiplication then
      ops.mul (evaluateEquationTree ops left) (evaluateEquationTree ops right)
    else if sym == Division then
      ops.div (evaluateEquationTree ops left) (evaluateEquationTree ops right)
    else if sym == Power then
      ops.pow (evaluateEquationTree ops left) (evaluateEquationTree ops right)
    else if sym == Negate then
      ops.neg (evaluateEquationTree ops right)
    else ops.zero

/-- The function `evaluateEquation`. -/
def evaluateEquation {D : Type} (ops : FloatOps D) (equation : List Char) : Outcome D :=
  match buildEquationTree ops equation with
  | Outcome.ok tree => Outcome.ok (evaluateEquationTree ops tree)
  | Outcome.throw e => Outcome.throw e
  | Outcome.undefined => Outcome.undefined

/-- Exact rational arithmetic in the place of `double`, to run the program on
examples; `pow` is exact for natural exponents and `0` otherwise, and division
by zero gives `0`. -/
def exactOps : FloatOps ℚ where
  ofRat := id
  zero := 0
  add := fun a b => a + b
  sub := fun a b => a - b
  mul := fun a b => a * b
  div := fun a b => a / b
  pow := fun a b => if b.den = 1 ∧ 0 ≤ b.num then a ^ b.num.toNat else 0
  neg := fun a => -a


/-! ## Vocabulary of the specification -/

/-- A numeric literal in the sense of the specification: `digits` or
`digits.digits`. -/
def isNumericLiteral (s : List Char) : Bool :=
  match s.dropWhile isDigit with
  | [] => !s.isEmpty
  | c :: f => c == '.' && !(s.takeWhile isDigit).isEmpty && !f.isEmpty && f.all isDigit

/-- The precedence tier of a binary operator symbol: Power above
Multiplication/Division above Addition/Subtraction. -/
def tier (c : Char) : Nat :=
  if c == Power then 3
  else if c == Multiplication || c == Division then 2
  else if c == Addition || c == Subtraction then 1
  else 0

/-- The node `popLiteralFromEquation` builds for the literal text `a`. -/
def literalNode {D : Type} (ops : FloatOps D) (a : List Char) : Node D :=
  Node.literal (strtod ops a) Node.nullptr Node.nullptr

/-- The nesting level after the text: the number of `(` less the number of `)`. -/
def nesting (s : List Char) : Int :=
  (s.count '(' : Int) - (s.count ')' : Int)

/-! ## Auxiliary definitions of the proofs -/

/-- What may follow a literal for the literal scan to stop there. -/
def LiteralEnd (rest : List Char) : Prop :=
  ∀ c, rest.head? = some c → isDigit c = false ∧ c ≠ '.'

/-- Applying a function to the value of an outcome. -/
def Outcome.map {α β : Type} (f : α → β) : Outcome α → Outcome β
  | Outcome.ok v => Outcome.ok (f v)
  | Outcome.throw e => Outcome.throw e
  | Outcome.undefined => Outcome.undefined

/-- Continuing with the value of an outcome. -/
def Outcome.bind {α β : Type} (x : Outcome α) (f : α → Outcome β) : Outcome β :=
  match x with
  | Outcome.ok v => f v
  | Outcome.throw e => Outcome.throw e
  | Outcome.undefined => Outcome.undefined

/-- One pass of `processOperatorNodes` in recursive form: `previous` is the node
at `previousIter`, the list holds the nodes from the iterator `i` on, and the
result is the part of the final list from `previousIter` on.  An operator of the
pass takes `previous` and the node after it as children and becomes the new
`previous`; any other operator is kept together with `previous`. -/
def collapse {D : Type} (op1 op2 : Char) : Node D → List (Node D) → Outcome (List (Node D))
  | previous, [] => Outcome.ok [previous]
  | _, [_] => Outcome.undefined
  | previous, Node.operator sym left right :: next :: rest =>
    if sym == op1 || sym == op2 then collapse op1 op2 (Node.operator sym previous next) rest
    else (collapse op1 op2 next rest).map (fun out => previous :: Node.operator sym left right :: out)
  | _, _ :: _ :: _ => Outcome.undefined

/-- Whether the pointer is null. -/
def Node.isNull {D : Type} : Node D → Bool
  | Node.nullptr => true
  | _ => false

/-- The invariant of the data model on every node of a tree: a literal node has
no children, a Negate node has a right child and no left child, and a node of
kind Add, Subtract, Multiply, Divide or Power has both children. -/
def wellFormed {D : Type} : Node D → Bool
  | Node.nullptr => false
  | Node.literal _ left right => left.isNull && right.isNull
  | Node.operator sym left right =>
    if sym == Negate then left.isNull && wellFormed right
    else isOperatorChar sym && wellFormed left && wellFormed right

/-- The node `popOperatorFromEquation` builds for the operator symbol `c`. -/
def operatorNode {D : Type} (c : Char) : Node D :=
  Node.operator c Node.nullptr Node.nullptr

/-- The shape `(operator operand)*` of a token sequence after its first operand. -/
def Shape {D : Type} : List (Node D) → Prop
  | [] => True
  | [_] => False
  | op :: x :: rest =>
    (∃ c, isOperatorChar c = true ∧ op = operatorNode c) ∧ wellFormed x = true ∧ Shape rest

/-- A text through which the scan of `popGroupFromEquation` passes at every
level above zero, to come out at the level at which it went in. -/
def Transparent (s : List Char) : Prop :=
  ∀ (level : Int) (pos : Nat) (rest : List Char), 1 ≤ level → rest ≠ [] →
    scanGroup (s ++ rest) level pos = scanGroup rest level (pos + s.length)

/-- The call `buildEquationTree(groupStr, true)` that `popGroupFromEquation` makes
on a group body. -/
def buildSubGroup {D : Type} (ops : FloatOps D) (groupStr : List Char) : Outcome (Node D) :=
  buildEquationTreeRec ops (groupStr.length + 1) groupStr true

/-- The text `groupStr` that `popGroupFromEquation` takes from an equation
between the opening symbol at its head and the closing symbol at which the scan
stops. -/
def groupStr (equation : List Char) : List Char :=
  (equation.take ((scanGroup equation 0 0).2 - 1)).drop 1

/-! ## Reference grammar of the specification -/

/-- The token sequence after its first operand, for the (operator, operand)
pairs `o1 x1 ... on xn`: each operator as the node `popOperatorFromEquation`
builds, followed by its operand. -/
def tokenTail {D : Type} : List (Char × Node D) → List (Node D)
  | [] => []
  | p :: rest => operatorNode p.1 :: p.2 :: tokenTail rest

/-- A node that can stand first in a token sequence as an operand: not null, and
not a Negate node that still waits for its operand. -/
def isOperand {D : Type} : Node D → Bool
  | Node.nullptr => false
  | Node.literal _ _ _ => true
  | Node.operator sym _ right => !(sym == Negate && right.isNull)

/-- The symbols of Addition and Subtraction. -/
def isAddSub (c : Char) : Bool := c == Addition || c == Subtraction

/-- The symbols of Multiplication and Division. -/
def isMulDiv (c : Char) : Bool := c == Multiplication || c == Division

/-- The left fold of `x0 o1 x1 ... on xn`: the tree `on(... o1(x0, x1) ..., xn)`. -/
def foldLeft {D : Type} (x0 : Node D) (rest : List (Char × Node D)) : Node D :=
  rest.foldl (fun acc p => Node.operator p.1 acc p.2) x0

/-- Cutting the sequence `x0 o1 x1 ... on xn` at the operators that satisfy `sep`:
the first piece and, for each cut, the operator of the cut and the piece after
it; a piece is again a sequence. -/
def cut {α : Type} (sep : Char → Bool) :
    α → List (Char × α) → (α × List (Char × α)) × List (Char × (α × List (Char × α)))
  | x, [] => ((x, []), [])
  | x, p :: rest =>
    if sep p.1 then ((x, []), (p.1, (cut sep p.2 rest).1) :: (cut sep p.2 rest).2)
    else ((x, (p.1, (cut sep p.2 rest).1.1) :: (cut sep p.2 rest).1.2), (cut sep p.2 rest).2)

/-- Reference grammar, `factor := operand ('^' operand)*`: the left fold of the
operands of a factor. -/
def factorTree {D : Type} (f : Node D × List (Char × Node D)) : Node D :=
  foldLeft f.1 f.2

/-- Reference grammar, `term := factor (('*'|'/') factor)*`: the left fold of the
factors of a term. -/
def termTree {D : Type} (t : Node D × List (Char × Node D)) : Node D :=
  foldLeft (factorTree (cut isMulDiv t.1 t.2).1)
    ((cut isMulDiv t.1 t.2).2.map (fun p => (p.1, factorTree p.2)))

/-- Reference grammar, `expr := term (('+'|'-') term)*`: the left fold of the
terms of the sequence `x0 o1 x1 ... on xn`. -/
def exprTree {D : Type} (x0 : Node D) (rest : List (Char × Node D)) : Node D :=
  foldLeft (termTree (cut isAddSub x0 rest).1)
    ((cut isAddSub x0 rest).2.map (fun p => (p.1, termTree p.2)))

/-- One pass in the form of a fold over the (operator, operand) pairs: an
operator of the tier joins the element before it with its operand. -/
def pass {D : Type} (inTier : Char → Bool) :
    Node D → List (Char × Node D) → Node D × List (Char × Node D)
  | x, [] => (x, [])
  | x, p :: rest =>
    if inTier p.1 then pass inTier (Node.operator p.1 x p.2) rest
    else (x, (p.1, (pass inTier p.2 rest).1) :: (pass inTier p.2 rest).2)

/-- Applying a function to the elements of a sequence. -/
def mapSeq {α β : Type} (f : α → β) (s : α × List (Char × α)) : β × List (Char × β) :=
  (f s.1, s.2.map (fun p => (p.1, f p.2)))

/-- The literal values at the leaves of a tree, from left to right. -/
def leaves {D : Type} : Node D → List D
  | Node.nullptr => []
  | Node.literal liternal _ _ => [liternal]
  | Node.operator _ left right => leaves left ++ leaves right

/-- The literal values at the leaves of the operands `x1 ... xn` of the pairs
`o1 x1 ... on xn`, from left to right. -/
def leavesTail {D : Type} : List (Char × Node D) → List D
  | [] => []
  | p :: rest => leaves p.2 ++ leavesTail rest

/-! ## Grammar of the accepted equations -/

/-- The grammar's `Literal`: one or more digits, then zero or more `.`, then zero
or more digits. -/
def IsLiteralText (s : List Char) : Prop :=
  ∃ d dots f, s = d ++ dots ++ f ∧ d ≠ [] ∧ (∀ c ∈ d, isDigit c = true) ∧
    (∀ c ∈ dots, c = '.') ∧ (∀ c ∈ f, isDigit c = true)

/-- The syntactic categories of the grammar; `tail` is `(Op Operand)*`. -/
inductive Category where
  | expr
  | operand
  | tail

/-- The grammar `Expr := ['-'] Operand (Op Operand)*`,
`Operand := Literal | '(' Expr ')'`, `Op := one of + - * / ^`. -/
inductive Generates : Category → List Char → Prop where
  | literal {s : List Char} : IsLiteralText s → Generates Category.operand s
  | group {e : List Char} : Generates Category.expr e →
      Generates Category.operand ('(' :: e ++ [')'])
  | nil : Generates Category.tail []
  | cons {o : Char} {x rest : List Char} : isOperatorChar o = true →
      Generates Category.operand x → Generates Category.tail rest →
      Generates Category.tail (o :: x ++ rest)
  | plain {x rest : List Char} : Generates Category.operand x →
      Generates Category.tail rest → Generates Category.expr (x ++ rest)
  | negated {x rest : List Char} : Generates Category.operand x →
      Generates Category.tail rest → Generates Category.expr ('-' :: x ++ rest)

/-- What the build does on a text of a category of the grammar: an operand is
popped whole before a remainder at which a literal ends, a tail is tokenised to
the end, an expression builds a tree. -/
def Accepts {D : Type} (ops : FloatOps D) : Category → List Char → Prop
  | Category.operand, x => ∀ (n : Nat) (rest : List Char), x.length ≤ n → LiteralEnd rest →
      rest.all isAnyButNewline = true →
      ∃ T, wellFormed T = true ∧
        popOperandFromEquation ops (buildEquationTreeRec ops n) (x ++ rest) = Outcome.ok (T, rest)
  | Category.tail, t => ∀ (n k : Nat) (nodes : List (Node D)), t.length ≤ n → t.length < k →
      ∃ toks, Shape toks ∧
        whileLoop ops (buildEquationTreeRec ops n) k t nodes = Outcome.ok (nodes ++ toks)
  | Category.expr, e => ∀ (n : Nat) (sub : Bool), e.length < n →
      ∃ T, wellFormed T = true ∧ buildEquationTreeRec ops n e sub = Outcome.ok T

/-- An outcome that is a value or one of the four errors of the input: it is
neither undefined nor UnknownError. -/
def Outcome.isUserResult {α : Type} : Outcome α → Prop
  | Outcome.ok _ => True
  | Outcome.throw e => e ≠ ErrorType.UnknownError
  | Outcome.undefined => False

/-! ## The token sequence of the build -/

/-- The list `equationNodes` that `buildEquationTree(equation, isSubGroup)` hands to
`buildTreeFromNodes` for an equation that is not empty: the leading Negate node
when there is one, the first operand, and the operator and the operand of every
turn of the loop. The first argument bounds the depth of the recursion through
groups. -/
def equationNodes {D : Type} (ops : FloatOps D) (fuel : Nat) (equation : List Char) :
    Outcome (List (Node D)) :=
  let neg : Node D × List Char := popNegateFromEquation equation
  let negateNodes : List (Node D) :=
    match neg.1 with
    | Node.nullptr => []
    | negateNode => [negateNode]
  match popOperandFromEquation ops (buildEquationTreeRec ops fuel) neg.2 with
  | Outcome.ok (operandNode, equation1) =>
    whileLoop ops (buildEquationTreeRec ops fuel) (equation1.length + 1) equation1
      (negateNodes ++ [operandNode])
  | Outcome.throw e => Outcome.throw e
  | Outcome.undefined => Outcome.undefined

/-- The shape `[Negate] operand (operator operand)*` of a token sequence. -/
def TokenShape {D : Type} (nodes : List (Node D)) : Prop :=
  ∃ (x : Node D) (toks : List (Node D)), wellFormed x = true ∧ Shape toks ∧
    (nodes = x :: toks ∨ nodes = operatorNode Negate :: x :: toks)

/-- The negation step and the three precedence passes of `buildTreeFromNodes`
leave the list `[root]`. -/
def ReducesTo {D : Type} (nodes : List (Node D)) (root : Node D) : Prop :=
  ∃ l0 l1 l2 : List (Node D), processNegationNode nodes = Outcome.ok l0 ∧
    processOperatorNodes l0 Power Power = Outcome.ok l1 ∧
    processOperatorNodes l1 Multiplication Division = Outcome.ok l2 ∧
    processOperatorNodes l2 Addition Subtraction = Outcome.ok [root]

/-! ## The conversion of `strtod` to `double` -/

/-- The integer nearest to `q`, the even one of the two when `q` lies half way
between them. -/
def roundHalfEven (q : ℚ) : ℤ :=
  let f := ⌊q⌋
  let r := q - f
  if r < 1 / 2 then f
  else if 1 / 2 < r then f + 1
  else if f % 2 = 0 then f else f + 1

/-- The value of the `double` (IEEE 754 binary64) nearest to `q`, ties to even:
the conversion `strtod` makes of a decimal value. The significand has 53 bits and
the least exponent is `-1074`; a value beyond the largest `double`, which `strtod`
converts to `HUGE_VAL`, is outside this model. -/
def roundBinary64 (q : ℚ) : ℚ :=
  if q = 0 then 0
  else
    let e : ℤ := max (Int.log 2 |q| - 52) (-1074)
    (roundHalfEven (q / (2 : ℚ) ^ e) : ℚ) * (2 : ℚ) ^ e

/-- The rational `q` is the value of a finite `double`: an integer of less than
54 bits times a power of two with exponent from `-1074` to `971`. -/
def IsBinary64 (q : ℚ) : Prop :=
  ∃ m e : ℤ, |m| < 2 ^ 53 ∧ -1074 ≤ e ∧ e ≤ 971 ∧ q = (m : ℚ) * (2 : ℚ) ^ e

/-- The arithmetic `exactOps` with the literals converted to `double` as `strtod`
converts them: `ofRat` rounds to the nearest `double`; the operations stay exact. -/
def binary64Literals : FloatOps ℚ :=
  { exactOps with ofRat := roundBinary64 }

/-! # Lemmas -/

/-! ## Characters -/

theorem isspace_false_of_isDigit {c : Char} (h : isDigit c = true) : isspace c = false := by
  cases hc : isspace c with
  | false => rfl
  | true =>
    simp only [isspace, Bool.or_eq_true, beq_iff_eq] at hc
    rcases hc with ((((hc | hc) | hc) | hc) | hc) | hc <;> subst hc <;> revert h <;> decide

theorem isOperatorChar_cases {c : Char} (h : isOperatorChar c = true) :
    c = '+' ∨ c = '-' ∨ c = '*' ∨ c = '/' ∨ c = '^' := by
  simp only [isOperatorChar, Bool.or_eq_true, beq_iff_eq] at h
  tauto

theorem isDigit_false_of_isOperatorChar {c : Char} (h : isOperatorChar c = true) :
    isDigit c = false := by
  rcases isOperatorChar_cases h with h | h | h | h | h <;> subst h <;> decide

theorem ne_dot_of_isOperatorChar {c : Char} (h : isOperatorChar c = true) : c ≠ '.' := by
  rcases isOperatorChar_cases h with h | h | h | h | h <;> subst h <;> decide

theorem isspace_false_of_isOperatorChar {c : Char} (h : isOperatorChar c = true) :
    isspace c = false := by
  rcases isOperatorChar_cases h with h | h | h | h | h <;> subst h <;> decide

theorem ne_paren_of_isDigit {c : Char} (h : isDigit c = true) : c ≠ '(' ∧ c ≠ ')' ∧ c ≠ '-' ∧ c ≠ '.' := by
  refine ⟨?_, ?_, ?_, ?_⟩ <;> intro hc <;> subst hc <;> revert h <;> decide

/-! ## Whitespace removal -/

theorem removeWhitespace_idem (s : List Char) :
    removeWhitespace (removeWhitespace s) = removeWhitespace s := by
  simp [removeWhitespace, List.filter_filter]

theorem removeWhitespace_append (s t : List Char) :
    removeWhitespace (s ++ t) = removeWhitespace s ++ removeWhitespace t := by
  simp [removeWhitespace]

theorem removeWhitespace_cons_of_not_space {c : Char} (s : List Char) (h : isspace c = false) :
    removeWhitespace (c :: s) = c :: removeWhitespace s := by
  simp [removeWhitespace, h]

theorem removeWhitespace_eq_self {s : List Char} (h : ∀ c ∈ s, isspace c = false) :
    removeWhitespace s = s := by
  simp only [removeWhitespace, List.filter_eq_self]
  intro c hc
  simp [h c hc]

theorem isspace_false_of_mem_removeWhitespace {s : List Char} {c : Char}
    (h : c ∈ removeWhitespace s) : isspace c = false := by
  simp [removeWhitespace] at h
  exact h.2

theorem all_isAnyButNewline_removeWhitespace (s : List Char) :
    (removeWhitespace s).all isAnyButNewline = true := by
  simp only [List.all_eq_true]
  intro c hc
  have h := isspace_false_of_mem_removeWhitespace hc
  cases hn : isAnyButNewline c with
  | true => rfl
  | false =>
    simp only [isAnyButNewline, Bool.and_eq_false_iff, bne_eq_false_iff_eq] at hn
    rcases hn with hn | hn <;> subst hn <;> revert h <;> decide

/-! ## Literal scan -/

theorem literalEnd_nil : LiteralEnd [] := by
  intro c h
  simp at h

theorem literalEnd_cons_operator {o : Char} (rest : List Char) (h : isOperatorChar o = true) :
    LiteralEnd (o :: rest) := by
  intro c hc
  simp only [List.head?_cons, Option.some.injEq] at hc
  subst hc
  exact ⟨isDigit_false_of_isOperatorChar h, ne_dot_of_isOperatorChar h⟩

theorem takeWhile_isDigit_of_literalEnd {rest : List Char} (h : LiteralEnd rest) :
    rest.takeWhile isDigit = [] ∧ rest.dropWhile isDigit = rest := by
  cases rest with
  | nil => simp
  | cons c r =>
    have hc := (h c (by simp)).1
    simp [List.takeWhile_cons, List.dropWhile_cons, hc]

theorem takeWhile_dot_of_literalEnd {rest : List Char} (h : LiteralEnd rest) :
    rest.takeWhile (fun c => c == '.') = [] ∧ rest.dropWhile (fun c => c == '.') = rest := by
  cases rest with
  | nil => simp
  | cons c r =>
    have hc := (h c (by simp)).2
    simp [List.takeWhile_cons, List.dropWhile_cons, hc]

theorem searchOperandLiteral_digits {d rest : List Char} (hne : d ≠ [])
    (hd : ∀ c ∈ d, isDigit c = true) (hr : LiteralEnd rest) :
    searchOperandLiteral (d ++ rest) = some (d, rest) := by
  have h1 := takeWhile_isDigit_of_literalEnd hr
  have h2 := takeWhile_dot_of_literalEnd hr
  simp only [searchOperandLiteral, List.takeWhile_append_of_pos hd,
    List.dropWhile_append_of_pos hd, h1.1, h1.2, h2.1, h2.2, List.append_nil]
  cases d with
  | nil => exact absurd rfl hne
  | cons c r => simp

theorem searchOperandLiteral_decimal {d f rest : List Char} (hne : d ≠ [])
    (hd : ∀ c ∈ d, isDigit c = true) (hf : ∀ c ∈ f, isDigit c = true) (hr : LiteralEnd rest) :
    searchOperandLiteral (d ++ '.' :: f ++ rest) = some (d ++ '.' :: f, rest) := by
  have h1 := takeWhile_isDigit_of_literalEnd hr
  have h2 := takeWhile_dot_of_literalEnd hr
  have hdot : isDigit '.' = false := by decide
  have e : d ++ '.' :: f ++ rest = d ++ ('.' :: (f ++ rest)) := by simp
  have e1 : List.takeWhile isDigit (f ++ rest) = f := by
    rw [List.takeWhile_append_of_pos hf, h1.1, List.append_nil]
  have e2 : List.dropWhile isDigit (f ++ rest) = rest := by
    rw [List.dropWhile_append_of_pos hf, h1.2]
  have e3 : List.takeWhile (fun c => c == '.') (f ++ rest) = [] := by
    cases f with
    | nil => simpa using h2.1
    | cons c r =>
      have hc := (ne_paren_of_isDigit (hf c (by simp))).2.2.2
      simp [List.takeWhile_cons, hc]
  have e4 : List.dropWhile (fun c => c == '.') (f ++ rest) = f ++ rest := by
    cases f with
    | nil => simpa using h2.2
    | cons c r =>
      have hc := (ne_paren_of_isDigit (hf c (by simp))).2.2.2
      simp [List.dropWhile_cons, hc]
  rw [e]
  simp only [searchOperandLiteral, List.takeWhile_append_of_pos hd,
    List.dropWhile_append_of_pos hd, List.takeWhile_cons, List.dropWhile_cons, hdot,
    beq_self_eq_true, if_true, e1, e2, e3, e4, List.append_nil]
  cases d with
  | nil => exact absurd rfl hne
  | cons c r => simp [e1, e2, e3, e4]

theorem isNumericLiteral_cases {a : List Char} (h : isNumericLiteral a = true) :
    (a ≠ [] ∧ ∀ c ∈ a, isDigit c = true) ∨
    ∃ d f, a = d ++ '.' :: f ∧ d ≠ [] ∧ (∀ c ∈ d, isDigit c = true) ∧ f ≠ [] ∧
      ∀ c ∈ f, isDigit c = true := by
  unfold isNumericLiteral at h
  have hsplit := List.takeWhile_append_dropWhile isDigit a
  cases hdrop : List.dropWhile isDigit a with
  | nil =>
    left
    rw [hdrop] at h
    refine ⟨?_, List.dropWhile_eq_nil_iff.mp hdrop⟩
    intro ha
    simp [ha] at h
  | cons c f =>
    right
    rw [hdrop] at h
    simp only [Bool.and_eq_true, beq_iff_eq, Bool.not_eq_true', List.isEmpty_eq_false,
      List.all_eq_true] at h
    obtain ⟨⟨⟨hc, hd⟩, hf⟩, hall⟩ := h
    subst hc
    refine ⟨List.takeWhile isDigit a, f, ?_, ?_, ?_, ?_, hall⟩
    · rw [← hdrop, hsplit]
    · intro h0
      simp [h0] at hd
    · intro x hx
      exact (List.mem_takeWhile_imp hx)
    · intro h0
      simp [h0] at hf

theorem searchOperandLiteral_numeric {a rest : List Char} (ha : isNumericLiteral a = true)
    (hr : LiteralEnd rest) : searchOperandLiteral (a ++ rest) = some (a, rest) := by
  rcases isNumericLiteral_cases ha with ⟨hne, hd⟩ | ⟨d, f, rfl, hne, hd, _, hf⟩
  · exact searchOperandLiteral_digits hne hd hr
  · exact searchOperandLiteral_decimal hne hd hf hr

theorem isNumericLiteral_head {a : List Char} (ha : isNumericLiteral a = true) :
    ∃ c r, a = c :: r ∧ isDigit c = true := by
  rcases isNumericLiteral_cases ha with ⟨hne, hd⟩ | ⟨d, f, rfl, hne, hd, _, _⟩
  · cases a with
    | nil => exact absurd rfl hne
    | cons c r => exact ⟨c, r, rfl, hd c (by simp)⟩
  · cases d with
    | nil => exact absurd rfl hne
    | cons c r => exact ⟨c, r ++ '.' :: f, by simp, hd c (by simp)⟩

theorem isNumericLiteral_no_space {a : List Char} (ha : isNumericLiteral a = true) :
    ∀ c ∈ a, isspace c = false := by
  rcases isNumericLiteral_cases ha with ⟨_, hd⟩ | ⟨d, f, rfl, _, hd, _, hf⟩
  · intro c hc
    exact isspace_false_of_isDigit (hd c hc)
  · intro c hc
    simp only [List.mem_append, List.mem_cons] at hc
    rcases hc with hc | hc | hc
    · exact isspace_false_of_isDigit (hd c hc)
    · subst hc
      decide
    · exact isspace_false_of_isDigit (hf c hc)

theorem removeWhitespace_numeric {a : List Char} (ha : isNumericLiteral a = true) :
    removeWhitespace a = a :=
  removeWhitespace_eq_self (isNumericLiteral_no_space ha)

theorem matchOpenGroup_numeric {a : List Char} (rest : List Char)
    (ha : isNumericLiteral a = true) : matchOpenGroup (a ++ rest) = false := by
  obtain ⟨c, r, rfl, hc⟩ := isNumericLiteral_head ha
  have := (ne_paren_of_isDigit hc).1
  simp [matchOpenGroup, this]

theorem popOperandFromEquation_numeric {D : Type} (ops : FloatOps D)
    (build : List Char → Bool → Outcome (Node D)) {a rest : List Char}
    (ha : isNumericLiteral a = true) (hr : LiteralEnd rest) :
    popOperandFromEquation ops build (a ++ rest) = Outcome.ok (literalNode ops a, rest) := by
  simp [popOperandFromEquation, matchOpenGroup_numeric rest ha, popLiteralFromEquation,
    searchOperandLiteral_numeric ha hr, literalNode]

theorem popNegateFromEquation_numeric {D : Type} {a : List Char} (rest : List Char)
    (ha : isNumericLiteral a = true) :
    (popNegateFromEquation (a ++ rest) : Node D × List Char) = (Node.nullptr, a ++ rest) := by
  obtain ⟨c, r, rfl, hc⟩ := isNumericLiteral_head ha
  have := (ne_paren_of_isDigit hc).2.2.1
  simp [popNegateFromEquation, searchNegate, this]

/-! ## The passes of `processOperatorNodes` -/

theorem eraseAllFrom_append {D : Type} (R : List Nat) (a b : List (Node D)) (k : Nat) :
    eraseAllFrom R k (a ++ b) = eraseAllFrom R k a ++ eraseAllFrom R (k + a.length) b := by
  induction a generalizing k with
  | nil => simp [eraseAllFrom]
  | cons x xs ih =>
    simp only [List.cons_append, eraseAllFrom, List.length_cons]
    have e : k + (xs.length + 1) = k + 1 + xs.length := by omega
    split <;> simp [ih, e]

theorem eraseAllFrom_all_mem {D : Type} (R : List Nat) (l : List (Node D)) (k : Nat)
    (h : ∀ j, k ≤ j → j < k + l.length → j ∈ R) : eraseAllFrom R k l = [] := by
  induction l generalizing k with
  | nil => simp [eraseAllFrom]
  | cons x xs ih =>
    have hk : k ∈ R := h k (le_refl k) (by simp)
    simp only [eraseAllFrom, List.elem_eq_mem, decide_eq_true_eq, hk, if_true]
    apply ih
    intro j h1 h2
    exact h j (by omega) (by simp only [List.length_cons]; omega)

theorem eraseAllFrom_congr {D : Type} (R R1 : List Nat) (l : List (Node D)) (k : Nat)
    (h : ∀ j, k ≤ j → j < k + l.length → (j ∈ R ↔ j ∈ R1)) :
    eraseAllFrom R k l = eraseAllFrom R1 k l := by
  induction l generalizing k with
  | nil => simp [eraseAllFrom]
  | cons x xs ih =>
    have hk : k ∈ R ↔ k ∈ R1 := h k (le_refl k) (by simp)
    have ih1 := ih (k + 1) (fun j h1 h2 => h j (by omega) (by simp only [List.length_cons]; omega))
    simp only [eraseAllFrom, List.elem_eq_mem, decide_eq_true_eq, ih1, hk]

theorem eraseAllFrom_nil_positions {D : Type} (l : List (Node D)) (k : Nat) :
    eraseAllFrom [] k l = l := by
  induction l generalizing k with
  | nil => simp [eraseAllFrom]
  | cons x xs ih => simp [eraseAllFrom, ih]

theorem getElem?_front_length {D : Type} (front suffix : List (Node D)) (j : Nat) :
    (front ++ suffix)[front.length + j]? = suffix[j]? := by
  rw [List.getElem?_append_right (by omega)]
  congr 1
  omega

theorem set_front_length {D : Type} (front : List (Node D)) (a v : Node D) (rest : List (Node D)) :
    (front ++ a :: rest).set front.length v = front ++ v :: rest := by
  induction front with
  | nil => simp
  | cons x xs ih => simp [ih]

theorem getElem?_at_length {D : Type} (pre : List (Node D)) (xp : Node D) (tail : List (Node D)) :
    (pre ++ xp :: tail)[pre.length]? = some xp := by
  simpa using getElem?_front_length pre (xp :: tail) 0

theorem forLoop_past_end {D : Type} (op1 op2 : Char) (fuel i : Nat) (st : ForState D)
    (h : i > st.nodeList.length) : forLoop op1 op2 fuel i st = Outcome.undefined := by
  cases fuel with
  | zero => rfl
  | succ f =>
    simp only [forLoop]
    rw [if_neg (by omega), if_pos h]

theorem forLoop_collapse {D : Type} (op1 op2 : Char) :
    ∀ (suffix pre : List (Node D)) (xp : Node D) (mid : List (Node D)) (R : List Nat)
      (fuel : Nat),
      suffix.length < fuel →
      (∀ k ∈ R, k < pre.length + 1 + mid.length) →
      pre.length ∉ R →
      (∀ k, pre.length < k → k < pre.length + 1 + mid.length → k ∈ R) →
      (forLoop op1 op2 fuel (pre.length + 1 + mid.length)
          { nodeList := pre ++ xp :: mid ++ suffix, previousIter := pre.length,
            elementsToRemove := R }).map
        (fun st => eraseAll st.nodeList st.elementsToRemove)
      = (collapse op1 op2 xp suffix).map (fun out => eraseAllFrom R 0 pre ++ out)
  | [], pre, xp, mid, R, fuel, hfuel, hR, hp, hmid => by
    obtain ⟨f, rfl⟩ : ∃ f, fuel = f + 1 := ⟨fuel - 1, by simp at hfuel; omega⟩
    have hlen : pre.length + 1 + mid.length = (pre ++ xp :: mid ++ []).length := by
      simp; omega
    simp only [forLoop, hlen, if_true, Outcome.map, collapse, eraseAll]
    congr 1
    have e : pre ++ xp :: mid ++ [] = pre ++ ([xp] ++ mid) := by simp
    rw [e, eraseAllFrom_append, eraseAllFrom_append]
    have h1 : eraseAllFrom R (0 + pre.length) ([xp] : List (Node D)) = [xp] := by
      have : ¬ (0 + pre.length) ∈ R := by simpa using hp
      simp only [eraseAllFrom, List.elem_eq_mem, decide_eq_true_eq, this, if_false]
    have h2 : eraseAllFrom R (0 + pre.length + ([xp] : List (Node D)).length) mid = [] := by
      apply eraseAllFrom_all_mem
      intro j hj1 hj2
      simp at hj1 hj2
      exact hmid j (by omega) (by omega)
    rw [h1, h2]
    simp
  | [a], pre, xp, mid, R, fuel, hfuel, hR, hp, hmid => by
    obtain ⟨f, rfl⟩ : ∃ f, fuel = f + 1 := ⟨fuel - 1, by simp at hfuel; omega⟩
    have hfl : (pre ++ xp :: mid).length = pre.length + 1 + mid.length := by simp; omega
    have hL : pre ++ xp :: mid ++ [a] = (pre ++ xp :: mid) ++ [a] := by simp
    have hlen : (pre ++ xp :: mid ++ [a]).length = pre.length + 1 + mid.length + 1 := by
      simp; omega
    have hi : (pre ++ xp :: mid ++ [a])[pre.length + 1 + mid.length]? = some a := by
      rw [hL, ← hfl]
      simpa using getElem?_front_length (pre ++ xp :: mid) [a] 0
    have hi1 : (pre ++ xp :: mid ++ [a])[pre.length + 1 + mid.length + 1]? = none := by
      rw [hL, ← hfl]
      simpa using getElem?_front_length (pre ++ xp :: mid) [a] 1
    have hne : pre.length + 1 + mid.length ≠ pre.length + 1 + mid.length + 1 := by omega
    have hgt : ¬ (pre.length + 1 + mid.length > pre.length + 1 + mid.length + 1) := by omega
    simp only [forLoop, hlen, hne, hgt, if_false, forBody, hi, hi1, collapse, Outcome.map]
    cases a with
    | nullptr => rfl
    | literal v l r => rfl
    | operator sym l r =>
      simp only
      by_cases hm : (sym == op1 || sym == op2) = true
      · simp only [hm, ↓reduceIte]
        split <;> simp_all
      · simp only [hm, Bool.false_eq_true, ↓reduceIte]
        rw [forLoop_past_end]
        dsimp only
        omega
  | a :: b :: rest, pre, xp, mid, R, fuel, hfuel, hR, hp, hmid => by
    obtain ⟨f, rfl⟩ : ∃ f, fuel = f + 1 := ⟨fuel - 1, by simp at hfuel; omega⟩
    have hf : rest.length < f := by simp at hfuel; omega
    have hfl : (pre ++ xp :: mid).length = pre.length + 1 + mid.length := by simp; omega
    have hL : pre ++ xp :: mid ++ a :: b :: rest = (pre ++ xp :: mid) ++ a :: b :: rest := by simp
    have hlen : (pre ++ xp :: mid ++ a :: b :: rest).length
        = pre.length + 1 + mid.length + (rest.length + 2) := by
      simp; omega
    have hi : (pre ++ xp :: mid ++ a :: b :: rest)[pre.length + 1 + mid.length]? = some a := by
      rw [hL, ← hfl]
      simpa using getElem?_front_length (pre ++ xp :: mid) (a :: b :: rest) 0
    have hi1 : (pre ++ xp :: mid ++ a :: b :: rest)[pre.length + 1 + mid.length + 1]? = some b := by
      rw [hL, ← hfl]
      simpa using getElem?_front_length (pre ++ xp :: mid) (a :: b :: rest) 1
    have hpv : (pre ++ xp :: mid ++ a :: b :: rest)[pre.length]? = some xp := by
      have e : pre ++ xp :: mid ++ a :: b :: rest = pre ++ xp :: (mid ++ a :: b :: rest) := by simp
      rw [e]
      exact getElem?_at_length _ _ _
    have hne : pre.length + 1 + mid.length ≠ pre.length + 1 + mid.length + (rest.length + 2) := by
      omega
    have hgt : ¬ (pre.length + 1 + mid.length > pre.length + 1 + mid.length + (rest.length + 2)) := by
      omega
    simp only [forLoop, hlen, hne, hgt, if_false, forBody, hi, hi1, hpv]
    cases a with
    | nullptr => rfl
    | literal v l r => rfl
    | operator sym l r =>
      simp only
      by_cases hm : (sym == op1 || sym == op2) = true
      · simp only [hm, ↓reduceIte, collapse]
        have hset : (pre ++ xp :: mid ++ Node.operator sym l r :: b :: rest).set
            (pre.length + 1 + mid.length) (Node.operator sym xp b)
            = (pre ++ xp :: mid) ++ Node.operator sym xp b :: [b] ++ rest := by
          rw [hL, ← hfl, set_front_length]
          simp
        rw [hset]
        have ih := forLoop_collapse op1 op2 rest (pre ++ xp :: mid) (Node.operator sym xp b) [b]
          ((pre.length + 1 + mid.length + 1) :: pre.length :: R) f hf
        have e1 : (pre ++ xp :: mid).length + 1 + [b].length = pre.length + 1 + mid.length + 2 := by
          simp; omega
        rw [e1, hfl] at ih
        have hnotR : pre.length + 1 + mid.length ∉ R := fun h => by
          have := hR _ h
          omega
        rw [ih]
        · congr 1
          funext out
          congr 1
          rw [eraseAllFrom_append]
          have h1 : eraseAllFrom ((pre.length + 1 + mid.length + 1) :: pre.length :: R)
              (0 + pre.length) (xp :: mid) = [] := by
            apply eraseAllFrom_all_mem
            intro j hj1 hj2
            simp only [List.length_cons] at hj2
            by_cases hj : j = pre.length
            · simp [hj]
            · have := hmid j (by omega) (by omega)
              simp [this]
          rw [h1, List.append_nil]
          apply eraseAllFrom_congr
          intro j _ hj2
          have hj3 : j ≠ pre.length + 1 + mid.length + 1 := by omega
          have hj4 : j ≠ pre.length := by omega
          simp [hj3, hj4]
        · intro k hk
          simp only [List.mem_cons] at hk
          rcases hk with hk | hk | hk
          · omega
          · omega
          · have := hR k hk
            omega
        · intro h
          simp only [List.mem_cons] at h
          rcases h with h | h | h
          · omega
          · omega
          · exact hnotR h
        · intro k hk1 hk2
          have : k = pre.length + 1 + mid.length + 1 := by omega
          simp [this]
      · simp only [hm, Bool.false_eq_true, ↓reduceIte, collapse]
        have ih := forLoop_collapse op1 op2 rest (pre ++ xp :: mid ++ [Node.operator sym l r]) b []
          R f hf
        have e1 : (pre ++ xp :: mid ++ [Node.operator sym l r]).length + 1 + ([] : List (Node D)).length
            = pre.length + 1 + mid.length + 2 := by
          simp; omega
        have e2 : (pre ++ xp :: mid ++ [Node.operator sym l r]).length
            = pre.length + 1 + mid.length + 1 := by
          simp; omega
        have e3 : pre ++ xp :: mid ++ [Node.operator sym l r] ++ b :: [] ++ rest
            = pre ++ xp :: mid ++ Node.operator sym l r :: b :: rest := by simp
        rw [e1, e2, e3] at ih
        have hnotR : pre.length + 1 + mid.length ∉ R := fun h => by
          have := hR _ h
          omega
        rw [ih]
        · have e4 : eraseAllFrom R 0 (pre ++ xp :: mid ++ [Node.operator sym l r])
              = eraseAllFrom R 0 pre ++ [xp, Node.operator sym l r] := by
            have e5 : pre ++ xp :: mid ++ [Node.operator sym l r]
                = pre ++ ([xp] ++ (mid ++ [Node.operator sym l r])) := by simp
            rw [e5, eraseAllFrom_append, eraseAllFrom_append, eraseAllFrom_append]
            have h1 : eraseAllFrom R (0 + pre.length) ([xp] : List (Node D)) = [xp] := by
              have : ¬ (0 + pre.length) ∈ R := by simpa using hp
              simp only [eraseAllFrom, List.elem_eq_mem, decide_eq_true_eq, this, if_false]
            have h2 : eraseAllFrom R (0 + pre.length + ([xp] : List (Node D)).length) mid = [] := by
              apply eraseAllFrom_all_mem
              intro j hj1 hj2
              simp at hj1 hj2
              exact hmid j (by omega) (by omega)
            have h3 : eraseAllFrom R (0 + pre.length + ([xp] : List (Node D)).length + mid.length)
                [Node.operator sym l r] = [Node.operator sym l r] := by
              have : ¬ (0 + pre.length + ([xp] : List (Node D)).length + mid.length) ∈ R := by
                simpa using hnotR
              simp only [eraseAllFrom, List.elem_eq_mem, decide_eq_true_eq, this, if_false]
            rw [h1, h2, h3]
            simp
          rw [e4]
          cases collapse op1 op2 b rest <;> simp [Outcome.map]
        · intro k hk
          have := hR k hk
          omega
        · exact fun h => by
            have := hR _ h
            omega
        · intro k hk1 hk2
          omega

theorem processOperatorNodes_eq_collapse {D : Type} (x : Node D) (rest : List (Node D))
    (op1 op2 : Char) : processOperatorNodes (x :: rest) op1 op2 = collapse op1 op2 x rest := by
  have h := forLoop_collapse op1 op2 rest [] x [] [] ((x :: rest).length + 1)
    (by simp only [List.length_cons]; omega) (by simp) (by simp)
    (by intro k h1 h2; simp at h1 h2; omega)
  have h2 : (collapse op1 op2 x rest).map (fun out => eraseAllFrom [] 0 [] ++ out)
      = collapse op1 op2 x rest := by
    cases collapse op1 op2 x rest <;> rfl
  rw [h2] at h
  rw [← h]
  show processOperatorNodes (x :: rest) op1 op2
    = (forLoop op1 op2 ((x :: rest).length + 1) 1
        { nodeList := x :: rest, previousIter := 0, elementsToRemove := [] }).map
      (fun st => eraseAll st.nodeList st.elementsToRemove)
  simp only [processOperatorNodes]
  cases forLoop op1 op2 ((x :: rest).length + 1) 1
    { nodeList := x :: rest, previousIter := 0, elementsToRemove := [] } <;> rfl

/-! ## The scan of `popGroupFromEquation` -/

theorem transparent_nil : Transparent [] := by
  intro level pos rest _ _
  simp

theorem transparent_append {a b : List Char} (ha : Transparent a) (hb : Transparent b) :
    Transparent (a ++ b) := by
  intro level pos rest hl hr
  have h1 : b ++ rest ≠ [] := by simp [hr]
  rw [List.append_assoc, ha level pos (b ++ rest) hl h1, hb level _ rest hl hr]
  simp [Nat.add_assoc]

theorem transparent_singleton {c : Char} (h1 : c ≠ '(') (h2 : c ≠ ')') : Transparent [c] := by
  intro level pos rest hl hr
  have hr2 : rest.isEmpty = false := by
    cases rest with
    | nil => exact absurd rfl hr
    | cons x xs => rfl
  have hl2 : decide (level > 0) = true := by
    simp only [gt_iff_lt, decide_eq_true_eq]
    omega
  simp [scanGroup, h1, h2, hr2, hl2]

theorem transparent_of_no_paren {s : List Char} (h : ∀ c ∈ s, c ≠ '(' ∧ c ≠ ')') :
    Transparent s := by
  induction s with
  | nil => exact transparent_nil
  | cons c r ih =>
    have h1 := h c (by simp)
    have h2 : Transparent r := ih (fun x hx => h x (by simp [hx]))
    exact transparent_append (transparent_singleton h1.1 h1.2) h2

theorem transparent_group {body : List Char} (h : Transparent body) :
    Transparent ('(' :: body ++ [')']) := by
  intro level pos rest hl hr
  have hr2 : rest.isEmpty = false := by
    cases rest with
    | nil => exact absurd rfl hr
    | cons x xs => rfl
  have e : '(' :: body ++ [')'] ++ rest = '(' :: (body ++ ')' :: rest) := by simp
  have hne : (body ++ ')' :: rest).isEmpty = false := by
    cases body <;> rfl
  have hl1 : decide (level + 1 > 0) = true := by
    simp only [gt_iff_lt, decide_eq_true_eq]
    omega
  have hl2 : decide (level + 1 - 1 > 0) = true := by
    simp only [gt_iff_lt, decide_eq_true_eq]
    omega
  rw [e]
  simp only [scanGroup, beq_self_eq_true, if_true, hl1, hne, Bool.not_false, Bool.and_self]
  rw [h (level + 1) (pos + 1) (')' :: rest) (by omega) (by simp)]
  have hc : ((')' : Char) == '(') = false := by decide
  simp only [scanGroup, hc, Bool.false_eq_true, if_false, beq_self_eq_true, if_true, hl2, hr2,
    Bool.not_false, Bool.and_self]
  have e1 : level + 1 - 1 = level := by omega
  have e2 : pos + 1 + body.length + 1 = pos + ('(' :: body ++ [')']).length := by
    simp; omega
  rw [e1, e2]

theorem scanGroup_group {body : List Char} (h : Transparent body) (r : List Char) :
    scanGroup ('(' :: body ++ ')' :: r) 0 0 = (0, body.length + 2) := by
  have hne : (body ++ ')' :: r).isEmpty = false := by
    cases body <;> rfl
  have e : '(' :: body ++ ')' :: r = '(' :: (body ++ ')' :: r) := by simp
  rw [e]
  simp only [scanGroup, beq_self_eq_true, if_true, hne]
  have h1 : decide ((0 : Int) + 1 > 0) = true := by decide
  simp only [h1, Bool.not_false, Bool.and_self, if_true]
  rw [h (0 + 1) (0 + 1) (')' :: r) (by omega) (by simp)]
  have hc : ((')' : Char) == '(') = false := by decide
  simp [scanGroup, hc]
  omega

theorem scanGroup_closed : ∀ (s : List Char) (level : Int) (pos : Nat), 1 ≤ level → s ≠ [] →
    (scanGroup s level pos).1 ≤ 0 →
    ∃ k, (scanGroup s level pos).2 = pos + k + 1 ∧ s[k]? = some ')'
  | [], _, _, _, hs, _ => absurd rfl hs
  | c :: rest, level, pos, hl, _, h => by
    by_cases hcond : (decide ((if c == '(' then level + 1 else if c == ')' then level - 1
        else level) > 0) && !rest.isEmpty) = true
    · simp only [scanGroup, hcond, if_true] at h ⊢
      simp only [Bool.and_eq_true, decide_eq_true_eq, Bool.not_eq_true', List.isEmpty_eq_false] at hcond
      have hrest : rest ≠ [] := by
        intro h0
        simp [h0] at hcond
      obtain ⟨k, hk1, hk2⟩ := scanGroup_closed rest _ (pos + 1) (by omega) hrest h
      exact ⟨k + 1, by rw [hk1]; omega, by simpa using hk2⟩
    · simp only [scanGroup, hcond, if_false] at h ⊢
      refine ⟨0, by simp, ?_⟩
      by_cases h1 : c = '('
      · simp [h1] at h
        omega
      · by_cases h2 : c = ')'
        · simp [h2]
        · simp [h1, h2] at h
          omega

/-! ## Operands -/

theorem take_drop_group (body r : List Char) :
    (List.take (body.length + 2 - 1) ('(' :: body ++ ')' :: r)).drop 1 = body ∧
    List.drop (body.length + 2) ('(' :: body ++ ')' :: r) = r := by
  constructor
  · have e : body.length + 2 - 1 = body.length + 1 := by omega
    rw [e]
    simp [List.take_append_eq_append_take]
  · have e : '(' :: body ++ ')' :: r = ('(' :: body ++ [')']) ++ r := by simp
    rw [e]
    have e2 : body.length + 2 = ('(' :: body ++ [')']).length := by simp
    rw [e2, List.drop_left]

theorem popGroupFromEquation_group {D : Type} (build : List Char → Bool → Outcome (Node D))
    {body : List Char} (h : Transparent body) (r : List Char) :
    popGroupFromEquation build ('(' :: body ++ ')' :: r)
      = (build body true).map (fun node => (node, r)) := by
  have e : '(' :: body ++ ')' :: r = '(' :: (body ++ ')' :: r) := by simp
  have hs := scanGroup_group h r
  have htd := take_drop_group body r
  rw [e] at hs htd ⊢
  simp only [popGroupFromEquation, hs, htd.1, htd.2]
  have h1 : ¬ ((0 : Int) > 0) := by decide
  have h2 : ¬ (body.length + 2 < 2) := by omega
  simp only [h1, h2, if_false]
  cases build body true <;> rfl

theorem popGroupFromEquation_ok {D : Type} (build : List Char → Bool → Outcome (Node D))
    {t : List Char} {x : Node D} {eq2 : List Char}
    (h : popGroupFromEquation build ('(' :: t) = Outcome.ok (x, eq2)) :
    ∃ body, '(' :: t = '(' :: body ++ ')' :: eq2 ∧ build body true = Outcome.ok x := by
  simp only [popGroupFromEquation] at h
  by_cases h1 : (scanGroup ('(' :: t) 0 0).1 > 0
  · simp [h1] at h
  · by_cases h2 : (scanGroup ('(' :: t) 0 0).2 < 2
    · simp [h1, h2] at h
    · simp only [h1, h2, if_false] at h
      have hb : ∃ y, build ((List.take ((scanGroup ('(' :: t) 0 0).2 - 1) ('(' :: t)).drop 1) true
          = Outcome.ok y ∧ (y, List.drop (scanGroup ('(' :: t) 0 0).2 ('(' :: t)) = (x, eq2) := by
        cases hbb : build ((List.take ((scanGroup ('(' :: t) 0 0).2 - 1) ('(' :: t)).drop 1) true with
        | ok y =>
          rw [hbb] at h
          simp only [Outcome.ok.injEq] at h
          exact ⟨y, rfl, h⟩
        | throw e =>
          rw [hbb] at h
          simp at h
        | undefined =>
          rw [hbb] at h
          simp at h
      obtain ⟨y, hy1, hy2⟩ := hb
      simp only [Prod.mk.injEq] at hy2
      obtain ⟨rfl, hrem⟩ := hy2
      -- the scan went into `t` at level 1
      by_cases ht : t = []
      · subst ht
        exfalso
        apply h1
        simp [scanGroup]
      · have hne : t.isEmpty = false := by
          cases t with
          | nil => exact absurd rfl ht
          | cons a b => rfl
        have hscan : scanGroup ('(' :: t) 0 0 = scanGroup t 1 1 := by
          simp [scanGroup, hne]
        rw [hscan] at h1 h2 hy1 hrem
        obtain ⟨k, hk1, hk2⟩ := scanGroup_closed t 1 1 (le_refl 1) ht (by omega)
        rw [hk1] at hy1 hrem
        have hklt : k < t.length := by
          by_contra hcon
          rw [List.getElem?_eq_none (by omega)] at hk2
          simp at hk2
        have e1 : 1 + k + 1 - 1 = k + 1 := by omega
        have e2 : 1 + k + 1 = k + 1 + 1 := by omega
        rw [e1] at hy1
        rw [e2] at hrem
        simp only [List.take_succ_cons, List.drop_succ_cons, List.drop_zero] at hy1 hrem
        refine ⟨List.take k t, ?_, hy1⟩
        have hsplit : t = List.take k t ++ ')' :: List.drop (k + 1) t := by
          have h3 := List.take_append_drop k t
          have h4 : List.drop k t = ')' :: List.drop (k + 1) t := by
            rw [List.drop_eq_getElem_cons hklt]
            congr 1
            rw [List.getElem?_eq_getElem hklt] at hk2
            simpa using hk2
          rw [← h4, h3]
        rw [hrem] at hsplit
        rw [List.cons_append, ← hsplit]

theorem matchOpenGroup_cases {eq : List Char} (h : matchOpenGroup eq = true) :
    ∃ t, eq = '(' :: t := by
  cases eq with
  | nil => simp [matchOpenGroup] at h
  | cons c t =>
    simp only [matchOpenGroup, Bool.and_eq_true, beq_iff_eq] at h
    exact ⟨t, by rw [h.1]⟩

theorem searchOperandLiteral_ok {eq str suffix : List Char}
    (h : searchOperandLiteral eq = some (str, suffix)) :
    eq = str ++ suffix ∧ str ≠ [] ∧ ∀ c ∈ str, c ≠ '(' ∧ c ≠ ')' := by
  simp only [searchOperandLiteral] at h
  by_cases hd : (List.takeWhile isDigit eq).isEmpty = true
  · simp [hd] at h
  · simp only [hd, if_false, Option.some.injEq, Prod.mk.injEq, Bool.false_eq_true] at h
    obtain ⟨h1, h2⟩ := h
    refine ⟨?_, ?_, ?_⟩
    · rw [← h1, ← h2]
      simp only [List.append_assoc, List.takeWhile_append_dropWhile]
    · rw [← h1]
      intro h0
      simp only [List.append_eq_nil] at h0
      simp [h0.1.1] at hd
    · intro c hc
      rw [← h1] at hc
      simp only [List.mem_append] at hc
      rcases hc with (hc | hc) | hc
      · have := List.mem_takeWhile_imp hc
        exact ⟨(ne_paren_of_isDigit this).1, (ne_paren_of_isDigit this).2.1⟩
      · have := List.mem_takeWhile_imp hc
        simp only [beq_iff_eq] at this
        subst this
        exact ⟨by decide, by decide⟩
      · have := List.mem_takeWhile_imp hc
        exact ⟨(ne_paren_of_isDigit this).1, (ne_paren_of_isDigit this).2.1⟩

theorem popOperandFromEquation_ok {D : Type} (ops : FloatOps D)
    (build : List Char → Bool → Outcome (Node D)) {eq eq2 : List Char} {x : Node D}
    (h : popOperandFromEquation ops build eq = Outcome.ok (x, eq2)) :
    ∃ consumed, eq = consumed ++ eq2 ∧ consumed ≠ [] ∧
      ((∃ body, consumed = '(' :: body ++ [')'] ∧ build body true = Outcome.ok x) ∨
       (x = literalNode ops consumed ∧ ∀ c ∈ consumed, c ≠ '(' ∧ c ≠ ')')) := by
  simp only [popOperandFromEquation] at h
  by_cases hm : matchOpenGroup eq = true
  · simp only [hm, if_true] at h
    obtain ⟨t, rfl⟩ := matchOpenGroup_cases hm
    obtain ⟨body, hb1, hb2⟩ := popGroupFromEquation_ok build h
    refine ⟨'(' :: body ++ [')'], ?_, by simp, Or.inl ⟨body, rfl, hb2⟩⟩
    rw [hb1]
    simp
  · simp only [hm, if_false, popLiteralFromEquation, Bool.false_eq_true] at h
    cases hs : searchOperandLiteral eq with
    | none =>
      rw [hs] at h
      simp at h
    | some p =>
      obtain ⟨str, suffix⟩ := p
      rw [hs] at h
      simp only [Outcome.ok.injEq, Prod.mk.injEq] at h
      obtain ⟨h1, h2⟩ := h
      subst h2
      obtain ⟨e1, e2, e3⟩ := searchOperandLiteral_ok hs
      exact ⟨str, e1, e2, Or.inr ⟨h1.symm, e3⟩⟩

theorem popOperandFromEquation_length {D : Type} (ops : FloatOps D)
    (build : List Char → Bool → Outcome (Node D)) {eq eq2 : List Char} {x : Node D}
    (h : popOperandFromEquation ops build eq = Outcome.ok (x, eq2)) :
    eq2.length < eq.length := by
  obtain ⟨consumed, h1, h2, _⟩ := popOperandFromEquation_ok ops build h
  rw [h1]
  have : 0 < consumed.length := List.length_pos.mpr h2
  simp only [List.length_append]
  omega

theorem popOperandFromEquation_congr {D : Type} (ops : FloatOps D)
    (build1 build2 : List Char → Bool → Outcome (Node D)) (eq : List Char)
    (h : ∀ s, s.length < eq.length → build1 s true = build2 s true) :
    popOperandFromEquation ops build1 eq = popOperandFromEquation ops build2 eq := by
  simp only [popOperandFromEquation]
  by_cases hm : matchOpenGroup eq = true
  · simp only [hm, if_true]
    cases eq with
    | nil => rfl
    | cons c t =>
      simp only [popGroupFromEquation]
      rw [h]
      simp only [List.length_drop, List.length_take, List.length_cons]
      omega
  · simp only [hm, if_false, Bool.false_eq_true]

theorem popOperatorFromEquation_ok {D : Type} {eq eq1 : List Char} {op : Node D}
    (h : (popOperatorFromEquation eq : Outcome (Node D × List Char)) = Outcome.ok (op, eq1)) :
    ∃ c, isOperatorChar c = true ∧ eq = c :: eq1 ∧ op = operatorNode c := by
  cases eq with
  | nil => simp [popOperatorFromEquation, searchOperator] at h
  | cons c t =>
    simp only [popOperatorFromEquation, searchOperator] at h
    by_cases hc : isOperatorChar c = true
    · simp only [hc, if_true, Outcome.ok.injEq, Prod.mk.injEq] at h
      exact ⟨c, hc, by rw [h.2], h.1.symm⟩
    · simp [hc] at h

theorem whileLoop_congr {D : Type} (ops : FloatOps D)
    (build1 build2 : List Char → Bool → Outcome (Node D)) :
    ∀ (k : Nat) (eq : List Char) (nodes : List (Node D)),
      (∀ s, s.length < eq.length → build1 s true = build2 s true) →
      whileLoop ops build1 k eq nodes = whileLoop ops build2 k eq nodes
  | 0, _, _, _ => rfl
  | k + 1, eq, nodes, h => by
    simp only [whileLoop]
    by_cases he : eq.isEmpty = true
    · simp only [he, if_true]
    · simp only [he, if_false, Bool.false_eq_true]
      cases hop : (popOperatorFromEquation eq : Outcome (Node D × List Char)) with
      | throw e => rfl
      | undefined => rfl
      | ok p =>
        obtain ⟨op, eq1⟩ := p
        obtain ⟨c, _, hc, _⟩ := popOperatorFromEquation_ok hop
        have hlen : eq1.length < eq.length := by rw [hc]; simp
        have hcg := popOperandFromEquation_congr ops build1 build2 eq1
          (fun s hs => h s (by omega))
        simp only
        rw [hcg]
        cases hx : popOperandFromEquation ops build2 eq1 with
        | throw e => rfl
        | undefined => rfl
        | ok q =>
          obtain ⟨x, eq2⟩ := q
          have hlen2 := popOperandFromEquation_length ops build2 hx
          simp only
          exact whileLoop_congr ops build1 build2 k eq2 _ (fun s hs => h s (by omega))

theorem whileLoop_fuel {D : Type} (ops : FloatOps D)
    (build : List Char → Bool → Outcome (Node D)) :
    ∀ (k1 k2 : Nat) (eq : List Char) (nodes : List (Node D)),
      eq.length < k1 → eq.length < k2 →
      whileLoop ops build k1 eq nodes = whileLoop ops build k2 eq nodes
  | 0, _, _, _, h1, _ => absurd h1 (Nat.not_lt_zero _)
  | _ + 1, 0, _, _, _, h2 => absurd h2 (Nat.not_lt_zero _)
  | k1 + 1, k2 + 1, eq, nodes, h1, h2 => by
    simp only [whileLoop]
    by_cases he : eq.isEmpty = true
    · simp only [he, if_true]
    · simp only [he, if_false, Bool.false_eq_true]
      cases hop : (popOperatorFromEquation eq : Outcome (Node D × List Char)) with
      | throw e => rfl
      | undefined => rfl
      | ok p =>
        obtain ⟨op, eq1⟩ := p
        obtain ⟨c, _, hc, _⟩ := popOperatorFromEquation_ok hop
        have hlen : eq1.length < eq.length := by rw [hc]; simp
        simp only
        cases hx : popOperandFromEquation ops build eq1 with
        | throw e => rfl
        | undefined => rfl
        | ok q =>
          obtain ⟨x, eq2⟩ := q
          have hlen2 := popOperandFromEquation_length ops build hx
          simp only
          exact whileLoop_fuel ops build k1 k2 eq2 _ (by omega) (by omega)

theorem popNegateFromEquation_length {D : Type} (eq : List Char) :
    (popNegateFromEquation eq : Node D × List Char).2.length ≤ eq.length := by
  cases eq with
  | nil => simp [popNegateFromEquation, searchNegate]
  | cons c t =>
    simp only [popNegateFromEquation, searchNegate]
    by_cases hc : (c == '-') = true
    · simp [hc]
    · simp [hc]

theorem buildEquationTreeRec_fuel {D : Type} (ops : FloatOps D) :
    ∀ (n1 n2 : Nat) (eq : List Char) (sub : Bool), eq.length < n1 → eq.length < n2 →
      buildEquationTreeRec ops n1 eq sub = buildEquationTreeRec ops n2 eq sub
  | 0, _, _, _, h1, _ => absurd h1 (Nat.not_lt_zero _)
  | _ + 1, 0, _, _, _, h2 => absurd h2 (Nat.not_lt_zero _)
  | n1 + 1, n2 + 1, eq, sub, h1, h2 => by
    simp only [buildEquationTreeRec]
    by_cases he : eq.isEmpty = true
    · simp only [he, if_true]
    · simp only [he, if_false, Bool.false_eq_true]
      have hne : 0 < eq.length := by
        cases eq with
        | nil => simp at he
        | cons c t => simp
      have hneg := popNegateFromEquation_length (D := D) eq
      have hb : ∀ s : List Char, s.length < eq.length →
          buildEquationTreeRec ops n1 s true = buildEquationTreeRec ops n2 s true :=
        fun s hs => buildEquationTreeRec_fuel ops n1 n2 s true (by omega) (by omega)
      rw [popOperandFromEquation_congr ops (buildEquationTreeRec ops n1)
        (buildEquationTreeRec ops n2) _ (fun s hs => hb s (by omega))]
      cases hx : popOperandFromEquation ops (buildEquationTreeRec ops n2)
          (popNegateFromEquation eq : Node D × List Char).2 with
      | throw e => rfl
      | undefined => rfl
      | ok q =>
        obtain ⟨x, eq1⟩ := q
        have hlen := popOperandFromEquation_length ops _ hx
        simp only
        rw [whileLoop_congr ops (buildEquationTreeRec ops n1) (buildEquationTreeRec ops n2) _ eq1 _
          (fun s hs => hb s (by omega))]

theorem buildEquationTreeRec_sub {D : Type} (ops : FloatOps D) (n : Nat) {eq : List Char}
    (h : eq ≠ []) (sub : Bool) :
    buildEquationTreeRec ops n eq sub = buildEquationTreeRec ops n eq false := by
  cases n with
  | zero => rfl
  | succ n =>
    have he : eq.isEmpty = false := by
      cases eq with
      | nil => exact absurd rfl h
      | cons c t => rfl
    simp only [buildEquationTreeRec, he, if_false, Bool.false_eq_true]

/-! ## Invariants of a successful build -/

theorem wellFormed_ne_null {D : Type} {x : Node D} (h : wellFormed x = true) :
    x.isNull = false := by
  cases x <;> simp_all [wellFormed, Node.isNull]

theorem negate_not_operatorChar : isOperatorChar Negate = false := by decide

theorem wellFormed_binary {D : Type} {sym : Char} {p n : Node D}
    (hs : isOperatorChar sym = true) (hp : wellFormed p = true) (hn : wellFormed n = true) :
    wellFormed (Node.operator sym p n) = true := by
  have hneg : (sym == Negate) = false := by
    cases h : sym == Negate with
    | false => rfl
    | true =>
      simp only [beq_iff_eq] at h
      rw [h, negate_not_operatorChar] at hs
      exact absurd hs (by decide)
  simp [wellFormed, hneg, hs, hp, hn]

theorem wellFormed_negate {D : Type} {x : Node D} (h : wellFormed x = true) :
    wellFormed (Node.operator Negate Node.nullptr x) = true := by
  simp [wellFormed, Node.isNull, h]

theorem wellFormed_literalNode {D : Type} (ops : FloatOps D) (a : List Char) :
    wellFormed (literalNode ops a) = true := rfl

theorem collapse_shape {D : Type} (op1 op2 : Char) :
    ∀ (toks : List (Node D)) (prev : Node D), wellFormed prev = true → Shape toks →
      ∃ y toks1, collapse op1 op2 prev toks = Outcome.ok (y :: toks1) ∧
        wellFormed y = true ∧ Shape toks1
  | [], prev, hp, _ => ⟨prev, [], rfl, hp, trivial⟩
  | [_], _, _, hs => absurd hs (by simp [Shape])
  | op :: x :: rest, prev, hp, hs => by
    simp only [Shape] at hs
    obtain ⟨⟨c, hc, rfl⟩, hx, hrest⟩ := hs
    simp only [operatorNode, collapse]
    by_cases hm : (c == op1 || c == op2) = true
    · simp only [hm, if_true]
      exact collapse_shape op1 op2 rest _ (wellFormed_binary hc hp hx) hrest
    · simp only [hm, if_false, Bool.false_eq_true]
      obtain ⟨y, toks1, h1, h2, h3⟩ := collapse_shape op1 op2 rest x hx hrest
      rw [h1]
      refine ⟨prev, Node.operator c Node.nullptr Node.nullptr :: y :: toks1, rfl, hp, ?_⟩
      simp only [Shape]
      exact ⟨⟨c, hc, rfl⟩, h2, h3⟩

theorem processNegationNode_wellFormed {D : Type} {x : Node D} (toks : List (Node D))
    (h : wellFormed x = true) : processNegationNode (x :: toks) = Outcome.ok (x :: toks) := by
  cases x with
  | nullptr => simp [wellFormed] at h
  | literal v l r => rfl
  | operator sym l r =>
    cases r with
    | nullptr =>
      by_cases hs : (sym == Negate) = true
      · simp [wellFormed, hs] at h
      · simp [processNegationNode, hs]
    | literal v l1 r1 => rfl
    | operator s l1 r1 => rfl

theorem processNegationNode_negate {D : Type} (x : Node D) (toks : List (Node D)) :
    processNegationNode (Node.operator Negate Node.nullptr Node.nullptr :: x :: toks)
      = Outcome.ok (Node.operator Negate Node.nullptr x :: toks) := by
  simp [processNegationNode]

theorem buildTreeFromNodes_of_negation {D : Type} {nodeList : List (Node D)} {y : Node D}
    {toks : List (Node D)} (hn : processNegationNode nodeList = Outcome.ok (y :: toks))
    (hy : wellFormed y = true) (hs : Shape toks) :
    ∃ (root : Node D) (toks3 : List (Node D)), wellFormed root = true ∧ Shape toks3 ∧
      collapse Power Power y toks ≠ Outcome.undefined ∧
      buildTreeFromNodes nodeList =
        (if toks3.isEmpty then Outcome.ok root else Outcome.throw ErrorType.UnknownError) := by
  obtain ⟨y1, t1, h1, hy1, hs1⟩ := collapse_shape Power Power toks y hy hs
  obtain ⟨y2, t2, h2, hy2, hs2⟩ := collapse_shape Multiplication Division t1 y1 hy1 hs1
  obtain ⟨y3, t3, h3, hy3, hs3⟩ := collapse_shape Addition Subtraction t2 y2 hy2 hs2
  refine ⟨y3, t3, hy3, hs3, by rw [h1]; simp, ?_⟩
  simp only [buildTreeFromNodes, hn, processOperatorNodes_eq_collapse, h1, h2, h3]
  cases t3 <;> rfl

theorem buildTreeFromNodes_wellFormed {D : Type} {nodeList : List (Node D)} {y : Node D}
    {toks : List (Node D)} (hn : processNegationNode nodeList = Outcome.ok (y :: toks))
    (hy : wellFormed y = true) (hs : Shape toks) {T : Node D}
    (h : buildTreeFromNodes nodeList = Outcome.ok T) : wellFormed T = true := by
  obtain ⟨root, toks3, h1, _, _, h3⟩ := buildTreeFromNodes_of_negation hn hy hs
  rw [h3] at h
  cases toks3 with
  | nil =>
    simp only [List.isEmpty_nil, if_true, Outcome.ok.injEq] at h
    rw [← h]
    exact h1
  | cons a b => simp at h

theorem buildTreeFromNodes_singleton {D : Type} {T : Node D} (h : wellFormed T = true) :
    buildTreeFromNodes [T] = Outcome.ok T := by
  simp only [buildTreeFromNodes, processNegationNode_wellFormed [] h,
    processOperatorNodes_eq_collapse, collapse]

theorem buildTreeFromNodes_negate {D : Type} {T : Node D} :
    buildTreeFromNodes [Node.operator Negate Node.nullptr Node.nullptr, T]
      = Outcome.ok (Node.operator Negate Node.nullptr T) := by
  simp only [buildTreeFromNodes, processNegationNode_negate,
    processOperatorNodes_eq_collapse, collapse]

theorem popOperandFromEquation_inv {D : Type} (ops : FloatOps D)
    (build : List Char → Bool → Outcome (Node D))
    (hb : ∀ s T, build s true = Outcome.ok T → wellFormed T = true ∧ Transparent s)
    {eq eq2 : List Char} {x : Node D}
    (h : popOperandFromEquation ops build eq = Outcome.ok (x, eq2)) :
    ∃ consumed, eq = consumed ++ eq2 ∧ Transparent consumed ∧ wellFormed x = true := by
  obtain ⟨consumed, h1, _, h3⟩ := popOperandFromEquation_ok ops build h
  refine ⟨consumed, h1, ?_⟩
  rcases h3 with ⟨body, hc, hbody⟩ | ⟨hx, hc⟩
  · obtain ⟨hw, ht⟩ := hb body x hbody
    rw [hc]
    exact ⟨transparent_group ht, hw⟩
  · rw [hx]
    exact ⟨transparent_of_no_paren hc, wellFormed_literalNode ops consumed⟩

theorem transparent_operator {c : Char} (h : isOperatorChar c = true) : Transparent [c] := by
  apply transparent_singleton <;> intro hc <;> subst hc <;> revert h <;> decide

theorem whileLoop_inv {D : Type} (ops : FloatOps D)
    (build : List Char → Bool → Outcome (Node D))
    (hb : ∀ s T, build s true = Outcome.ok T → wellFormed T = true ∧ Transparent s) :
    ∀ (k : Nat) (eq : List Char) (nodes out : List (Node D)),
      whileLoop ops build k eq nodes = Outcome.ok out →
      ∃ toks, out = nodes ++ toks ∧ Shape toks ∧ Transparent eq
  | 0, _, _, _, h => by simp [whileLoop] at h
  | k + 1, eq, nodes, out, h => by
    simp only [whileLoop] at h
    by_cases he : eq.isEmpty = true
    · simp only [he, if_true, Outcome.ok.injEq] at h
      have : eq = [] := by simpa using he
      subst this
      exact ⟨[], by simp [h], trivial, transparent_nil⟩
    · simp only [he, if_false, Bool.false_eq_true] at h
      cases hop : (popOperatorFromEquation eq : Outcome (Node D × List Char)) with
      | throw e => rw [hop] at h; simp at h
      | undefined => rw [hop] at h; simp at h
      | ok p =>
        obtain ⟨op, eq1⟩ := p
        rw [hop] at h
        obtain ⟨c, hc, heq, hopn⟩ := popOperatorFromEquation_ok hop
        simp only at h
        cases hx : popOperandFromEquation ops build eq1 with
        | throw e => rw [hx] at h; simp at h
        | undefined => rw [hx] at h; simp at h
        | ok q =>
          obtain ⟨x, eq2⟩ := q
          rw [hx] at h
          simp only at h
          obtain ⟨consumed, hcons, htr, hwf⟩ := popOperandFromEquation_inv ops build hb hx
          obtain ⟨toks, ho, hsh, htr2⟩ := whileLoop_inv ops build hb k eq2 _ out h
          refine ⟨op :: x :: toks, by rw [ho]; simp, ?_, ?_⟩
          · simp only [Shape]
            exact ⟨⟨c, hc, hopn⟩, hwf, hsh⟩
          · rw [heq, hcons]
            have := transparent_append (transparent_operator hc)
              (transparent_append htr htr2)
            simpa using this

theorem popNegateFromEquation_minus {D : Type} (t : List Char) :
    (popNegateFromEquation ('-' :: t) : Node D × List Char)
      = (Node.operator Negate Node.nullptr Node.nullptr, t) := by
  simp [popNegateFromEquation, searchNegate]

theorem popNegateFromEquation_other {D : Type} {c : Char} (t : List Char) (hc : c ≠ '-') :
    (popNegateFromEquation (c :: t) : Node D × List Char) = (Node.nullptr, c :: t) := by
  simp [popNegateFromEquation, searchNegate, hc]

theorem buildEquationTreeRec_inv {D : Type} (ops : FloatOps D) :
    ∀ (n : Nat) (eq : List Char) (sub : Bool) (T : Node D),
      buildEquationTreeRec ops n eq sub = Outcome.ok T →
      (eq ≠ [] → wellFormed T = true) ∧ Transparent eq
  | 0, _, _, _, h => by simp [buildEquationTreeRec] at h
  | _ + 1, [], _, _, _ => ⟨fun h0 => absurd rfl h0, transparent_nil⟩
  | n + 1, c :: t, sub, T, h => by
    have hb : ∀ s T, buildEquationTreeRec ops n s true = Outcome.ok T →
        wellFormed T = true ∧ Transparent s := by
      intro s T1 hs
      have hi := buildEquationTreeRec_inv ops n s true T1 hs
      refine ⟨hi.1 ?_, hi.2⟩
      intro h0
      subst h0
      cases n <;> simp [buildEquationTreeRec] at hs
    by_cases hc : c = '-'
    · subst hc
      simp only [buildEquationTreeRec, List.isEmpty_cons, Bool.false_eq_true, if_false,
        popNegateFromEquation_minus] at h
      cases hx : popOperandFromEquation ops (buildEquationTreeRec ops n) t with
      | throw e => rw [hx] at h; simp at h
      | undefined => rw [hx] at h; simp at h
      | ok q =>
        obtain ⟨x, eq1⟩ := q
        rw [hx] at h
        simp only at h
        obtain ⟨consumed, hcons, htr, hwf⟩ := popOperandFromEquation_inv ops _ hb hx
        cases hw : whileLoop ops (buildEquationTreeRec ops n) (eq1.length + 1) eq1
            ([Node.operator Negate Node.nullptr Node.nullptr] ++ [x]) with
        | throw e => rw [hw] at h; simp at h
        | undefined => rw [hw] at h; simp at h
        | ok nodes =>
          rw [hw] at h
          simp only at h
          obtain ⟨toks, hn, hsh, htr2⟩ := whileLoop_inv ops _ hb _ _ _ _ hw
          simp only [List.singleton_append, List.cons_append] at hn
          constructor
          · intro _
            rw [hn] at h
            exact buildTreeFromNodes_wellFormed (processNegationNode_negate x toks)
              (wellFormed_negate hwf) hsh h
          · rw [hcons]
            have := transparent_append (transparent_singleton (c := '-') (by decide) (by decide))
              (transparent_append htr htr2)
            simpa using this
    · simp only [buildEquationTreeRec, List.isEmpty_cons, Bool.false_eq_true, if_false,
        popNegateFromEquation_other t hc] at h
      cases hx : popOperandFromEquation ops (buildEquationTreeRec ops n) (c :: t) with
      | throw e => rw [hx] at h; simp at h
      | undefined => rw [hx] at h; simp at h
      | ok q =>
        obtain ⟨x, eq1⟩ := q
        rw [hx] at h
        simp only at h
        obtain ⟨consumed, hcons, htr, hwf⟩ := popOperandFromEquation_inv ops _ hb hx
        cases hw : whileLoop ops (buildEquationTreeRec ops n) (eq1.length + 1) eq1
            ([] ++ [x]) with
        | throw e => rw [hw] at h; simp at h
        | undefined => rw [hw] at h; simp at h
        | ok nodes =>
          rw [hw] at h
          simp only at h
          obtain ⟨toks, hn, hsh, htr2⟩ := whileLoop_inv ops _ hb _ _ _ _ hw
          simp only [List.nil_append, List.cons_append] at hn
          constructor
          · intro _
            rw [hn] at h
            exact buildTreeFromNodes_wellFormed (processNegationNode_wellFormed toks hwf)
              hwf hsh h
          · rw [hcons]
            exact transparent_append htr htr2

/-! ## Stepping through flat token sequences -/

theorem buildEquationTree_of_no_space {D : Type} (ops : FloatOps D) {s : List Char}
    (h : removeWhitespace s = s) :
    buildEquationTree ops s = buildEquationTreeRec ops (s.length + 1) s false := by
  simp only [buildEquationTree, h]

theorem whileLoop_nil {D : Type} (ops : FloatOps D)
    (build : List Char → Bool → Outcome (Node D)) (k : Nat) (nodes : List (Node D)) :
    whileLoop ops build (k + 1) [] nodes = Outcome.ok nodes := by
  simp [whileLoop]

theorem whileLoop_cons_operator {D : Type} (ops : FloatOps D)
    (build : List Char → Bool → Outcome (Node D)) (k : Nat) {o : Char} (eq1 : List Char)
    (nodes : List (Node D)) (ho : isOperatorChar o = true) :
    whileLoop ops build (k + 1) (o :: eq1) nodes
      = (popOperandFromEquation ops build eq1).bind (fun p =>
          whileLoop ops build k p.2 (nodes ++ [operatorNode o, p.1])) := by
  rw [whileLoop]
  simp only [List.isEmpty_cons, Bool.false_eq_true, if_false, popOperatorFromEquation,
    searchOperator, ho, if_true, operatorNode]
  cases popOperandFromEquation ops build eq1 <;> rfl

theorem whileLoop_literal {D : Type} (ops : FloatOps D)
    (build : List Char → Bool → Outcome (Node D)) {o : Char} {a rest : List Char}
    (nodes : List (Node D)) (ho : isOperatorChar o = true) (ha : isNumericLiteral a = true)
    (hr : LiteralEnd rest) :
    whileLoop ops build ((o :: (a ++ rest)).length + 1) (o :: (a ++ rest)) nodes
      = whileLoop ops build (rest.length + 1) rest
          (nodes ++ [operatorNode o, literalNode ops a]) := by
  rw [whileLoop_cons_operator ops build _ _ nodes ho,
    popOperandFromEquation_numeric ops build ha hr]
  simp only [Outcome.bind]
  apply whileLoop_fuel
  · simp only [List.length_cons, List.length_append]
    omega
  · omega

theorem buildEquationTreeRec_literal {D : Type} (ops : FloatOps D) (n : Nat) (sub : Bool)
    {a rest : List Char} (ha : isNumericLiteral a = true) (hr : LiteralEnd rest) :
    buildEquationTreeRec ops (n + 1) (a ++ rest) sub
      = (whileLoop ops (buildEquationTreeRec ops n) (rest.length + 1) rest
            [literalNode ops a]).bind buildTreeFromNodes := by
  obtain ⟨c, r, hcr, hc⟩ := isNumericLiteral_head ha
  have hne : (a ++ rest).isEmpty = false := by
    rw [hcr]
    rfl
  simp only [buildEquationTreeRec, hne, Bool.false_eq_true, if_false,
    popNegateFromEquation_numeric rest ha, popOperandFromEquation_numeric ops _ ha hr,
    List.nil_append]
  cases whileLoop ops (buildEquationTreeRec ops n) (rest.length + 1) rest
    [literalNode ops a] <;> rfl

theorem buildEquationTreeRec_negate_literal {D : Type} (ops : FloatOps D) (n : Nat) (sub : Bool)
    {a rest : List Char} (ha : isNumericLiteral a = true) (hr : LiteralEnd rest) :
    buildEquationTreeRec ops (n + 1) ('-' :: (a ++ rest)) sub
      = (whileLoop ops (buildEquationTreeRec ops n) (rest.length + 1) rest
            [Node.operator Negate Node.nullptr Node.nullptr, literalNode ops a]).bind buildTreeFromNodes := by
  simp only [buildEquationTreeRec, List.isEmpty_cons, Bool.false_eq_true, if_false,
    popNegateFromEquation_minus, popOperandFromEquation_numeric ops _ ha hr,
    List.singleton_append]
  cases whileLoop ops (buildEquationTreeRec ops n) (rest.length + 1) rest
    [Node.operator Negate Node.nullptr Node.nullptr, literalNode ops a] <;> rfl

theorem removeWhitespace_flat {a : List Char} (ha : isNumericLiteral a = true) {o : Char}
    (ho : isOperatorChar o = true) {rest : List Char} (hr : removeWhitespace rest = rest) :
    removeWhitespace (a ++ o :: rest) = a ++ o :: rest := by
  rw [removeWhitespace_append, removeWhitespace_numeric ha,
    removeWhitespace_cons_of_not_space _ (isspace_false_of_isOperatorChar ho), hr]

/-! ## Small token sequences -/

theorem buildTreeFromNodes_three {D : Type} {x : Node D} (y : Node D) {o : Char}
    (hx : wellFormed x = true) (ho : isOperatorChar o = true) :
    buildTreeFromNodes [x, operatorNode o, y] = Outcome.ok (Node.operator o x y) := by
  simp only [buildTreeFromNodes, processNegationNode_wellFormed _ hx,
    processOperatorNodes_eq_collapse]
  rcases isOperatorChar_cases ho with h | h | h | h | h <;> subst h <;> rfl

theorem buildTreeFromNodes_negate_three {D : Type} (x y : Node D) {o : Char}
    (ho : isOperatorChar o = true) :
    buildTreeFromNodes [Node.operator Negate Node.nullptr Node.nullptr, x, operatorNode o, y]
      = Outcome.ok (Node.operator o (Node.operator Negate Node.nullptr x) y) := by
  simp only [buildTreeFromNodes, processNegationNode_negate,
    processOperatorNodes_eq_collapse]
  rcases isOperatorChar_cases ho with h | h | h | h | h <;> subst h <;> rfl

theorem buildTreeFromNodes_lo_hi {D : Type} {x : Node D} (y z : Node D) {lo hi : Char}
    (hx : wellFormed x = true) (hlo : isOperatorChar lo = true) (hhi : isOperatorChar hi = true)
    (ht : tier lo < tier hi) :
    buildTreeFromNodes [x, operatorNode lo, y, operatorNode hi, z]
      = Outcome.ok (Node.operator lo x (Node.operator hi y z)) := by
  simp only [buildTreeFromNodes, processNegationNode_wellFormed _ hx,
    processOperatorNodes_eq_collapse]
  rcases isOperatorChar_cases hlo with h | h | h | h | h <;> subst h <;>
    rcases isOperatorChar_cases hhi with h | h | h | h | h <;> subst h <;>
    first
      | exact absurd ht (by decide)
      | rfl

theorem buildTreeFromNodes_hi_lo {D : Type} {x : Node D} (y z : Node D) {lo hi : Char}
    (hx : wellFormed x = true) (hlo : isOperatorChar lo = true) (hhi : isOperatorChar hi = true)
    (ht : tier lo < tier hi) :
    buildTreeFromNodes [x, operatorNode hi, y, operatorNode lo, z]
      = Outcome.ok (Node.operator lo (Node.operator hi x y) z) := by
  simp only [buildTreeFromNodes, processNegationNode_wellFormed _ hx,
    processOperatorNodes_eq_collapse]
  rcases isOperatorChar_cases hlo with h | h | h | h | h <;> subst h <;>
    rcases isOperatorChar_cases hhi with h | h | h | h | h <;> subst h <;>
    first
      | exact absurd ht (by decide)
      | rfl

theorem buildTreeFromNodes_same_tier {D : Type} {x : Node D} (y z : Node D) {o1 o2 : Char}
    (hx : wellFormed x = true) (h1 : isOperatorChar o1 = true) (h2 : isOperatorChar o2 = true)
    (ht : tier o1 = tier o2) :
    buildTreeFromNodes [x, operatorNode o1, y, operatorNode o2, z]
      = Outcome.ok (Node.operator o2 (Node.operator o1 x y) z) := by
  simp only [buildTreeFromNodes, processNegationNode_wellFormed _ hx,
    processOperatorNodes_eq_collapse]
  rcases isOperatorChar_cases h1 with h | h | h | h | h <;> subst h <;>
    rcases isOperatorChar_cases h2 with h | h | h | h | h <;> subst h <;>
    first
      | exact absurd ht (by decide)
      | rfl

/-! ## Lemmas of the claims -/

theorem digitsToNat_foldl_digits {d : List Char} (hd : ∀ c ∈ d, isDigit c = true) :
    List.takeWhile isDigit d = d ∧ List.dropWhile isDigit d = [] :=
  ⟨List.takeWhile_eq_self_iff.mpr hd, List.dropWhile_eq_nil_iff.mpr hd⟩

theorem decimalValue_digits {d : List Char} (hd : ∀ c ∈ d, isDigit c = true) :
    decimalValue d = (digitsToNat d : ℚ) := by
  have h := digitsToNat_foldl_digits hd
  simp only [decimalValue, h.1, h.2]

theorem decimalValue_decimal {d f : List Char} (hd : ∀ c ∈ d, isDigit c = true)
    (hf : ∀ c ∈ f, isDigit c = true) :
    decimalValue (d ++ '.' :: f)
      = (digitsToNat d : ℚ) + (digitsToNat f : ℚ) / (10 : ℚ) ^ f.length := by
  have hdot : isDigit '.' = false := by decide
  have h := digitsToNat_foldl_digits hf
  simp only [decimalValue, List.takeWhile_append_of_pos hd, List.dropWhile_append_of_pos hd,
    List.takeWhile_cons, List.dropWhile_cons, hdot, Bool.false_eq_true, if_false,
    List.append_nil, h.1]

theorem isNumericLiteral_digits {d : List Char} (hne : d ≠ [])
    (hd : ∀ c ∈ d, isDigit c = true) : isNumericLiteral d = true := by
  have h := digitsToNat_foldl_digits hd
  simp only [isNumericLiteral, h.2]
  cases d with
  | nil => exact absurd rfl hne
  | cons c r => rfl

theorem isNumericLiteral_decimal {d f : List Char} (hne : d ≠ [])
    (hd : ∀ c ∈ d, isDigit c = true) (hfne : f ≠ []) (hf : ∀ c ∈ f, isDigit c = true) :
    isNumericLiteral (d ++ '.' :: f) = true := by
  have hdot : isDigit '.' = false := by decide
  simp only [isNumericLiteral, List.takeWhile_append_of_pos hd, List.dropWhile_append_of_pos hd,
    List.takeWhile_cons, List.dropWhile_cons, hdot, Bool.false_eq_true, if_false,
    List.append_nil, beq_self_eq_true, Bool.true_and, Bool.and_eq_true, Bool.not_eq_true',
    List.isEmpty_eq_false, List.all_eq_true]
  exact ⟨⟨hne, hfne⟩, hf⟩

theorem buildEquationTree_numeric {D : Type} (ops : FloatOps D) {a : List Char}
    (ha : isNumericLiteral a = true) :
    buildEquationTree ops a = Outcome.ok (literalNode ops a) := by
  have e : a = a ++ [] := by simp
  rw [buildEquationTree_of_no_space ops (removeWhitespace_numeric ha)]
  conv_lhs => rw [e]
  rw [buildEquationTreeRec_literal ops _ false ha literalEnd_nil, whileLoop_nil]
  exact buildTreeFromNodes_singleton (wellFormed_literalNode ops a)

theorem nesting_cons (c : Char) (r : List Char) :
    nesting (c :: r)
      = (if c == '(' then 1 else if c == ')' then -1 else 0) + nesting r := by
  by_cases h1 : c = '('
  · subst h1
    have h2 : ¬ ((')' : Char) = '(') := by decide
    simp [nesting, List.count_cons, h2]
    omega
  · by_cases h2 : c = ')'
    · subst h2
      simp [nesting, List.count_cons, h1]
      omega
    · have h3 : ¬ ('(' = c) := fun h => h1 h.symm
      have h4 : ¬ (')' = c) := fun h => h2 h.symm
      simp [nesting, List.count_cons, h1, h2, h3, h4]

theorem scanGroup_never_closed : ∀ (t : List Char) (level : Int) (pos : Nat), t ≠ [] →
    (∀ k, k < t.length → 0 < level + nesting (t.take (k + 1))) →
    scanGroup t level pos = (level + nesting t, pos + t.length)
  | [], _, _, h, _ => absurd rfl h
  | c :: r, level, pos, _, h => by
    have h0 := h 0 (by simp)
    simp only [List.take_succ_cons, List.take_zero, nesting_cons] at h0
    have hn : nesting [] = 0 := rfl
    rw [hn] at h0
    have hstep : (if c == '(' then level + 1 else if c == ')' then level - 1 else level)
        = level + (if c == '(' then 1 else if c == ')' then -1 else 0) := by
      split
      · rfl
      · split <;> omega
    simp only [scanGroup, hstep]
    by_cases hr : r = []
    · subst hr
      simp [nesting_cons, hn]
    · have hre : r.isEmpty = false := by
        cases r with
        | nil => exact absurd rfl hr
        | cons x xs => rfl
      have hpos : decide (level + (if c == '(' then 1 else if c == ')' then -1 else 0) > 0)
          = true := by
        simp only [gt_iff_lt, decide_eq_true_eq]
        omega
      simp only [hpos, hre, Bool.not_false, Bool.and_self, if_true]
      rw [scanGroup_never_closed r _ (pos + 1) hr]
      · rw [nesting_cons]
        simp only [List.length_cons, Prod.mk.injEq]
        constructor <;> omega
      · intro k hk
        have := h (k + 1) (by simp only [List.length_cons]; omega)
        simp only [List.take_succ_cons, nesting_cons] at this
        omega

theorem popOperandFromEquation_unclosed {D : Type} (ops : FloatOps D)
    (build : List Char → Bool → Outcome (Node D)) {t : List Char}
    (hnl : t.all isAnyButNewline = true) (hopen : t.head? = some '(')
    (hlevel : ∀ k, k < t.length → 0 < nesting (t.take (k + 1))) :
    popOperandFromEquation ops build t = Outcome.throw ErrorType.MissingClosingSymbol := by
  cases t with
  | nil => simp at hopen
  | cons c r =>
    simp only [List.head?_cons, Option.some.injEq] at hopen
    subst hopen
    have hm : matchOpenGroup ('(' :: r) = true := by
      simp only [List.all_cons, Bool.and_eq_true] at hnl
      simp [matchOpenGroup, hnl.2]
    have hs := scanGroup_never_closed ('(' :: r) 0 0 (by simp)
      (fun k hk => by simpa using hlevel k hk)
    have hl := hlevel r.length (by simp)
    have ht : List.take (r.length + 1) ('(' :: r) = '(' :: r := by
      simp
    rw [ht] at hl
    simp only [popOperandFromEquation, hm, if_true, popGroupFromEquation, hs]
    have : (0 : Int) + nesting ('(' :: r) > 0 := by omega
    simp only [this, if_true]

theorem buildEquationTreeRec_throw_operand {D : Type} (ops : FloatOps D) (n : Nat)
    {c : Char} {t : List Char} (hc : c ≠ '-') (sub : Bool) {e : ErrorType}
    (h : popOperandFromEquation ops (buildEquationTreeRec ops n) (c :: t) = Outcome.throw e) :
    buildEquationTreeRec ops (n + 1) (c :: t) sub = Outcome.throw e := by
  simp only [buildEquationTreeRec, List.isEmpty_cons, Bool.false_eq_true, if_false,
    popNegateFromEquation_other t hc, h]

theorem buildEquationTreeRec_negate_throw_operand {D : Type} (ops : FloatOps D) (n : Nat)
    {t : List Char} (sub : Bool) {e : ErrorType}
    (h : popOperandFromEquation ops (buildEquationTreeRec ops n) t = Outcome.throw e) :
    buildEquationTreeRec ops (n + 1) ('-' :: t) sub = Outcome.throw e := by
  simp only [buildEquationTreeRec, List.isEmpty_cons, Bool.false_eq_true, if_false,
    popNegateFromEquation_minus, h]

theorem popOperandFromEquation_empty_group {D : Type} (ops : FloatOps D) (n : Nat)
    {r : List Char} (hr : r.all isAnyButNewline = true) :
    popOperandFromEquation ops (buildEquationTreeRec ops (n + 1)) ('(' :: ')' :: r)
      = Outcome.throw ErrorType.EmptyGroup := by
  have hm : matchOpenGroup ('(' :: ')' :: r) = true := by
    simp [matchOpenGroup, hr, isAnyButNewline]
  have hg := popGroupFromEquation_group (buildEquationTreeRec ops (n + 1)) transparent_nil r
  simp only [List.nil_append] at hg
  have hg2 : '(' :: ([] : List Char) ++ ')' :: r = '(' :: ')' :: r := rfl
  rw [hg2] at hg
  simp only [popOperandFromEquation, hm, if_true]
  rw [hg]
  simp only [buildEquationTreeRec, List.isEmpty_nil, if_true, Outcome.map]

theorem evaluateEquation_throw {D : Type} (ops : FloatOps D) {s : List Char} {e : ErrorType}
    (h : buildEquationTree ops s = Outcome.throw e) :
    evaluateEquation ops s = Outcome.throw e := by
  simp only [evaluateEquation, h]

theorem popOperandFromEquation_group {D : Type} (ops : FloatOps D)
    (build : List Char → Bool → Outcome (Node D)) {body : List Char} (r : List Char)
    (ht : Transparent body) (hnl : (body ++ ')' :: r).all isAnyButNewline = true) :
    popOperandFromEquation ops build ('(' :: body ++ ')' :: r)
      = (build body true).map (fun node => (node, r)) := by
  have hm : matchOpenGroup ('(' :: body ++ ')' :: r) = true := by
    have e : '(' :: body ++ ')' :: r = '(' :: (body ++ ')' :: r) := by simp
    rw [e]
    simp only [matchOpenGroup, hnl, beq_self_eq_true, Bool.and_self]
  simp only [popOperandFromEquation, hm, if_true]
  exact popGroupFromEquation_group build ht r

theorem buildEquationTreeRec_group {D : Type} (ops : FloatOps D) (n : Nat) (sub : Bool)
    {body : List Char} (r : List Char) (ht : Transparent body)
    (hnl : (body ++ ')' :: r).all isAnyButNewline = true) :
    buildEquationTreeRec ops (n + 1) ('(' :: body ++ ')' :: r) sub
      = (buildEquationTreeRec ops n body true).bind (fun x =>
          (whileLoop ops (buildEquationTreeRec ops n) (r.length + 1) r [x]).bind
            buildTreeFromNodes) := by
  have e : '(' :: body ++ ')' :: r = '(' :: (body ++ ')' :: r) := by simp
  have hp := popOperandFromEquation_group ops (buildEquationTreeRec ops n) r ht hnl
  rw [e] at hp ⊢
  simp only [buildEquationTreeRec, List.isEmpty_cons, Bool.false_eq_true, if_false,
    popNegateFromEquation_other _ (show ('(' : Char) ≠ '-' by decide), hp, List.nil_append]
  cases buildEquationTreeRec ops n body true with
  | throw e => rfl
  | undefined => rfl
  | ok x =>
    simp only [Outcome.map, Outcome.bind]
    cases whileLoop ops (buildEquationTreeRec ops n) (r.length + 1) r [x] <;> rfl

theorem buildEquationTreeRec_negate_group {D : Type} (ops : FloatOps D) (n : Nat) (sub : Bool)
    {body : List Char} (r : List Char) (ht : Transparent body)
    (hnl : (body ++ ')' :: r).all isAnyButNewline = true) :
    buildEquationTreeRec ops (n + 1) ('-' :: '(' :: body ++ ')' :: r) sub
      = (buildEquationTreeRec ops n body true).bind (fun x =>
          (whileLoop ops (buildEquationTreeRec ops n) (r.length + 1) r
            [Node.operator Negate Node.nullptr Node.nullptr, x]).bind buildTreeFromNodes) := by
  have e : '-' :: '(' :: body ++ ')' :: r = '-' :: ('(' :: body ++ ')' :: r) := by simp
  have hp := popOperandFromEquation_group ops (buildEquationTreeRec ops n) r ht hnl
  rw [e]
  simp only [buildEquationTreeRec, List.isEmpty_cons, Bool.false_eq_true, if_false,
    popNegateFromEquation_minus, hp, List.singleton_append]
  cases buildEquationTreeRec ops n body true with
  | throw e => rfl
  | undefined => rfl
  | ok x =>
    simp only [Outcome.map, Outcome.bind]
    cases whileLoop ops (buildEquationTreeRec ops n) (r.length + 1) r
      [Node.operator Negate Node.nullptr Node.nullptr, x] <;> rfl

theorem all_isAnyButNewline_group (E : List Char) :
    (removeWhitespace E ++ [')']).all isAnyButNewline = true := by
  have h := all_isAnyButNewline_removeWhitespace E
  simp only [List.all_append, h, List.all_cons, List.all_nil, Bool.and_true, Bool.true_and]
  decide

theorem buildEquationTree_body {D : Type} (ops : FloatOps D) {E : List Char} {T : Node D}
    (hne : removeWhitespace E ≠ []) (h : buildEquationTree ops E = Outcome.ok T) (n : Nat)
    (hn : (removeWhitespace E).length < n) :
    buildEquationTreeRec ops n (removeWhitespace E) true = Outcome.ok T ∧
    wellFormed T = true ∧ Transparent (removeWhitespace E) := by
  simp only [buildEquationTree] at h
  have hi := buildEquationTreeRec_inv ops _ _ _ _ h
  refine ⟨?_, hi.1 hne, hi.2⟩
  rw [buildEquationTreeRec_sub ops n hne true,
    buildEquationTreeRec_fuel ops n ((removeWhitespace E).length + 1) _ false hn (by omega)]
  exact h

theorem buildEquationTree_group {D : Type} (ops : FloatOps D) {E : List Char} {T : Node D}
    (hne : removeWhitespace E ≠ []) (h : buildEquationTree ops E = Outcome.ok T) :
    buildEquationTree ops ('(' :: E ++ [')']) = Outcome.ok T := by
  have hs : removeWhitespace ('(' :: E ++ [')']) = '(' :: removeWhitespace E ++ [')'] := by
    have e : '(' :: E ++ [')'] = '(' :: (E ++ [')']) := by simp
    rw [e, removeWhitespace_cons_of_not_space _ (by decide), removeWhitespace_append]
    rfl
  obtain ⟨hb, hw, ht⟩ := buildEquationTree_body ops hne h
    (('(' :: removeWhitespace E ++ [')']).length)
    (by simp only [List.length_cons, List.length_append]; omega)
  simp only [buildEquationTree, hs]
  rw [buildEquationTreeRec_group ops _ false [] ht (all_isAnyButNewline_group E), hb]
  simp only [Outcome.bind, List.length_nil, whileLoop_nil]
  exact buildTreeFromNodes_singleton hw

theorem buildEquationTree_negate_group {D : Type} (ops : FloatOps D) {E : List Char}
    {T : Node D} (hne : removeWhitespace E ≠ []) (h : buildEquationTree ops E = Outcome.ok T) :
    buildEquationTree ops ('-' :: '(' :: E ++ [')'])
      = Outcome.ok (Node.operator Negate Node.nullptr T) := by
  have hs : removeWhitespace ('-' :: '(' :: E ++ [')'])
      = '-' :: '(' :: removeWhitespace E ++ [')'] := by
    have e : '-' :: '(' :: E ++ [')'] = '-' :: '(' :: (E ++ [')']) := by simp
    rw [e, removeWhitespace_cons_of_not_space _ (by decide),
      removeWhitespace_cons_of_not_space _ (by decide), removeWhitespace_append]
    rfl
  obtain ⟨hb, hw, ht⟩ := buildEquationTree_body ops hne h
    (('-' :: '(' :: removeWhitespace E ++ [')']).length)
    (by simp only [List.length_cons, List.length_append]; omega)
  simp only [buildEquationTree, hs]
  rw [buildEquationTreeRec_negate_group ops _ false [] ht (all_isAnyButNewline_group E), hb]
  simp only [Outcome.bind, List.length_nil, whileLoop_nil]
  exact buildTreeFromNodes_negate

theorem evaluateEquationTree_negate {D : Type} (ops : FloatOps D) (T : Node D) :
    evaluateEquationTree ops (Node.operator Negate Node.nullptr T)
      = ops.neg (evaluateEquationTree ops T) := by
  have h1 : (Negate == Addition) = false := by decide
  have h2 : (Negate == Subtraction) = false := by decide
  have h3 : (Negate == Multiplication) = false := by decide
  have h4 : (Negate == Division) = false := by decide
  have h5 : (Negate == Power) = false := by decide
  simp only [evaluateEquationTree, h1, h2, h3, h4, h5, Bool.false_eq_true, if_false,
    beq_self_eq_true, if_true]

/-! ## Errors of the tokenisation -/

theorem popOperandFromEquation_invalid {D : Type} (ops : FloatOps D)
    (build : List Char → Bool → Outcome (Node D)) {c : Char} (t : List Char)
    (h1 : c ≠ '(') (h2 : isDigit c = false) :
    popOperandFromEquation ops build (c :: t) = Outcome.throw ErrorType.InvalidOperand := by
  simp [popOperandFromEquation, matchOpenGroup, h1, popLiteralFromEquation,
    searchOperandLiteral, List.takeWhile_cons, h2]

theorem ne_open_of_isOperatorChar {c : Char} (h : isOperatorChar c = true) : c ≠ '(' := by
  rcases isOperatorChar_cases h with h | h | h | h | h <;> subst h <;> decide

theorem whileLoop_invalid_operator {D : Type} (ops : FloatOps D)
    (build : List Char → Bool → Outcome (Node D)) (k : Nat) {c : Char} (t : List Char)
    (nodes : List (Node D)) (hc : isOperatorChar c = false) :
    whileLoop ops build (k + 1) (c :: t) nodes = Outcome.throw ErrorType.InvalidOperator := by
  simp [whileLoop, popOperatorFromEquation, searchOperator, hc]

theorem all_isAnyButNewline_group_rest (E r : List Char) :
    (removeWhitespace E ++ ')' :: removeWhitespace r).all isAnyButNewline = true := by
  have h1 := all_isAnyButNewline_removeWhitespace E
  have h2 := all_isAnyButNewline_removeWhitespace r
  have h3 : isAnyButNewline ')' = true := by decide
  simp only [List.all_append, h1, List.all_cons, h2, h3, Bool.and_self]

theorem removeWhitespace_group_rest (E r : List Char) :
    removeWhitespace ('(' :: E ++ ')' :: r)
      = '(' :: removeWhitespace E ++ ')' :: removeWhitespace r := by
  have e : '(' :: E ++ ')' :: r = '(' :: (E ++ ')' :: r) := by simp
  rw [e, removeWhitespace_cons_of_not_space _ (by decide), removeWhitespace_append,
    removeWhitespace_cons_of_not_space _ (by decide)]
  simp

theorem evaluateEquation_ok {D : Type} (ops : FloatOps D) {s : List Char} {T : Node D}
    (h : buildEquationTree ops s = Outcome.ok T) :
    evaluateEquation ops s = Outcome.ok (evaluateEquationTree ops T) := by
  simp only [evaluateEquation, h]

/-! ## Balanced texts -/

theorem scanGroup_through : ∀ (B : List Char) (level : Int) (pos : Nat) (rest : List Char),
    rest ≠ [] → (∀ k, k ≤ B.length → 1 ≤ level + nesting (B.take k)) →
    scanGroup (B ++ rest) level pos = scanGroup rest (level + nesting B) (pos + B.length)
  | [], level, pos, rest, _, _ => by
    have hn : nesting [] = 0 := rfl
    simp [hn]
  | c :: B, level, pos, rest, hr, h => by
    have h1 := h 1 (by simp)
    simp only [List.take_succ_cons, List.take_zero, nesting_cons] at h1
    have hn : nesting [] = 0 := rfl
    rw [hn] at h1
    have hstep : (if c == '(' then level + 1 else if c == ')' then level - 1 else level)
        = level + (if c == '(' then 1 else if c == ')' then -1 else 0) := by
      split
      · rfl
      · split <;> omega
    have hne : (B ++ rest).isEmpty = false := by
      cases B with
      | nil =>
        cases rest with
        | nil => exact absurd rfl hr
        | cons x xs => rfl
      | cons x xs => rfl
    have hpos : decide (level + (if c == '(' then 1 else if c == ')' then -1 else 0) > 0)
        = true := by
      simp only [gt_iff_lt, decide_eq_true_eq]
      omega
    show scanGroup (c :: (B ++ rest)) level pos = _
    simp only [scanGroup, hstep, hpos, hne, Bool.not_false, Bool.and_self, if_true]
    rw [scanGroup_through B _ (pos + 1) rest hr]
    · rw [nesting_cons]
      simp only [List.length_cons]
      have e1 : level + (if c == '(' then 1 else if c == ')' then -1 else 0) + nesting B
          = level + ((if c == '(' then 1 else if c == ')' then -1 else 0) + nesting B) := by
        omega
      have e2 : pos + 1 + B.length = pos + (B.length + 1) := by omega
      rw [e1, e2]
    · intro k hk
      have := h (k + 1) (by simp only [List.length_cons]; omega)
      simp only [List.take_succ_cons, nesting_cons] at this
      omega

theorem transparent_of_balanced {B : List Char}
    (hbal : ∀ k, k ≤ B.length → 0 ≤ nesting (B.take k)) (hzero : nesting B = 0) :
    Transparent B := by
  intro level pos rest hl hr
  rw [scanGroup_through B level pos rest hr (fun k hk => by have := hbal k hk; omega), hzero]
  simp

theorem nesting_cons_space {c : Char} (X : List Char) (h : isspace c = true) :
    nesting (c :: X) = nesting X := by
  rw [nesting_cons]
  have h1 : c ≠ '(' := by
    intro hc
    subst hc
    revert h
    decide
  have h2 : c ≠ ')' := by
    intro hc
    subst hc
    revert h
    decide
  simp [h1, h2]

theorem removeWhitespace_cons (c : Char) (B : List Char) :
    removeWhitespace (c :: B)
      = (if isspace c then removeWhitespace B else c :: removeWhitespace B) := by
  cases h : isspace c <;> simp [removeWhitespace, h]

theorem balanced_removeWhitespace : ∀ (B : List Char) (level : Int),
    (∀ k, k ≤ B.length → 0 ≤ level + nesting (B.take k)) →
    (∀ k, k ≤ (removeWhitespace B).length → 0 ≤ level + nesting ((removeWhitespace B).take k)) ∧
    nesting (removeWhitespace B) = nesting B
  | [], level, h => ⟨fun k hk => by simpa [removeWhitespace] using h 0 (by simp), rfl⟩
  | c :: B, level, h => by
    have hc := removeWhitespace_cons c B
    by_cases hs : isspace c = true
    · have ih := balanced_removeWhitespace B level (fun k hk => by
        have := h (k + 1) (by simp only [List.length_cons]; omega)
        rw [List.take_succ_cons, nesting_cons_space _ hs] at this
        exact this)
      rw [hc, if_pos hs, nesting_cons_space _ hs]
      exact ih
    · have hs2 : isspace c = false := by simpa using hs
      have ih := balanced_removeWhitespace B
        (level + (if c == '(' then 1 else if c == ')' then -1 else 0)) (fun k hk => by
        have := h (k + 1) (by simp only [List.length_cons]; omega)
        rw [List.take_succ_cons, nesting_cons] at this
        omega)
      rw [hc, hs2]
      simp only [Bool.false_eq_true, if_false]
      constructor
      · intro k hk
        cases k with
        | zero =>
          have := h 0 (by simp)
          simpa using this
        | succ k =>
          have := ih.1 k (by simp only [List.length_cons] at hk; omega)
          rw [List.take_succ_cons, nesting_cons]
          omega
      · rw [nesting_cons, nesting_cons, ih.2]

theorem transparent_removeWhitespace_of_balanced {B : List Char}
    (hbal : ∀ k, k ≤ B.length → 0 ≤ nesting (B.take k)) (hzero : nesting B = 0) :
    Transparent (removeWhitespace B) := by
  have h := balanced_removeWhitespace B 0 (fun k hk => by have := hbal k hk; omega)
  exact transparent_of_balanced (fun k hk => by have := h.1 k hk; omega) (by rw [h.2, hzero])

theorem buildEquationTreeRec_group_throw {D : Type} (ops : FloatOps D) (n : Nat) (sub : Bool)
    {body : List Char} (r : List Char) {e : ErrorType} (ht : Transparent body)
    (hnl : (body ++ ')' :: r).all isAnyButNewline = true) (hn : body.length < n)
    (h : buildSubGroup ops body = Outcome.throw e) :
    buildEquationTreeRec ops (n + 1) ('(' :: body ++ ')' :: r) sub = Outcome.throw e := by
  rw [buildEquationTreeRec_group ops n sub r ht hnl,
    buildEquationTreeRec_fuel ops n (body.length + 1) body true hn (by omega)]
  simp only [buildSubGroup] at h
  rw [h]
  rfl

/-! ## A closing symbol after an equation -/

theorem takeWhile_append_singleton {p : Char → Bool} (l : List Char) {c : Char}
    (hc : p c = false) :
    (l ++ [c]).takeWhile p = l.takeWhile p ∧
    (l ++ [c]).dropWhile p = l.dropWhile p ++ [c] := by
  induction l with
  | nil => simp [List.takeWhile_cons, List.dropWhile_cons, hc]
  | cons x xs ih =>
    by_cases hx : p x = true
    · simp [List.takeWhile_cons, List.dropWhile_cons, hx, ih.1, ih.2]
    · simp [List.takeWhile_cons, List.dropWhile_cons, hx]

theorem searchOperandLiteral_append_close {eq str suffix : List Char}
    (h : searchOperandLiteral eq = some (str, suffix)) :
    searchOperandLiteral (eq ++ [')']) = some (str, suffix ++ [')']) := by
  have h1 : isDigit ')' = false := by decide
  have h2 : (fun c : Char => c == '.') ')' = false := by decide
  have a1 := takeWhile_append_singleton (p := isDigit) eq h1
  have a2 := takeWhile_append_singleton (p := fun c : Char => c == '.')
    (List.dropWhile isDigit eq) h2
  have a3 := takeWhile_append_singleton (p := isDigit)
    (List.dropWhile (fun c : Char => c == '.') (List.dropWhile isDigit eq)) h1
  simp only [searchOperandLiteral] at h ⊢
  rw [a1.1, a1.2, a2.1, a2.2, a3.1, a3.2]
  by_cases hd : (List.takeWhile isDigit eq).isEmpty = true
  · simp [hd] at h
  · simp only [hd, if_false, Option.some.injEq, Prod.mk.injEq, Bool.false_eq_true] at h ⊢
    exact ⟨h.1, by rw [h.2]⟩

theorem popOperandFromEquation_append_close {D : Type} (ops : FloatOps D)
    (build : List Char → Bool → Outcome (Node D))
    (hb : ∀ s T, build s true = Outcome.ok T → wellFormed T = true ∧ Transparent s)
    {eq eq2 : List Char} {x : Node D}
    (h : popOperandFromEquation ops build eq = Outcome.ok (x, eq2)) :
    popOperandFromEquation ops build (eq ++ [')']) = Outcome.ok (x, eq2 ++ [')']) := by
  by_cases hm : matchOpenGroup eq = true
  · obtain ⟨t, rfl⟩ := matchOpenGroup_cases hm
    have h0 := h
    simp only [popOperandFromEquation, hm, if_true] at h
    obtain ⟨body, hb1, hb2⟩ := popGroupFromEquation_ok build h
    have ht := (hb body x hb2).2
    have hnl : (body ++ ')' :: (eq2 ++ [')'])).all isAnyButNewline = true := by
      rw [hb1] at hm
      simp only [matchOpenGroup, List.cons_append, beq_self_eq_true, Bool.true_and] at hm
      have h3 : isAnyButNewline ')' = true := by decide
      simp only [List.all_append, List.all_cons, List.all_nil, Bool.and_true] at hm ⊢
      simp only [Bool.and_eq_true] at hm ⊢
      exact ⟨hm.1, hm.2.1, hm.2.2, h3⟩
    have e : '(' :: t ++ [')'] = '(' :: body ++ ')' :: (eq2 ++ [')']) := by
      rw [hb1]
      simp
    rw [e, popOperandFromEquation_group ops build _ ht hnl, hb2]
    rfl
  · have hm2 : matchOpenGroup eq = false := by simpa using hm
    simp only [popOperandFromEquation, hm2, Bool.false_eq_true, if_false,
      popLiteralFromEquation] at h
    cases hs : searchOperandLiteral eq with
    | none => rw [hs] at h; simp at h
    | some p =>
      obtain ⟨str, suffix⟩ := p
      rw [hs] at h
      simp only [Outcome.ok.injEq, Prod.mk.injEq] at h
      obtain ⟨e1, e2, _⟩ := searchOperandLiteral_ok hs
      have hm3 : matchOpenGroup (eq ++ [')']) = false := by
        cases eq with
        | nil => simp at e1; exact absurd e1.1 e2
        | cons c t =>
          have hc : isDigit c = true := by
            simp only [searchOperandLiteral] at hs
            by_cases hd : isDigit c = true
            · exact hd
            · simp [List.takeWhile_cons, hd] at hs
          have := (ne_paren_of_isDigit hc).1
          simp [matchOpenGroup, this]
      simp only [popOperandFromEquation, hm3, Bool.false_eq_true, if_false,
        popLiteralFromEquation, searchOperandLiteral_append_close hs, h.1, h.2]

theorem whileLoop_append_close {D : Type} (ops : FloatOps D)
    (build : List Char → Bool → Outcome (Node D))
    (hb : ∀ s T, build s true = Outcome.ok T → wellFormed T = true ∧ Transparent s) :
    ∀ (k : Nat) (eq : List Char) (nodes out : List (Node D)),
      whileLoop ops build k eq nodes = Outcome.ok out →
      whileLoop ops build (k + 1) (eq ++ [')']) nodes
        = Outcome.throw ErrorType.InvalidOperator
  | 0, _, _, _, h => by simp [whileLoop] at h
  | k + 1, [], nodes, out, _ =>
    whileLoop_invalid_operator ops build _ [] nodes (by decide)
  | k + 1, c :: eq1, nodes, out, h => by
    by_cases hc : isOperatorChar c = true
    · rw [whileLoop_cons_operator ops build k eq1 nodes hc] at h
      have e : c :: eq1 ++ [')'] = c :: (eq1 ++ [')']) := rfl
      rw [e, whileLoop_cons_operator ops build (k + 1) _ nodes hc]
      cases hx : popOperandFromEquation ops build eq1 with
      | throw e => rw [hx] at h; simp [Outcome.bind] at h
      | undefined => rw [hx] at h; simp [Outcome.bind] at h
      | ok q =>
        obtain ⟨x, eq2⟩ := q
        rw [hx] at h
        rw [popOperandFromEquation_append_close ops build hb hx]
        simp only [Outcome.bind] at h ⊢
        exact whileLoop_append_close ops build hb k eq2 _ out h
    · have hc2 : isOperatorChar c = false := by simpa using hc
      rw [whileLoop_invalid_operator ops build k eq1 nodes hc2] at h
      simp at h

theorem buildEquationTreeRec_inv_sub {D : Type} (ops : FloatOps D) (n : Nat) :
    ∀ s T, buildEquationTreeRec ops n s true = Outcome.ok T →
      wellFormed T = true ∧ Transparent s := by
  intro s T hs
  have hi := buildEquationTreeRec_inv ops n s true T hs
  refine ⟨hi.1 ?_, hi.2⟩
  intro h0
  subst h0
  cases n <;> simp [buildEquationTreeRec] at hs

theorem buildEquationTreeRec_append_close {D : Type} (ops : FloatOps D) (n : Nat) (sub : Bool)
    {eq : List Char} {T : Node D} (hne : eq ≠ [])
    (h : buildEquationTreeRec ops (n + 1) eq sub = Outcome.ok T) :
    buildEquationTreeRec ops (n + 1) (eq ++ [')']) sub
      = Outcome.throw ErrorType.InvalidOperator := by
  have hb := buildEquationTreeRec_inv_sub ops n
  cases eq with
  | nil => exact absurd rfl hne
  | cons c t =>
    by_cases hc : c = '-'
    · subst hc
      have e : '-' :: t ++ [')'] = '-' :: (t ++ [')']) := rfl
      rw [e]
      simp only [buildEquationTreeRec, List.isEmpty_cons, Bool.false_eq_true, if_false,
        popNegateFromEquation_minus] at h ⊢
      cases hx : popOperandFromEquation ops (buildEquationTreeRec ops n) t with
      | throw e => rw [hx] at h; simp at h
      | undefined => rw [hx] at h; simp at h
      | ok q =>
        obtain ⟨x, eq1⟩ := q
        rw [hx] at h
        rw [popOperandFromEquation_append_close ops _ hb hx]
        simp only at h ⊢
        cases hw : whileLoop ops (buildEquationTreeRec ops n) (eq1.length + 1) eq1
            ([Node.operator Negate Node.nullptr Node.nullptr] ++ [x]) with
        | throw e => rw [hw] at h; simp at h
        | undefined => rw [hw] at h; simp at h
        | ok nodes =>
          have := whileLoop_append_close ops _ hb _ _ _ _ hw
          simp only [List.length_append, List.length_singleton]
          rw [this]
    · have e : c :: t ++ [')'] = c :: (t ++ [')']) := rfl
      rw [e]
      simp only [buildEquationTreeRec, List.isEmpty_cons, Bool.false_eq_true, if_false,
        popNegateFromEquation_other _ hc] at h ⊢
      cases hx : popOperandFromEquation ops (buildEquationTreeRec ops n) (c :: t) with
      | throw e => rw [hx] at h; simp at h
      | undefined => rw [hx] at h; simp at h
      | ok q =>
        obtain ⟨x, eq1⟩ := q
        rw [hx] at h
        have hx2 := popOperandFromEquation_append_close ops _ hb hx
        simp only [List.cons_append] at hx2
        rw [hx2]
        simp only at h ⊢
        cases hw : whileLoop ops (buildEquationTreeRec ops n) (eq1.length + 1) eq1
            ([] ++ [x]) with
        | throw e => rw [hw] at h; simp at h
        | undefined => rw [hw] at h; simp at h
        | ok nodes =>
          have := whileLoop_append_close ops _ hb _ _ _ _ hw
          simp only [List.length_append, List.length_singleton]
          rw [this]

/-! ## The literal scan on texts with one dot -/

theorem searchOperandLiteral_one_dot {d f rest : List Char} (hne : d ≠ [])
    (hd : ∀ c ∈ d, isDigit c = true) (hf : ∀ c ∈ f, isDigit c = true)
    (hr : ∀ c, rest.head? = some c → isDigit c = false) (hdot : f = [] → LiteralEnd rest) :
    searchOperandLiteral (d ++ '.' :: f ++ rest) = some (d ++ '.' :: f, rest) := by
  have hdotc : isDigit '.' = false := by decide
  have e : d ++ '.' :: f ++ rest = d ++ ('.' :: (f ++ rest)) := by simp
  have hrest : List.takeWhile isDigit rest = [] ∧ List.dropWhile isDigit rest = rest := by
    cases rest with
    | nil => simp
    | cons c r =>
      have hc := hr c (by simp)
      simp [List.takeWhile_cons, List.dropWhile_cons, hc]
  have e1 : List.takeWhile isDigit (f ++ rest) = f := by
    rw [List.takeWhile_append_of_pos hf, hrest.1, List.append_nil]
  have e2 : List.dropWhile isDigit (f ++ rest) = rest := by
    rw [List.dropWhile_append_of_pos hf, hrest.2]
  have e34 : List.takeWhile (fun c => c == '.') (f ++ rest) = [] ∧
      List.dropWhile (fun c => c == '.') (f ++ rest) = f ++ rest := by
    cases f with
    | nil =>
      have := takeWhile_dot_of_literalEnd (hdot rfl)
      simpa using this
    | cons c r =>
      have hc := (ne_paren_of_isDigit (hf c (by simp))).2.2.2
      simp [List.takeWhile_cons, List.dropWhile_cons, hc]
  rw [e]
  simp only [searchOperandLiteral, List.takeWhile_append_of_pos hd,
    List.dropWhile_append_of_pos hd, List.takeWhile_cons, List.dropWhile_cons, hdotc,
    beq_self_eq_true, if_true, List.append_nil]
  cases d with
  | nil => exact absurd rfl hne
  | cons c r => simp [e1, e2, e34.1, e34.2]

theorem popLiteralFromEquation_throw_iff {D : Type} (ops : FloatOps D) (s : List Char)
    (e : ErrorType) :
    popLiteralFromEquation ops s = Outcome.throw e ↔
      (e = ErrorType.InvalidOperand ∧ ∀ c, s.head? = some c → isDigit c = false) := by
  cases s with
  | nil =>
    have h : popLiteralFromEquation ops [] = Outcome.throw ErrorType.InvalidOperand := rfl
    rw [h]
    constructor
    · intro h1
      simp only [Outcome.throw.injEq] at h1
      exact ⟨h1.symm, fun c hc => by simp at hc⟩
    · intro h1
      rw [h1.1]
  | cons c t =>
    by_cases hc : isDigit c = true
    · have h : ∃ p, popLiteralFromEquation ops (c :: t) = Outcome.ok p := by
        simp [popLiteralFromEquation, searchOperandLiteral, List.takeWhile_cons, hc]
      obtain ⟨p, hp⟩ := h
      rw [hp]
      constructor
      · intro h1
        simp at h1
      · intro h1
        have := h1.2 c (by simp)
        rw [hc] at this
        exact absurd this (by decide)
    · have hc2 : isDigit c = false := by simpa using hc
      have h : popLiteralFromEquation ops (c :: t) = Outcome.throw ErrorType.InvalidOperand := by
        simp [popLiteralFromEquation, searchOperandLiteral, List.takeWhile_cons, hc2]
      rw [h]
      constructor
      · intro h1
        simp only [Outcome.throw.injEq] at h1
        refine ⟨h1.symm, fun x hx => ?_⟩
        simp only [List.head?_cons, Option.some.injEq] at hx
        rw [← hx]
        exact hc2
      · intro h1
        rw [h1.1]

/-! ## Nesting levels and the scan -/

theorem nesting_nil : nesting [] = 0 := rfl

theorem nesting_append (a b : List Char) : nesting (a ++ b) = nesting a + nesting b := by
  simp only [nesting, List.count_append, Nat.cast_add]
  omega

theorem nesting_of_no_paren {s : List Char} (h : ∀ c ∈ s, c ≠ '(' ∧ c ≠ ')') :
    nesting s = 0 := by
  induction s with
  | nil => rfl
  | cons c r ih =>
    have h1 := h c (by simp)
    rw [nesting_cons, ih (fun x hx => h x (by simp [hx]))]
    simp [h1.1, h1.2]

theorem nesting_removeWhitespace (s : List Char) : nesting (removeWhitespace s) = nesting s := by
  induction s with
  | nil => rfl
  | cons c r ih =>
    rw [removeWhitespace_cons]
    by_cases hs : isspace c = true
    · rw [if_pos hs, nesting_cons_space _ hs, ih]
    · rw [if_neg hs, nesting_cons, nesting_cons, ih]

theorem scanGroup_cons (c : Char) (rest : List Char) (level : Int) (pos : Nat) :
    scanGroup (c :: rest) level pos
      = (if (level + (if c == '(' then 1 else if c == ')' then -1 else 0) : Int) > 0 ∧ rest ≠ []
          then scanGroup rest (level + (if c == '(' then 1 else if c == ')' then -1 else 0))
            (pos + 1)
          else (level + (if c == '(' then 1 else if c == ')' then -1 else 0), pos + 1)) := by
  have hstep : (if c == '(' then level + 1 else if c == ')' then level - 1 else level)
      = level + (if c == '(' then 1 else if c == ')' then -1 else 0) := by
    split
    · rfl
    · split <;> omega
  rw [scanGroup]
  simp only [hstep]
  by_cases h1 : (level + (if c == '(' then 1 else if c == ')' then -1 else 0) : Int) > 0
  · cases rest with
    | nil => simp [h1]
    | cons x xs => simp [h1]
  · simp [h1]

theorem scanGroup_open : ∀ (s : List Char) (level : Int) (pos : Nat), s ≠ [] →
    0 < (scanGroup s level pos).1 → (scanGroup s level pos).1 = level + nesting s
  | [], _, _, hs, _ => absurd rfl hs
  | c :: rest, level, pos, _, h => by
    rw [scanGroup_cons] at h ⊢
    by_cases hc : (level + (if c == '(' then 1 else if c == ')' then -1 else 0) : Int) > 0
        ∧ rest ≠ []
    · rw [if_pos hc] at h ⊢
      rw [scanGroup_open rest _ (pos + 1) hc.2 h, nesting_cons]
      omega
    · rw [if_neg hc] at h ⊢
      have hrest : rest = [] := by
        by_contra h0
        exact hc ⟨h, h0⟩
      subst hrest
      rw [nesting_cons, nesting_nil]
      simp

theorem scanGroup_closed_nesting : ∀ (s : List Char) (level : Int) (pos : Nat), 1 ≤ level →
    s ≠ [] → (scanGroup s level pos).1 ≤ 0 →
    ∃ k, (scanGroup s level pos).2 = pos + k + 1 ∧ s[k]? = some ')' ∧
      level + nesting (s.take k) = 1
  | [], _, _, _, hs, _ => absurd rfl hs
  | c :: rest, level, pos, hl, _, h => by
    have hstep : (if c == '(' then level + 1 else if c == ')' then level - 1 else level)
        = level + (if c == '(' then 1 else if c == ')' then -1 else 0) := by
      split
      · rfl
      · split <;> omega
    by_cases hcond : (decide ((if c == '(' then level + 1 else if c == ')' then level - 1
        else level) > 0) && !rest.isEmpty) = true
    · simp only [scanGroup, hcond, if_true] at h ⊢
      simp only [Bool.and_eq_true, decide_eq_true_eq, Bool.not_eq_true',
        List.isEmpty_eq_false] at hcond
      have hrest : rest ≠ [] := by
        intro h0
        simp [h0] at hcond
      obtain ⟨k, hk1, hk2, hk3⟩ := scanGroup_closed_nesting rest _ (pos + 1) (by omega) hrest h
      refine ⟨k + 1, by rw [hk1]; omega, by simpa using hk2, ?_⟩
      rw [List.take_succ_cons, nesting_cons]
      rw [hstep] at hk3
      omega
    · simp only [scanGroup, hcond, if_false] at h ⊢
      refine ⟨0, by simp, ?_, ?_⟩
      · by_cases h1 : c = '('
        · simp [h1] at h
          omega
        · by_cases h2 : c = ')'
          · simp [h2]
          · simp [h1, h2] at h
            omega
      · rw [List.take_zero, nesting_nil]
        by_cases h1 : c = '('
        · simp [h1] at h
          omega
        · by_cases h2 : c = ')'
          · simp [h1, h2] at h
            omega
          · simp [h1, h2] at h
            omega

theorem popGroupFromEquation_cases {D : Type} (build : List Char → Bool → Outcome (Node D))
    (t : List Char) :
    (0 < nesting ('(' :: t) ∧ 0 < (scanGroup ('(' :: t) 0 0).1 ∧
      popGroupFromEquation build ('(' :: t)
        = Outcome.throw ErrorType.MissingClosingSymbol) ∨
    (∃ body eq2, '(' :: t = '(' :: body ++ ')' :: eq2 ∧ nesting body = 0 ∧
      ¬ 0 < (scanGroup ('(' :: t) 0 0).1 ∧ groupStr ('(' :: t) = body ∧
      popGroupFromEquation build ('(' :: t)
        = (build body true).map (fun node => (node, eq2))) := by
  by_cases ht : t = []
  · subst ht
    left
    refine ⟨by decide, by decide, ?_⟩
    simp [popGroupFromEquation, scanGroup]
  · have hne : t.isEmpty = false := by
      cases t with
      | nil => exact absurd rfl ht
      | cons a b => rfl
    have hscan : scanGroup ('(' :: t) 0 0 = scanGroup t 1 1 := by
      simp [scanGroup, hne]
    have hnest : nesting ('(' :: t) = 1 + nesting t := by
      rw [nesting_cons]
      simp
    by_cases h1 : 0 < (scanGroup t 1 1).1
    · left
      have := scanGroup_open t 1 1 ht h1
      refine ⟨by omega, by rw [hscan]; exact h1, ?_⟩
      simp only [popGroupFromEquation, hscan, gt_iff_lt, h1, if_true]
    · right
      obtain ⟨k, hk1, hk2, hk3⟩ := scanGroup_closed_nesting t 1 1 (le_refl 1) ht (by omega)
      have hklt : k < t.length := by
        by_contra hcon
        rw [List.getElem?_eq_none (by omega)] at hk2
        simp at hk2
      have hsplit : t = List.take k t ++ ')' :: List.drop (k + 1) t := by
        have h3 := List.take_append_drop k t
        have h4 : List.drop k t = ')' :: List.drop (k + 1) t := by
          rw [List.drop_eq_getElem_cons hklt]
          congr 1
          rw [List.getElem?_eq_getElem hklt] at hk2
          simpa using hk2
        rw [← h4, h3]
      have e1 : 1 + k + 1 - 1 = k + 1 := by omega
      have e2 : 1 + k + 1 = k + 1 + 1 := by omega
      have hgs : groupStr ('(' :: t) = List.take k t := by
        simp only [groupStr, hscan, hk1, e1, List.take_succ_cons, List.drop_succ_cons,
          List.drop_zero]
      refine ⟨List.take k t, List.drop (k + 1) t, ?_, by omega, by rw [hscan]; exact h1, hgs, ?_⟩
      · rw [List.cons_append, ← hsplit]
      · have h2 : ¬ ((scanGroup t 1 1).2 < 2) := by rw [hk1]; omega
        simp only [popGroupFromEquation, hscan, gt_iff_lt, h1, h2, if_false]
        rw [hk1, e1]
        simp only [List.take_succ_cons, List.drop_succ_cons, List.drop_zero, e2]
        cases build (List.take k t) true <;> rfl

/-! ## Where MissingClosingSymbol comes from -/

theorem collapse_ne_throw {D : Type} (op1 op2 : Char) (e : ErrorType) :
    ∀ (toks : List (Node D)) (prev : Node D), collapse op1 op2 prev toks ≠ Outcome.throw e
  | [], _ => by simp [collapse]
  | [_], _ => by simp [collapse]
  | Node.nullptr :: _ :: _, _ => by simp [collapse]
  | Node.literal _ _ _ :: _ :: _, _ => by simp [collapse]
  | Node.operator sym l r :: x :: rest, prev => by
    simp only [collapse]
    by_cases hm : (sym == op1 || sym == op2) = true
    · simp only [hm, if_true]
      exact collapse_ne_throw op1 op2 e rest _
    · simp only [hm, if_false, Bool.false_eq_true]
      have ih := collapse_ne_throw op1 op2 e rest x
      cases hc : collapse op1 op2 x rest with
      | ok out => simp [Outcome.map]
      | throw e1 => rw [hc] at ih; simp [Outcome.map]; intro h; exact ih (by rw [h])
      | undefined => simp [Outcome.map]

theorem processOperatorNodes_ne_throw {D : Type} (l : List (Node D)) (op1 op2 : Char)
    (e : ErrorType) : processOperatorNodes l op1 op2 ≠ Outcome.throw e := by
  cases l with
  | nil => simp [processOperatorNodes]
  | cons x rest =>
    rw [processOperatorNodes_eq_collapse]
    exact collapse_ne_throw op1 op2 e rest x

theorem processNegationNode_ne_throw {D : Type} (l : List (Node D)) (e : ErrorType) :
    processNegationNode l ≠ Outcome.throw e := by
  unfold processNegationNode
  split
  · simp
  · simp
  · simp
  · split
    · split <;> simp
    · simp
  · simp

theorem buildTreeFromNodes_throw {D : Type} {l : List (Node D)} {e : ErrorType}
    (h : buildTreeFromNodes l = Outcome.throw e) : e = ErrorType.UnknownError := by
  simp only [buildTreeFromNodes] at h
  cases h0 : processNegationNode l with
  | throw e1 => exact absurd h0 (processNegationNode_ne_throw l e1)
  | undefined => rw [h0] at h; simp at h
  | ok l0 =>
    rw [h0] at h
    simp only at h
    cases h1 : processOperatorNodes l0 Power Power with
    | throw e1 => exact absurd h1 (processOperatorNodes_ne_throw _ _ _ e1)
    | undefined => rw [h1] at h; simp at h
    | ok l1 =>
      rw [h1] at h
      simp only at h
      cases h2 : processOperatorNodes l1 Multiplication Division with
      | throw e1 => exact absurd h2 (processOperatorNodes_ne_throw _ _ _ e1)
      | undefined => rw [h2] at h; simp at h
      | ok l2 =>
        rw [h2] at h
        simp only at h
        cases h3 : processOperatorNodes l2 Addition Subtraction with
        | throw e1 => exact absurd h3 (processOperatorNodes_ne_throw _ _ _ e1)
        | undefined => rw [h3] at h; simp at h
        | ok l3 =>
          rw [h3] at h
          simp only at h
          split at h
          · simp at h
          · simp only [Outcome.throw.injEq] at h
            exact h.symm

theorem popOperandFromEquation_nesting {D : Type} (ops : FloatOps D)
    (build : List Char → Bool → Outcome (Node D)) {eq eq2 : List Char} {x : Node D}
    (h : popOperandFromEquation ops build eq = Outcome.ok (x, eq2)) :
    nesting eq = nesting eq2 := by
  by_cases hm : matchOpenGroup eq = true
  · obtain ⟨t, rfl⟩ := matchOpenGroup_cases hm
    simp only [popOperandFromEquation, hm, if_true] at h
    rcases popGroupFromEquation_cases build t with ⟨_, _, h1⟩ | ⟨body, r, h1, h2, _, _, h3⟩
    · rw [h1] at h
      simp at h
    · rw [h3] at h
      cases hb : build body true with
      | throw e => rw [hb] at h; simp [Outcome.map] at h
      | undefined => rw [hb] at h; simp [Outcome.map] at h
      | ok y =>
        rw [hb] at h
        simp only [Outcome.map, Outcome.ok.injEq, Prod.mk.injEq] at h
        rw [h1, ← h.2]
        have e : '(' :: body ++ ')' :: r = ['('] ++ body ++ [')'] ++ r := by simp
        rw [e, nesting_append, nesting_append, nesting_append, h2]
        have e1 : nesting ['('] = 1 := by decide
        have e2 : nesting [')'] = -1 := by decide
        omega
  · obtain ⟨consumed, h1, _, h3⟩ := popOperandFromEquation_ok ops build h
    rcases h3 with ⟨body, hc, _⟩ | ⟨_, hc⟩
    · exfalso
      apply hm
      rw [h1, hc]
      have hm2 : matchOpenGroup eq = false := by simpa using hm
      simp only [popOperandFromEquation, hm2, Bool.false_eq_true, if_false,
        popLiteralFromEquation] at h
      cases hs : searchOperandLiteral eq with
      | none => rw [hs] at h; simp at h
      | some p =>
        obtain ⟨e1, e2, e3⟩ := searchOperandLiteral_ok hs
        rw [h1, hc] at hs
        simp [searchOperandLiteral, List.takeWhile_cons] at hs
        exact absurd hs.1 (by decide)
    · rw [h1, nesting_append, nesting_of_no_paren hc]
      omega

theorem popOperandFromEquation_missing {D : Type} (ops : FloatOps D)
    (build : List Char → Bool → Outcome (Node D))
    (hb : ∀ body, nesting body = 0 →
      build body true ≠ Outcome.throw ErrorType.MissingClosingSymbol)
    {eq : List Char}
    (h : popOperandFromEquation ops build eq = Outcome.throw ErrorType.MissingClosingSymbol) :
    0 < nesting eq := by
  by_cases hm : matchOpenGroup eq = true
  · obtain ⟨t, rfl⟩ := matchOpenGroup_cases hm
    simp only [popOperandFromEquation, hm, if_true] at h
    rcases popGroupFromEquation_cases build t with ⟨h0, _, _⟩ | ⟨body, r, _, h2, _, _, h3⟩
    · exact h0
    · rw [h3] at h
      exfalso
      apply hb body h2
      cases hbb : build body true with
      | throw e => rw [hbb] at h; simp only [Outcome.map, Outcome.throw.injEq] at h; rw [h]
      | undefined => rw [hbb] at h; simp [Outcome.map] at h
      | ok y => rw [hbb] at h; simp [Outcome.map] at h
  · have hm2 : matchOpenGroup eq = false := by simpa using hm
    simp only [popOperandFromEquation, hm2, Bool.false_eq_true, if_false] at h
    have := (popLiteralFromEquation_throw_iff ops eq _).mp h
    exact absurd this.1 (by decide)

theorem whileLoop_missing {D : Type} (ops : FloatOps D)
    (build : List Char → Bool → Outcome (Node D))
    (hb : ∀ body, nesting body = 0 →
      build body true ≠ Outcome.throw ErrorType.MissingClosingSymbol) :
    ∀ (k : Nat) (eq : List Char) (nodes : List (Node D)),
      whileLoop ops build k eq nodes = Outcome.throw ErrorType.MissingClosingSymbol →
      0 < nesting eq
  | 0, _, _, h => by simp [whileLoop] at h
  | k + 1, [], nodes, h => by simp [whileLoop] at h
  | k + 1, c :: eq1, nodes, h => by
    by_cases hc : isOperatorChar c = true
    · rw [whileLoop_cons_operator ops build k eq1 nodes hc] at h
      have hcn : nesting (c :: eq1) = nesting eq1 := by
        have e : c :: eq1 = [c] ++ eq1 := rfl
        rw [e, nesting_append, nesting_of_no_paren (s := [c])]
        · omega
        · intro x hx
          simp only [List.mem_singleton] at hx
          subst hx
          constructor <;> intro h0 <;> subst h0 <;> revert hc <;> decide
      rw [hcn]
      cases hx : popOperandFromEquation ops build eq1 with
      | throw e =>
        rw [hx] at h
        simp only [Outcome.bind, Outcome.throw.injEq] at h
        subst h
        exact popOperandFromEquation_missing ops build hb hx
      | undefined => rw [hx] at h; simp [Outcome.bind] at h
      | ok q =>
        obtain ⟨x, eq2⟩ := q
        rw [hx] at h
        simp only [Outcome.bind] at h
        rw [popOperandFromEquation_nesting ops build hx]
        exact whileLoop_missing ops build hb k eq2 _ h
    · have hc2 : isOperatorChar c = false := by simpa using hc
      rw [whileLoop_invalid_operator ops build k eq1 nodes hc2] at h
      simp at h

theorem buildEquationTreeRec_missing {D : Type} (ops : FloatOps D) :
    ∀ (n : Nat) (eq : List Char) (sub : Bool),
      buildEquationTreeRec ops n eq sub = Outcome.throw ErrorType.MissingClosingSymbol →
      0 < nesting eq
  | 0, _, _, h => by simp [buildEquationTreeRec] at h
  | n + 1, [], sub, h => by
    cases sub <;> simp [buildEquationTreeRec] at h
  | n + 1, c :: t, sub, h => by
    have hb : ∀ body, nesting body = 0 →
        buildEquationTreeRec ops n body true ≠ Outcome.throw ErrorType.MissingClosingSymbol := by
      intro body h0 hcon
      have := buildEquationTreeRec_missing ops n body true hcon
      omega
    have key : ∀ (eq0 : List Char) (nodes0 : List (Node D)),
        (match popOperandFromEquation ops (buildEquationTreeRec ops n) eq0 with
          | Outcome.ok (operandNode, equation1) =>
            match whileLoop ops (buildEquationTreeRec ops n) (equation1.length + 1) equation1
                (nodes0 ++ [operandNode]) with
            | Outcome.ok nodes => buildTreeFromNodes nodes
            | Outcome.throw e => Outcome.throw e
            | Outcome.undefined => Outcome.undefined
          | Outcome.throw e => Outcome.throw e
          | Outcome.undefined => Outcome.undefined)
          = Outcome.throw ErrorType.MissingClosingSymbol → 0 < nesting eq0 := by
      intro eq0 nodes0 h1
      cases hx : popOperandFromEquation ops (buildEquationTreeRec ops n) eq0 with
      | throw e =>
        rw [hx] at h1
        simp only [Outcome.throw.injEq] at h1
        subst h1
        exact popOperandFromEquation_missing ops _ hb hx
      | undefined => rw [hx] at h1; simp at h1
      | ok q =>
        obtain ⟨x, eq1⟩ := q
        rw [hx] at h1
        simp only at h1
        rw [popOperandFromEquation_nesting ops _ hx]
        cases hw : whileLoop ops (buildEquationTreeRec ops n) (eq1.length + 1) eq1
            (nodes0 ++ [x]) with
        | throw e =>
          rw [hw] at h1
          simp only [Outcome.throw.injEq] at h1
          subst h1
          exact whileLoop_missing ops _ hb _ _ _ hw
        | undefined => rw [hw] at h1; simp at h1
        | ok nodes =>
          rw [hw] at h1
          simp only at h1
          have := buildTreeFromNodes_throw h1
          exact absurd this (by decide)
    by_cases hc : c = '-'
    · subst hc
      simp only [buildEquationTreeRec, List.isEmpty_cons, Bool.false_eq_true, if_false,
        popNegateFromEquation_minus] at h
      have := key t _ h
      have e : nesting ('-' :: t) = nesting t := by
        rw [nesting_cons]
        simp
      rw [e]
      exact this
    · simp only [buildEquationTreeRec, List.isEmpty_cons, Bool.false_eq_true, if_false,
        popNegateFromEquation_other _ hc] at h
      exact key (c :: t) _ h

/-! ## The passes and the reference grammar -/

theorem collapse_tokenTail {D : Type} (op1 op2 : Char) :
    ∀ (ps : List (Char × Node D)) (x : Node D),
      collapse op1 op2 x (tokenTail ps)
        = Outcome.ok ((pass (fun o => o == op1 || o == op2) x ps).1
            :: tokenTail (pass (fun o => o == op1 || o == op2) x ps).2)
  | [], x => rfl
  | p :: rest, x => by
    simp only [tokenTail, operatorNode, collapse, pass]
    by_cases hm : (p.1 == op1 || p.1 == op2) = true
    · simp only [hm, if_true]
      exact collapse_tokenTail op1 op2 rest _
    · simp only [hm, if_false, Bool.false_eq_true]
      rw [collapse_tokenTail op1 op2 rest p.2]
      simp only [Outcome.map, tokenTail, operatorNode]

theorem cut_head {α : Type} (sep : Char → Bool) :
    ∀ (ps : List (Char × α)) (x y : α),
      (cut sep x ps).1.1 = x ∧ (cut sep x ps).1.2 = (cut sep y ps).1.2 ∧
      (cut sep x ps).2 = (cut sep y ps).2
  | [], x, y => ⟨rfl, rfl, rfl⟩
  | p :: rest, x, y => by
    simp only [cut]
    by_cases hs : sep p.1 = true
    · simp only [hs, if_true, and_self]
    · simp only [hs, if_false, Bool.false_eq_true, and_self]

theorem foldLeft_cons {D : Type} (x : Node D) (p : Char × Node D) (rest : List (Char × Node D)) :
    foldLeft x (p :: rest) = foldLeft (Node.operator p.1 x p.2) rest := rfl

theorem pass_eq_cut {D : Type} (inTier : Char → Bool) :
    ∀ (ps : List (Char × Node D)) (x : Node D),
      pass inTier x ps = mapSeq factorTree (cut (fun o => !inTier o) x ps)
  | [], x => rfl
  | p :: rest, x => by
    simp only [pass, cut]
    by_cases hm : inTier p.1 = true
    · simp only [hm, if_true, Bool.not_true, Bool.false_eq_true, if_false]
      rw [pass_eq_cut inTier rest (Node.operator p.1 x p.2)]
      have h := cut_head (fun o => !inTier o) rest (Node.operator p.1 x p.2) p.2
      have h2 := cut_head (fun o => !inTier o) rest p.2 p.2
      simp only [mapSeq, factorTree, foldLeft_cons, h2.1]
      rw [h.1, h.2.1, h.2.2]
    · have hm2 : inTier p.1 = false := by simpa using hm
      simp only [hm2, Bool.false_eq_true, if_false, Bool.not_false, if_true]
      rw [pass_eq_cut inTier rest p.2]
      simp only [mapSeq, factorTree, foldLeft, List.foldl_nil, List.map_cons]

theorem pass_all_inTier {D : Type} (inTier : Char → Bool) :
    ∀ (ps : List (Char × Node D)) (x : Node D), (∀ p ∈ ps, inTier p.1 = true) →
      pass inTier x ps = (foldLeft x ps, [])
  | [], _, _ => rfl
  | p :: rest, x, h => by
    have hp := h p (by simp)
    simp only [pass, hp, if_true, foldLeft_cons]
    exact pass_all_inTier inTier rest _ (fun q hq => h q (by simp [hq]))

theorem pass_ops {D : Type} (inTier : Char → Bool) :
    ∀ (ps : List (Char × Node D)) (x : Node D) (q : Char × Node D),
      q ∈ (pass inTier x ps).2 → inTier q.1 = false ∧ ∃ p ∈ ps, p.1 = q.1
  | [], _, q, h => by simp [pass] at h
  | p :: rest, x, q, h => by
    simp only [pass] at h
    by_cases hm : inTier p.1 = true
    · simp only [hm, if_true] at h
      obtain ⟨h1, r, hr, hr2⟩ := pass_ops inTier rest _ q h
      exact ⟨h1, r, by simp [hr], hr2⟩
    · have hm2 : inTier p.1 = false := by simpa using hm
      simp only [hm2, Bool.false_eq_true, if_false, List.mem_cons] at h
      rcases h with h | h
      · subst h
        exact ⟨hm2, p, by simp, rfl⟩
      · obtain ⟨h1, r, hr, hr2⟩ := pass_ops inTier rest _ q h
        exact ⟨h1, r, by simp [hr], hr2⟩

theorem cut_congr {α : Type} (sep1 sep2 : Char → Bool) :
    ∀ (ps : List (Char × α)) (x : α), (∀ p ∈ ps, sep1 p.1 = sep2 p.1) →
      cut sep1 x ps = cut sep2 x ps
  | [], _, _ => rfl
  | p :: rest, x, h => by
    have hp := h p (by simp)
    have ih := cut_congr sep1 sep2 rest p.2 (fun q hq => h q (by simp [hq]))
    simp only [cut, hp, ih]

theorem cut_all_sep {α : Type} (sep : Char → Bool) :
    ∀ (ps : List (Char × α)) (x : α), (∀ p ∈ ps, sep p.1 = true) →
      cut sep x ps = mapSeq (fun a => (a, ([] : List (Char × α)))) (x, ps)
  | [], _, _ => rfl
  | p :: rest, x, h => by
    have hp := h p (by simp)
    have ih := cut_all_sep sep rest p.2 (fun q hq => h q (by simp [hq]))
    simp only [cut, hp, if_true, ih, mapSeq, List.map_cons]

theorem cut_pieces {α : Type} (sep : Char → Bool) :
    ∀ (ps : List (Char × α)) (x : α),
      (∀ q ∈ (cut sep x ps).1.2, sep q.1 = false ∧ ∃ p ∈ ps, p.1 = q.1) ∧
      (∀ c ∈ (cut sep x ps).2, ∀ q ∈ c.2.2, sep q.1 = false ∧ ∃ p ∈ ps, p.1 = q.1)
  | [], _ => by simp [cut]
  | p :: rest, x => by
    have ih := cut_pieces sep rest p.2
    simp only [cut]
    by_cases hs : sep p.1 = true
    · simp only [hs, if_true]
      constructor
      · intro q hq
        simp at hq
      · intro c hc q hq
        simp only [List.mem_cons] at hc
        rcases hc with hc | hc
        · subst hc
          obtain ⟨h1, r, hr, hr2⟩ := ih.1 q hq
          exact ⟨h1, r, by simp [hr], hr2⟩
        · obtain ⟨h1, r, hr, hr2⟩ := ih.2 c hc q hq
          exact ⟨h1, r, by simp [hr], hr2⟩
    · have hs2 : sep p.1 = false := by simpa using hs
      simp only [hs2, Bool.false_eq_true, if_false]
      constructor
      · intro q hq
        simp only [List.mem_cons] at hq
        rcases hq with hq | hq
        · subst hq
          exact ⟨hs2, p, by simp, rfl⟩
        · obtain ⟨h1, r, hr, hr2⟩ := ih.1 q hq
          exact ⟨h1, r, by simp [hr], hr2⟩
      · intro c hc q hq
        obtain ⟨h1, r, hr, hr2⟩ := ih.2 c hc q hq
        exact ⟨h1, r, by simp [hr], hr2⟩

theorem cut_seps {α : Type} (sep : Char → Bool) :
    ∀ (ps : List (Char × α)) (x : α), ∀ c ∈ (cut sep x ps).2, sep c.1 = true
  | [], _ => by simp [cut]
  | p :: rest, x => by
    have ih := cut_seps sep rest p.2
    simp only [cut]
    by_cases hs : sep p.1 = true
    · simp only [hs, if_true]
      intro c hc
      simp only [List.mem_cons] at hc
      rcases hc with hc | hc
      · subst hc
        exact hs
      · exact ih c hc
    · have hs2 : sep p.1 = false := by simpa using hs
      simp only [hs2, Bool.false_eq_true, if_false]
      exact ih

theorem mapSeq_congr {α β : Type} (f g : α → β) (s : α × List (Char × α))
    (h1 : f s.1 = g s.1) (h2 : ∀ p ∈ s.2, f p.2 = g p.2) : mapSeq f s = mapSeq g s := by
  simp only [mapSeq, h1, Prod.mk.injEq, true_and]
  apply List.map_congr_left
  intro p hp
  rw [h2 p hp]

theorem mapSeq_mapSeq {α β γ : Type} (f : α → β) (g : β → γ) (s : α × List (Char × α)) :
    mapSeq g (mapSeq f s) = mapSeq (fun a => g (f a)) s := by
  simp only [mapSeq, List.map_map, Prod.mk.injEq, true_and]
  rfl

theorem cut_pass {D : Type} (sep inTier : Char → Bool)
    (hd : ∀ o, sep o = true → inTier o = false) :
    ∀ (ps : List (Char × Node D)) (x : Node D),
      cut sep (pass inTier x ps).1 (pass inTier x ps).2
        = mapSeq (fun t => pass inTier t.1 t.2) (cut sep x ps)
  | [], x => rfl
  | p :: rest, x => by
    by_cases hm : inTier p.1 = true
    · have hs : sep p.1 = false := by
        cases h : sep p.1 with
        | false => rfl
        | true => rw [hd _ h] at hm; exact absurd hm (by decide)
      have ih := cut_pass sep inTier hd rest (Node.operator p.1 x p.2)
      have h := cut_head sep rest (Node.operator p.1 x p.2) p.2
      have h2 := cut_head sep rest p.2 p.2
      simp only [pass, hm, if_true, cut, hs, Bool.false_eq_true, if_false]
      rw [ih]
      simp only [mapSeq, pass, hm, if_true, h2.1]
      rw [h.1, h.2.1, h.2.2]
    · have hm2 : inTier p.1 = false := by simpa using hm
      have ih := cut_pass sep inTier hd rest p.2
      have h2 := cut_head sep rest p.2 p.2
      by_cases hs : sep p.1 = true
      · simp only [pass, hm2, Bool.false_eq_true, if_false, cut, hs, if_true]
        rw [ih]
        simp only [mapSeq, pass, List.map_cons]
      · have hs2 : sep p.1 = false := by simpa using hs
        simp only [pass, hm2, Bool.false_eq_true, if_false, cut, hs2]
        rw [ih]
        simp only [mapSeq, pass, hm2, Bool.false_eq_true, if_false, h2.1]

theorem operatorChar_tiers {o : Char} (h : isOperatorChar o = true) :
    ((o == Power || o == Power) = true ∧ isMulDiv o = false ∧ isAddSub o = false) ∨
    ((o == Power || o == Power) = false ∧ isMulDiv o = true ∧ isAddSub o = false) ∨
    ((o == Power || o == Power) = false ∧ isMulDiv o = false ∧ isAddSub o = true) := by
  rcases isOperatorChar_cases h with h | h | h | h | h <;> subst h <;> decide

theorem isOperatorChar_of_tier {o : Char}
    (h : (o == Power || o == Power) = true ∨ isMulDiv o = true ∨ isAddSub o = true) :
    isOperatorChar o = true := by
  simp only [Power, Multiplication, Division, Addition, Subtraction, isMulDiv, isAddSub,
    Bool.or_eq_true, beq_iff_eq] at h
  rcases h with (h | h) | (h | h) | (h | h) <;> subst h <;> decide

theorem passes_term {D : Type} (t : Node D × List (Char × Node D))
    (h : ∀ q ∈ t.2, isOperatorChar q.1 = true ∧ isAddSub q.1 = false) :
    pass isMulDiv (pass (fun o => o == Power || o == Power) t.1 t.2).1
        (pass (fun o => o == Power || o == Power) t.1 t.2).2
      = (termTree t, []) := by
  rw [pass_eq_cut (fun o => o == Power || o == Power) t.2 t.1]
  have hc : cut (fun o => !(o == Power || o == Power)) t.1 t.2 = cut isMulDiv t.1 t.2 := by
    apply cut_congr
    intro q hq
    obtain ⟨h1, h2⟩ := h q hq
    rcases operatorChar_tiers h1 with ⟨a, b, _⟩ | ⟨a, b, _⟩ | ⟨_, _, c⟩
    · simp only [a, b, Bool.not_true]
    · simp only [a, b, Bool.not_false]
    · rw [h2] at c
      exact absurd c (by decide)
  rw [hc]
  rw [pass_all_inTier]
  · rfl
  · intro q hq
    simp only [mapSeq, List.mem_map] at hq
    obtain ⟨c, hc1, hc2⟩ := hq
    rw [← hc2]
    exact cut_seps isMulDiv t.2 t.1 c hc1

theorem passes_eq_exprTree {D : Type} (x0 : Node D) (ps : List (Char × Node D))
    (hops : ∀ p ∈ ps, isOperatorChar p.1 = true) :
    pass isAddSub
        (pass isMulDiv (pass (fun o => o == Power || o == Power) x0 ps).1
          (pass (fun o => o == Power || o == Power) x0 ps).2).1
        (pass isMulDiv (pass (fun o => o == Power || o == Power) x0 ps).1
          (pass (fun o => o == Power || o == Power) x0 ps).2).2
      = (exprTree x0 ps, []) := by
  have key : (pass isMulDiv (pass (fun o => o == Power || o == Power) x0 ps).1
        (pass (fun o => o == Power || o == Power) x0 ps).2)
      = mapSeq termTree (cut isAddSub x0 ps) := by
    have hall : ∀ q ∈ (pass isMulDiv (pass (fun o => o == Power || o == Power) x0 ps).1
        (pass (fun o => o == Power || o == Power) x0 ps).2).2, isAddSub q.1 = true := by
      intro q hq
      obtain ⟨h1, p1, hp1, e1⟩ := pass_ops _ _ _ q hq
      obtain ⟨h2, p2, hp2, e2⟩ := pass_ops _ _ _ p1 hp1
      have hop := hops p2 hp2
      rw [e2, e1] at hop
      rw [e1] at h2
      rcases operatorChar_tiers hop with ⟨a, _, _⟩ | ⟨_, b, _⟩ | ⟨_, _, c⟩
      · have h2b : (q.1 == Power || q.1 == Power) = false := h2
        rw [h2b] at a
        exact absurd a (by decide)
      · rw [h1] at b
        exact absurd b (by decide)
      · exact c
    have h4 := cut_all_sep isAddSub
      (pass isMulDiv (pass (fun o => o == Power || o == Power) x0 ps).1
        (pass (fun o => o == Power || o == Power) x0 ps).2).2
      (pass isMulDiv (pass (fun o => o == Power || o == Power) x0 ps).1
        (pass (fun o => o == Power || o == Power) x0 ps).2).1 hall
    have h3 := cut_pass isAddSub isMulDiv (fun o ho => by
      have := operatorChar_tiers (isOperatorChar_of_tier (Or.inr (Or.inr ho)))
      rcases this with ⟨_, _, c⟩ | ⟨_, _, c⟩ | ⟨_, b, _⟩
      · rw [ho] at c; exact absurd c (by decide)
      · rw [ho] at c; exact absurd c (by decide)
      · exact b) (pass (fun o => o == Power || o == Power) x0 ps).2
        (pass (fun o => o == Power || o == Power) x0 ps).1
    have h3b := cut_pass isAddSub (fun o => o == Power || o == Power) (fun o ho => by
      have := operatorChar_tiers (isOperatorChar_of_tier (Or.inr (Or.inr ho)))
      rcases this with ⟨_, _, c⟩ | ⟨_, _, c⟩ | ⟨a, _, _⟩
      · rw [ho] at c; exact absurd c (by decide)
      · rw [ho] at c; exact absurd c (by decide)
      · exact a) ps x0
    rw [h3b, mapSeq_mapSeq] at h3
    rw [h4] at h3
    have h5 : mapSeq (fun t : Node D × List (Char × Node D) =>
          pass isMulDiv (pass (fun o => o == Power || o == Power) t.1 t.2).1
            (pass (fun o => o == Power || o == Power) t.1 t.2).2) (cut isAddSub x0 ps)
        = mapSeq (fun t => (termTree t, ([] : List (Char × Node D)))) (cut isAddSub x0 ps) := by
      have hp := cut_pieces isAddSub ps x0
      apply mapSeq_congr
      · apply passes_term
        intro q hq
        obtain ⟨a, r, hr, e⟩ := hp.1 q hq
        exact ⟨by rw [← e]; exact hops r hr, a⟩
      · intro c hc
        apply passes_term
        intro q hq
        obtain ⟨a, r, hr, e⟩ := hp.2 c hc q hq
        exact ⟨by rw [← e]; exact hops r hr, a⟩
    rw [h5] at h3
    have h6 := congrArg (mapSeq (fun a : Node D × List (Char × Node D) => a.1)) h3
    rw [mapSeq_mapSeq, mapSeq_mapSeq] at h6
    simpa [mapSeq] using h6
  rw [key, pass_all_inTier]
  · rfl
  · intro q hq
    simp only [mapSeq, List.mem_map] at hq
    obtain ⟨c, hc1, hc2⟩ := hq
    rw [← hc2]
    exact cut_seps isAddSub ps x0 c hc1

theorem processNegationNode_operand {D : Type} {x : Node D} (toks : List (Node D))
    (h : isOperand x = true) : processNegationNode (x :: toks) = Outcome.ok (x :: toks) := by
  cases x with
  | nullptr => simp [isOperand] at h
  | literal v l r => rfl
  | operator sym l r =>
    cases r with
    | nullptr =>
      by_cases hs : (sym == Negate) = true
      · simp [isOperand, hs, Node.isNull] at h
      · simp [processNegationNode, hs]
    | literal v l1 r1 => rfl
    | operator s l1 r1 => rfl

theorem isOperand_of_wellFormed {D : Type} {x : Node D} (h : wellFormed x = true) :
    isOperand x = true := by
  cases x with
  | nullptr => simp [wellFormed] at h
  | literal v l r => rfl
  | operator sym l r =>
    by_cases hs : (sym == Negate) = true
    · simp only [wellFormed, hs, if_true, Bool.and_eq_true] at h
      simp [isOperand, hs, wellFormed_ne_null h.2]
    · simp [isOperand, hs]

theorem buildTreeFromNodes_tokenTail {D : Type} {nodeList : List (Node D)} {y : Node D}
    {ps : List (Char × Node D)}
    (hn : processNegationNode nodeList = Outcome.ok (y :: tokenTail ps))
    (hops : ∀ p ∈ ps, isOperatorChar p.1 = true) :
    buildTreeFromNodes nodeList = Outcome.ok (exprTree y ps) := by
  have h := passes_eq_exprTree y ps hops
  have h1 : pass (fun o => o == Addition || o == Subtraction)
      (pass (fun o => o == Multiplication || o == Division)
        (pass (fun o => o == Power || o == Power) y ps).1
        (pass (fun o => o == Power || o == Power) y ps).2).1
      (pass (fun o => o == Multiplication || o == Division)
        (pass (fun o => o == Power || o == Power) y ps).1
        (pass (fun o => o == Power || o == Power) y ps).2).2
      = (exprTree y ps, []) := h
  simp only [buildTreeFromNodes, hn, processOperatorNodes_eq_collapse, collapse_tokenTail, h1,
    tokenTail]

theorem leaves_foldLeft {D : Type} :
    ∀ (ps : List (Char × Node D)) (x : Node D),
      leaves (foldLeft x ps) = leaves x ++ leavesTail ps
  | [], x => by simp [foldLeft, leavesTail]
  | p :: rest, x => by
    rw [foldLeft_cons, leaves_foldLeft rest]
    simp [leaves, leavesTail]

theorem leaves_cut {D : Type} (sep : Char → Bool)
    (f : Node D × List (Char × Node D) → Node D)
    (hf : ∀ t, leaves (f t) = leaves t.1 ++ leavesTail t.2) :
    ∀ (ps : List (Char × Node D)) (x : Node D),
      leaves (f (cut sep x ps).1)
          ++ leavesTail ((cut sep x ps).2.map (fun p => (p.1, f p.2)))
        = leaves x ++ leavesTail ps
  | [], x => by simp [cut, hf, leavesTail]
  | p :: rest, x => by
    have ih := leaves_cut sep f hf rest p.2
    have h2 := cut_head sep rest p.2 p.2
    simp only [cut]
    by_cases hs : sep p.1 = true
    · simp only [hs, if_true, List.map_cons, leavesTail, hf, List.append_nil]
      rw [hf] at ih
      simp only [leavesTail, List.append_assoc] at ih ⊢
      rw [ih]
    · have hs2 : sep p.1 = false := by simpa using hs
      simp only [hs2, Bool.false_eq_true, if_false, hf, leavesTail]
      rw [hf] at ih
      rw [h2.1] at ih ⊢
      simp only [List.append_assoc] at ih ⊢
      rw [ih]

theorem leaves_exprTree {D : Type} (x0 : Node D) (ps : List (Char × Node D)) :
    leaves (exprTree x0 ps) = leaves x0 ++ leavesTail ps := by
  have hfac : ∀ t : Node D × List (Char × Node D),
      leaves (factorTree t) = leaves t.1 ++ leavesTail t.2 :=
    fun t => leaves_foldLeft t.2 t.1
  have hterm : ∀ t : Node D × List (Char × Node D),
      leaves (termTree t) = leaves t.1 ++ leavesTail t.2 := by
    intro t
    simp only [termTree]
    rw [leaves_foldLeft]
    exact leaves_cut isMulDiv factorTree hfac t.2 t.1
  simp only [exprTree]
  rw [leaves_foldLeft]
  exact leaves_cut isAddSub termTree hterm ps x0

/-! ## The grammar and the literal scan -/

theorem searchOperandLiteral_isLiteralText {eq str suffix : List Char}
    (h : searchOperandLiteral eq = some (str, suffix)) : IsLiteralText str := by
  simp only [searchOperandLiteral] at h
  by_cases hd : (List.takeWhile isDigit eq).isEmpty = true
  · simp [hd] at h
  · simp only [hd, if_false, Option.some.injEq, Prod.mk.injEq, Bool.false_eq_true] at h
    refine ⟨_, _, _, h.1.symm, ?_, ?_, ?_, ?_⟩
    · intro h0
      simp [h0] at hd
    · intro c hc
      exact List.mem_takeWhile_imp hc
    · intro c hc
      have := List.mem_takeWhile_imp hc
      simpa using this
    · intro c hc
      exact List.mem_takeWhile_imp hc

theorem takeWhile_dropWhile_append {p : Char → Bool} {a rest : List Char}
    (ha : ∀ c ∈ a, p c = true) (hr : ∀ c, rest.head? = some c → p c = false) :
    (a ++ rest).takeWhile p = a ∧ (a ++ rest).dropWhile p = rest := by
  have h : rest.takeWhile p = [] ∧ rest.dropWhile p = rest := by
    cases rest with
    | nil => simp
    | cons c r =>
      have hc := hr c (by simp)
      simp [List.takeWhile_cons, List.dropWhile_cons, hc]
  rw [List.takeWhile_append_of_pos ha, List.dropWhile_append_of_pos ha, h.1, h.2]
  simp

theorem searchOperandLiteral_literalText {s rest : List Char} (hs : IsLiteralText s)
    (hr : LiteralEnd rest) : searchOperandLiteral (s ++ rest) = some (s, rest) := by
  obtain ⟨d, dots, f, rfl, hne, hd, hdots, hf⟩ := hs
  have h3 := takeWhile_dropWhile_append (p := isDigit) hf (fun c hc => (hr c hc).1)
  have hdots2 : ∀ c ∈ dots, (fun c : Char => c == '.') c = true := by
    intro c hc
    simp [hdots c hc]
  by_cases hz : dots = []
  · subst hz
    have hall : ∀ c ∈ d ++ f, isDigit c = true := by
      intro c hc
      simp only [List.mem_append] at hc
      rcases hc with hc | hc
      · exact hd c hc
      · exact hf c hc
    have := @searchOperandLiteral_digits (d ++ f) rest (by simp [hne]) hall hr
    simpa using this
  · have hfr : ∀ c, (f ++ rest).head? = some c → (fun c : Char => c == '.') c = false := by
      intro c hc
      cases f with
      | nil =>
        have := (hr c (by simpa using hc)).2
        simp [this]
      | cons x xs =>
        simp only [List.cons_append, List.head?_cons, Option.some.injEq] at hc
        subst hc
        have := (ne_paren_of_isDigit (hf x (by simp))).2.2.2
        simp [this]
    have hdr : ∀ c, (dots ++ (f ++ rest)).head? = some c → isDigit c = false := by
      intro c hc
      cases dots with
      | nil => exact absurd rfl hz
      | cons x xs =>
        simp only [List.cons_append, List.head?_cons, Option.some.injEq] at hc
        subst hc
        rw [hdots x (by simp)]
        decide
    have h1 := takeWhile_dropWhile_append (p := isDigit) hd hdr
    have h2 := takeWhile_dropWhile_append (p := fun c : Char => c == '.') hdots2 hfr
    have e : d ++ dots ++ f ++ rest = d ++ (dots ++ (f ++ rest)) := by simp
    simp only [searchOperandLiteral, e, h1.1, h1.2, h2.1, h2.2, h3.1, h3.2]
    cases d with
    | nil => exact absurd rfl hne
    | cons c r => simp

theorem isLiteralText_head {s : List Char} (hs : IsLiteralText s) :
    ∃ c t, s = c :: t ∧ isDigit c = true := by
  obtain ⟨d, dots, f, rfl, hne, hd, _, _⟩ := hs
  cases d with
  | nil => exact absurd rfl hne
  | cons c r => exact ⟨c, r ++ dots ++ f, by simp, hd c (by simp)⟩

theorem isLiteralText_no_newline {s : List Char} (hs : IsLiteralText s) :
    s.all isAnyButNewline = true := by
  obtain ⟨d, dots, f, rfl, _, hd, hdots, hf⟩ := hs
  have key : ∀ c, isDigit c = true ∨ c = '.' → isAnyButNewline c = true := by
    intro c hc
    cases hn : isAnyButNewline c with
    | true => rfl
    | false =>
      simp only [isAnyButNewline, Bool.and_eq_false_iff, bne_eq_false_iff_eq] at hn
      rcases hn with hn | hn <;> subst hn <;> revert hc <;> decide
  simp only [List.all_eq_true, List.mem_append]
  intro c hc
  rcases hc with (hc | hc) | hc
  · exact key c (Or.inl (hd c hc))
  · exact key c (Or.inr (hdots c hc))
  · exact key c (Or.inl (hf c hc))

theorem generates_no_newline {cat : Category} {s : List Char} (h : Generates cat s) :
    s.all isAnyButNewline = true := by
  induction h with
  | literal hs => exact isLiteralText_no_newline hs
  | group _ ih =>
    have h1 : isAnyButNewline '(' = true := by decide
    have h2 : isAnyButNewline ')' = true := by decide
    simp only [List.cons_append, List.all_cons, List.all_append, ih, h1, h2, List.all_nil,
      Bool.and_self]
  | nil => rfl
  | @cons o x rest ho _ _ ih1 ih2 =>
    have h1 : isAnyButNewline o = true := by
      rcases isOperatorChar_cases ho with h | h | h | h | h <;> subst h <;> decide
    simp only [List.cons_append, List.all_cons, List.all_append, ih1, ih2, h1, Bool.and_self]
  | plain _ _ ih1 ih2 => simp only [List.all_append, ih1, ih2, Bool.and_self]
  | negated _ _ ih1 ih2 =>
    have h1 : isAnyButNewline '-' = true := by decide
    simp only [List.cons_append, List.all_cons, List.all_append, ih1, ih2, h1, Bool.and_self]

theorem generates_tail_literalEnd {t : List Char} (h : Generates Category.tail t) :
    LiteralEnd t := by
  cases h with
  | nil => exact literalEnd_nil
  | cons ho _ _ => exact literalEnd_cons_operator _ ho

theorem generates_operand_head {x : List Char} (h : Generates Category.operand x) :
    ∃ c t, x = c :: t ∧ c ≠ '-' := by
  cases h with
  | literal hs =>
    obtain ⟨c, t, e, hc⟩ := isLiteralText_head hs
    exact ⟨c, t, e, (ne_paren_of_isDigit hc).2.2.1⟩
  | group _ => exact ⟨'(', _, rfl, by decide⟩

/-! ## Soundness of the build for the grammar -/

theorem popOperandFromEquation_generates {D : Type} (ops : FloatOps D)
    (build : List Char → Bool → Outcome (Node D))
    (hb : ∀ s T, build s true = Outcome.ok T → Generates Category.expr s)
    {eq eq2 : List Char} {x : Node D}
    (h : popOperandFromEquation ops build eq = Outcome.ok (x, eq2)) :
    ∃ consumed, eq = consumed ++ eq2 ∧ Generates Category.operand consumed := by
  by_cases hm : matchOpenGroup eq = true
  · obtain ⟨t, rfl⟩ := matchOpenGroup_cases hm
    simp only [popOperandFromEquation, hm, if_true] at h
    obtain ⟨body, hb1, hb2⟩ := popGroupFromEquation_ok build h
    refine ⟨'(' :: body ++ [')'], by rw [hb1]; simp, Generates.group (hb body x hb2)⟩
  · have hm2 : matchOpenGroup eq = false := by simpa using hm
    simp only [popOperandFromEquation, hm2, Bool.false_eq_true, if_false,
      popLiteralFromEquation] at h
    cases hs : searchOperandLiteral eq with
    | none => rw [hs] at h; simp at h
    | some p =>
      obtain ⟨str, suffix⟩ := p
      rw [hs] at h
      simp only [Outcome.ok.injEq, Prod.mk.injEq] at h
      obtain ⟨e1, _, _⟩ := searchOperandLiteral_ok hs
      refine ⟨str, by rw [e1, h.2], Generates.literal (searchOperandLiteral_isLiteralText hs)⟩

theorem whileLoop_generates {D : Type} (ops : FloatOps D)
    (build : List Char → Bool → Outcome (Node D))
    (hb : ∀ s T, build s true = Outcome.ok T → Generates Category.expr s) :
    ∀ (k : Nat) (eq : List Char) (nodes out : List (Node D)),
      whileLoop ops build k eq nodes = Outcome.ok out → Generates Category.tail eq
  | 0, _, _, _, h => by simp [whileLoop] at h
  | _ + 1, [], _, _, _ => Generates.nil
  | k + 1, c :: eq1, nodes, out, h => by
    by_cases hc : isOperatorChar c = true
    · rw [whileLoop_cons_operator ops build k eq1 nodes hc] at h
      cases hx : popOperandFromEquation ops build eq1 with
      | throw e => rw [hx] at h; simp [Outcome.bind] at h
      | undefined => rw [hx] at h; simp [Outcome.bind] at h
      | ok q =>
        obtain ⟨x, eq2⟩ := q
        rw [hx] at h
        simp only [Outcome.bind] at h
        obtain ⟨consumed, e, hg⟩ := popOperandFromEquation_generates ops build hb hx
        rw [e]
        exact Generates.cons hc hg (whileLoop_generates ops build hb k eq2 _ out h)
    · have hc2 : isOperatorChar c = false := by simpa using hc
      rw [whileLoop_invalid_operator ops build k eq1 nodes hc2] at h
      simp at h

theorem buildEquationTreeRec_generates {D : Type} (ops : FloatOps D) :
    ∀ (n : Nat) (eq : List Char) (sub : Bool) (T : Node D),
      buildEquationTreeRec ops n eq sub = Outcome.ok T → eq ≠ [] →
      Generates Category.expr eq
  | 0, _, _, _, h, _ => by simp [buildEquationTreeRec] at h
  | _ + 1, [], _, _, _, hne => absurd rfl hne
  | n + 1, c :: t, sub, T, h, _ => by
    have hb : ∀ s T, buildEquationTreeRec ops n s true = Outcome.ok T →
        Generates Category.expr s := by
      intro s T1 hs
      apply buildEquationTreeRec_generates ops n s true T1 hs
      intro h0
      subst h0
      cases n <;> simp [buildEquationTreeRec] at hs
    have key : ∀ (eq0 : List Char) (nodes0 : List (Node D)),
        (match popOperandFromEquation ops (buildEquationTreeRec ops n) eq0 with
          | Outcome.ok (operandNode, equation1) =>
            match whileLoop ops (buildEquationTreeRec ops n) (equation1.length + 1) equation1
                (nodes0 ++ [operandNode]) with
            | Outcome.ok nodes => buildTreeFromNodes nodes
            | Outcome.throw e => Outcome.throw e
            | Outcome.undefined => Outcome.undefined
          | Outcome.throw e => Outcome.throw e
          | Outcome.undefined => Outcome.undefined)
          = Outcome.ok T →
        ∃ x rest, eq0 = x ++ rest ∧ Generates Category.operand x ∧
          Generates Category.tail rest := by
      intro eq0 nodes0 h1
      cases hx : popOperandFromEquation ops (buildEquationTreeRec ops n) eq0 with
      | throw e => rw [hx] at h1; simp at h1
      | undefined => rw [hx] at h1; simp at h1
      | ok q =>
        obtain ⟨x, eq1⟩ := q
        rw [hx] at h1
        simp only at h1
        obtain ⟨consumed, e, hg⟩ := popOperandFromEquation_generates ops _ hb hx
        cases hw : whileLoop ops (buildEquationTreeRec ops n) (eq1.length + 1) eq1
            (nodes0 ++ [x]) with
        | throw e => rw [hw] at h1; simp at h1
        | undefined => rw [hw] at h1; simp at h1
        | ok nodes => exact ⟨consumed, eq1, e, hg, whileLoop_generates ops _ hb _ _ _ _ hw⟩
    by_cases hc : c = '-'
    · subst hc
      simp only [buildEquationTreeRec, List.isEmpty_cons, Bool.false_eq_true, if_false,
        popNegateFromEquation_minus] at h
      obtain ⟨x, rest, e, h1, h2⟩ := key t _ h
      rw [e]
      exact Generates.negated h1 h2
    · simp only [buildEquationTreeRec, List.isEmpty_cons, Bool.false_eq_true, if_false,
        popNegateFromEquation_other _ hc] at h
      obtain ⟨x, rest, e, h1, h2⟩ := key (c :: t) _ h
      rw [e]
      exact Generates.plain h1 h2

/-! ## Completeness of the build for the grammar -/

theorem shape_tokenTail {D : Type} :
    ∀ (toks : List (Node D)), Shape toks →
      ∃ ps : List (Char × Node D), toks = tokenTail ps ∧ ∀ p ∈ ps, isOperatorChar p.1 = true
  | [], _ => ⟨[], rfl, by simp⟩
  | [_], h => absurd h (by simp [Shape])
  | op :: x :: rest, h => by
    simp only [Shape] at h
    obtain ⟨⟨c, hc, rfl⟩, _, hrest⟩ := h
    obtain ⟨ps, e, hps⟩ := shape_tokenTail rest hrest
    refine ⟨(c, x) :: ps, by rw [e]; rfl, ?_⟩
    intro p hp
    simp only [List.mem_cons] at hp
    rcases hp with hp | hp
    · rw [hp]
      exact hc
    · exact hps p hp

theorem buildTreeFromNodes_ok {D : Type} {nodeList : List (Node D)} {y : Node D}
    {toks : List (Node D)} (hn : processNegationNode nodeList = Outcome.ok (y :: toks))
    (hy : wellFormed y = true) (hs : Shape toks) :
    ∃ root, wellFormed root = true ∧ buildTreeFromNodes nodeList = Outcome.ok root := by
  obtain ⟨ps, e, hps⟩ := shape_tokenTail toks hs
  have hb : buildTreeFromNodes nodeList = Outcome.ok (exprTree y ps) := by
    rw [e] at hn
    exact buildTreeFromNodes_tokenTail hn hps
  exact ⟨_, buildTreeFromNodes_wellFormed hn hy hs hb, hb⟩

theorem accepts_of_generates {D : Type} (ops : FloatOps D) {cat : Category} {s : List Char}
    (h : Generates cat s) : Accepts ops cat s := by
  induction h with
  | @literal s hs =>
    intro n rest _ hr _
    obtain ⟨c, t, e, hc⟩ := isLiteralText_head hs
    have hm : matchOpenGroup (s ++ rest) = false := by
      rw [e]
      have := (ne_paren_of_isDigit hc).1
      simp [matchOpenGroup, this]
    refine ⟨literalNode ops s, rfl, ?_⟩
    simp only [popOperandFromEquation, hm, Bool.false_eq_true, if_false,
      popLiteralFromEquation, searchOperandLiteral_literalText hs hr, literalNode]
  | @group e he ih =>
    intro n rest hn _ hnl
    have hlen : e.length < n := by
      simp only [List.length_cons, List.length_append, List.length_singleton] at hn
      omega
    obtain ⟨T, hw, hT⟩ := ih n true hlen
    have ht := (buildEquationTreeRec_inv ops n e true T hT).2
    have hall : (e ++ ')' :: rest).all isAnyButNewline = true := by
      have h2 : isAnyButNewline ')' = true := by decide
      simp only [List.all_append, List.all_cons, generates_no_newline he, h2, hnl, Bool.and_self]
    have e1 : '(' :: e ++ [')'] ++ rest = '(' :: e ++ ')' :: rest := by simp
    refine ⟨T, hw, ?_⟩
    rw [e1, popOperandFromEquation_group ops _ rest ht hall, hT]
    rfl
  | nil =>
    intro n k nodes _ hk
    obtain ⟨k1, rfl⟩ : ∃ k1, k = k1 + 1 := ⟨k - 1, by simp at hk; omega⟩
    exact ⟨[], trivial, by simp [whileLoop]⟩
  | @cons o x rest ho hx ht ihx iht =>
    intro n k nodes hn hk
    obtain ⟨k1, rfl⟩ : ∃ k1, k = k1 + 1 := ⟨k - 1, by omega⟩
    simp only [List.length_cons, List.length_append] at hn hk
    obtain ⟨T, hw, hT⟩ := ihx n rest (by omega) (generates_tail_literalEnd ht)
      (generates_no_newline ht)
    obtain ⟨toks, hs, htoks⟩ := iht n k1 (nodes ++ [operatorNode o, T]) (by omega) (by omega)
    refine ⟨operatorNode o :: T :: toks, ?_, ?_⟩
    · simp only [Shape]
      exact ⟨⟨o, ho, rfl⟩, hw, hs⟩
    · have e : o :: x ++ rest = o :: (x ++ rest) := rfl
      rw [e, whileLoop_cons_operator ops _ k1 _ nodes ho, hT]
      simp only [Outcome.bind]
      rw [htoks]
      simp
  | @plain x rest hx ht ihx iht =>
    intro n sub hn
    obtain ⟨n1, rfl⟩ : ∃ n1, n = n1 + 1 := ⟨n - 1, by omega⟩
    simp only [List.length_append] at hn
    obtain ⟨c, t, e, hc⟩ := generates_operand_head hx
    obtain ⟨T, hw, hT⟩ := ihx n1 rest (by omega) (generates_tail_literalEnd ht)
      (generates_no_newline ht)
    obtain ⟨toks, hs, htoks⟩ := iht n1 (rest.length + 1) ([] ++ [T]) (by omega) (by omega)
    obtain ⟨root, hr1, hr2⟩ := buildTreeFromNodes_ok
      (processNegationNode_wellFormed toks hw) hw hs
    refine ⟨root, hr1, ?_⟩
    have e2 : x ++ rest = c :: (t ++ rest) := by rw [e]; rfl
    rw [e2] at hT ⊢
    simp only [buildEquationTreeRec, List.isEmpty_cons, Bool.false_eq_true, if_false,
      popNegateFromEquation_other _ hc, hT, htoks]
    exact hr2
  | @negated x rest hx ht ihx iht =>
    intro n sub hn
    obtain ⟨n1, rfl⟩ : ∃ n1, n = n1 + 1 := ⟨n - 1, by omega⟩
    simp only [List.length_cons, List.length_append] at hn
    obtain ⟨T, hw, hT⟩ := ihx n1 rest (by omega) (generates_tail_literalEnd ht)
      (generates_no_newline ht)
    obtain ⟨toks, hs, htoks⟩ := iht n1 (rest.length + 1)
      ([Node.operator Negate Node.nullptr Node.nullptr] ++ [T]) (by omega) (by omega)
    obtain ⟨root, hr1, hr2⟩ := buildTreeFromNodes_ok
      (processNegationNode_negate T toks) (wellFormed_negate hw) hs
    refine ⟨root, hr1, ?_⟩
    have e2 : '-' :: x ++ rest = '-' :: (x ++ rest) := rfl
    rw [e2]
    simp only [buildEquationTreeRec, List.isEmpty_cons, Bool.false_eq_true, if_false,
      popNegateFromEquation_minus, hT, htoks]
    exact hr2

/-! ## The build never leaves the four errors of the input -/

theorem popOperandFromEquation_isUserResult {D : Type} (ops : FloatOps D)
    (build : List Char → Bool → Outcome (Node D)) (eq : List Char)
    (hb : ∀ s, s.length < eq.length → (build s true).isUserResult) :
    (popOperandFromEquation ops build eq).isUserResult := by
  by_cases hm : matchOpenGroup eq = true
  · obtain ⟨t, rfl⟩ := matchOpenGroup_cases hm
    simp only [popOperandFromEquation, hm, if_true]
    rcases popGroupFromEquation_cases build t with ⟨_, _, h1⟩ | ⟨body, r, h1, _, _, _, h3⟩
    · rw [h1]
      simp [Outcome.isUserResult]
    · rw [h3]
      have := hb body (by rw [h1]; simp only [List.length_cons, List.length_append]; omega)
      cases hbb : build body true with
      | ok y => simp [Outcome.map, Outcome.isUserResult]
      | throw e => rw [hbb] at this; exact this
      | undefined => rw [hbb] at this; exact this
  · have hm2 : matchOpenGroup eq = false := by simpa using hm
    simp only [popOperandFromEquation, hm2, Bool.false_eq_true, if_false,
      popLiteralFromEquation]
    cases searchOperandLiteral eq with
    | none => simp [Outcome.isUserResult]
    | some p => simp [Outcome.isUserResult]

theorem whileLoop_isUserResult {D : Type} (ops : FloatOps D)
    (build : List Char → Bool → Outcome (Node D)) :
    ∀ (k : Nat) (eq : List Char) (nodes : List (Node D)),
      (∀ s, s.length < eq.length → (build s true).isUserResult) → eq.length < k →
      (whileLoop ops build k eq nodes).isUserResult
  | 0, _, _, _, hk => absurd hk (Nat.not_lt_zero _)
  | k + 1, [], nodes, _, _ => by simp [whileLoop, Outcome.isUserResult]
  | k + 1, c :: eq1, nodes, hb, hk => by
    by_cases hc : isOperatorChar c = true
    · rw [whileLoop_cons_operator ops build k eq1 nodes hc]
      have hp := popOperandFromEquation_isUserResult ops build eq1
        (fun s hs => hb s (by simp only [List.length_cons]; omega))
      cases hx : popOperandFromEquation ops build eq1 with
      | throw e => rw [hx] at hp; exact hp
      | undefined => rw [hx] at hp; exact hp
      | ok q =>
        obtain ⟨x, eq2⟩ := q
        have hlen := popOperandFromEquation_length ops build hx
        simp only [Outcome.bind]
        simp only [List.length_cons] at hk
        exact whileLoop_isUserResult ops build k eq2 _
          (fun s hs => hb s (by simp only [List.length_cons]; omega)) (by omega)
    · have hc2 : isOperatorChar c = false := by simpa using hc
      rw [whileLoop_invalid_operator ops build k eq1 nodes hc2]
      simp [Outcome.isUserResult]

theorem buildEquationTreeRec_isUserResult {D : Type} (ops : FloatOps D) :
    ∀ (n : Nat) (eq : List Char) (sub : Bool), eq.length < n →
      (buildEquationTreeRec ops n eq sub).isUserResult
  | 0, _, _, h => absurd h (Nat.not_lt_zero _)
  | n + 1, [], sub, _ => by
    cases sub <;> simp [buildEquationTreeRec, Outcome.isUserResult]
  | n + 1, c :: t, sub, hlen => by
    simp only [List.length_cons] at hlen
    have hb : ∀ s : List Char, s.length < (c :: t).length →
        (buildEquationTreeRec ops n s true).isUserResult :=
      fun s hs => buildEquationTreeRec_isUserResult ops n s true
        (by simp only [List.length_cons] at hs; omega)
    have hinv := buildEquationTreeRec_inv_sub ops n
    have key : ∀ (eq0 : List Char) (neg : Bool), eq0.length ≤ (c :: t).length →
        (match popOperandFromEquation ops (buildEquationTreeRec ops n) eq0 with
          | Outcome.ok (operandNode, equation1) =>
            match whileLoop ops (buildEquationTreeRec ops n) (equation1.length + 1) equation1
                ((if neg then [Node.operator Negate Node.nullptr Node.nullptr] else [])
                  ++ [operandNode]) with
            | Outcome.ok nodes => buildTreeFromNodes nodes
            | Outcome.throw e => Outcome.throw e
            | Outcome.undefined => Outcome.undefined
          | Outcome.throw e => Outcome.throw e
          | Outcome.undefined => Outcome.undefined).isUserResult := by
      intro eq0 neg hle
      have hp := popOperandFromEquation_isUserResult ops (buildEquationTreeRec ops n) eq0
        (fun s hs => hb s (by omega))
      cases hx : popOperandFromEquation ops (buildEquationTreeRec ops n) eq0 with
      | throw e => rw [hx] at hp; exact hp
      | undefined => rw [hx] at hp; exact hp
      | ok q =>
        obtain ⟨x, eq1⟩ := q
        have hl := popOperandFromEquation_length ops _ hx
        obtain ⟨_, _, _, hwf⟩ := popOperandFromEquation_inv ops _ hinv hx
        have hw0 := whileLoop_isUserResult ops (buildEquationTreeRec ops n) (eq1.length + 1) eq1
          ((if neg then [Node.operator Negate Node.nullptr Node.nullptr] else []) ++ [x])
          (fun s hs => hb s (by omega)) (by omega)
        simp only
        cases hw : whileLoop ops (buildEquationTreeRec ops n) (eq1.length + 1) eq1
            ((if neg then [Node.operator Negate Node.nullptr Node.nullptr] else []) ++ [x]) with
        | throw e => rw [hw] at hw0; exact hw0
        | undefined => rw [hw] at hw0; exact hw0
        | ok nodes =>
          obtain ⟨toks, hn, hsh, _⟩ := whileLoop_inv ops _ hinv _ _ _ _ hw
          simp only
          cases neg with
          | true =>
            simp only [if_true, List.singleton_append, List.cons_append, List.nil_append] at hn
            obtain ⟨root, _, hr⟩ := buildTreeFromNodes_ok
              (processNegationNode_negate x toks) (wellFormed_negate hwf) hsh
            rw [hn, hr]
            trivial
          | false =>
            simp only [Bool.false_eq_true, if_false, List.nil_append, List.cons_append,
              List.singleton_append] at hn
            obtain ⟨root, _, hr⟩ := buildTreeFromNodes_ok
              (processNegationNode_wellFormed toks hwf) hwf hsh
            rw [hn, hr]
            trivial
    by_cases hc : c = '-'
    · subst hc
      simp only [buildEquationTreeRec, List.isEmpty_cons, Bool.false_eq_true, if_false,
        popNegateFromEquation_minus]
      exact key t true (by simp)
    · simp only [buildEquationTreeRec, List.isEmpty_cons, Bool.false_eq_true, if_false,
        popNegateFromEquation_other _ hc]
      exact key (c :: t) false (le_refl _)

theorem isUserResult_cases {D : Type} {r : Outcome (Node D)} (h : r.isUserResult) :
    (∃ T, r = Outcome.ok T) ∨ r = Outcome.throw ErrorType.InvalidOperand ∨
    r = Outcome.throw ErrorType.InvalidOperator ∨ r = Outcome.throw ErrorType.EmptyGroup ∨
    r = Outcome.throw ErrorType.MissingClosingSymbol := by
  cases r with
  | ok T => exact Or.inl ⟨T, rfl⟩
  | undefined => exact absurd h (by simp [Outcome.isUserResult])
  | throw e =>
    cases e with
    | InvalidOperand => exact Or.inr (Or.inl rfl)
    | InvalidOperator => exact Or.inr (Or.inr (Or.inl rfl))
    | EmptyGroup => exact Or.inr (Or.inr (Or.inr (Or.inl rfl)))
    | MissingClosingSymbol => exact Or.inr (Or.inr (Or.inr (Or.inr rfl)))
    | UnknownError => exact absurd rfl h

theorem buildEquationTree_ok_iff {D : Type} (ops : FloatOps D) (s : List Char) :
    (∃ T, buildEquationTree ops s = Outcome.ok T) ↔
      (removeWhitespace s = [] ∨ Generates Category.expr (removeWhitespace s)) := by
  constructor
  · rintro ⟨T, h⟩
    by_cases he : removeWhitespace s = []
    · exact Or.inl he
    · simp only [buildEquationTree] at h
      exact Or.inr (buildEquationTreeRec_generates ops _ _ _ _ h he)
  · rintro (h | h)
    · exact ⟨Node.nullptr, by simp [buildEquationTree, h, buildEquationTreeRec]⟩
    · obtain ⟨T, _, hT⟩ := accepts_of_generates ops h ((removeWhitespace s).length + 1) false
        (by omega)
      exact ⟨T, hT⟩

/-! ## The internal error -/

theorem buildEquationTreeRec_equationNodes {D : Type} (ops : FloatOps D) (n : Nat)
    (eq : List Char) (sub : Bool) (hne : eq ≠ []) :
    buildEquationTreeRec ops (n + 1) eq sub
      = (equationNodes ops n eq).bind buildTreeFromNodes := by
  cases eq with
  | nil => exact absurd rfl hne
  | cons c t =>
    by_cases hc : c = '-'
    · subst hc
      simp only [buildEquationTreeRec, equationNodes, List.isEmpty_cons, Bool.false_eq_true,
        if_false, popNegateFromEquation_minus]
      cases popOperandFromEquation ops (buildEquationTreeRec ops n) t with
      | throw e => rfl
      | undefined => rfl
      | ok q =>
        obtain ⟨x, eq1⟩ := q
        simp only
        cases whileLoop ops (buildEquationTreeRec ops n) (eq1.length + 1) eq1
            ([Node.operator Negate Node.nullptr Node.nullptr] ++ [x]) <;> rfl
    · simp only [buildEquationTreeRec, equationNodes, List.isEmpty_cons, Bool.false_eq_true,
        if_false, popNegateFromEquation_other _ hc]
      cases popOperandFromEquation ops (buildEquationTreeRec ops n) (c :: t) with
      | throw e => rfl
      | undefined => rfl
      | ok q =>
        obtain ⟨x, eq1⟩ := q
        simp only
        cases whileLoop ops (buildEquationTreeRec ops n) (eq1.length + 1) eq1
            ([] ++ [x]) <;> rfl

theorem equationNodes_tokenShape {D : Type} (ops : FloatOps D) (n : Nat) (eq : List Char)
    (nodes : List (Node D)) (h : equationNodes ops n eq = Outcome.ok nodes) :
    TokenShape nodes := by
  have hinv := buildEquationTreeRec_inv_sub ops n
  have key : ∀ (eq0 : List Char) (front : List (Node D)),
      (match popOperandFromEquation ops (buildEquationTreeRec ops n) eq0 with
        | Outcome.ok (operandNode, equation1) =>
          whileLoop ops (buildEquationTreeRec ops n) (equation1.length + 1) equation1
            (front ++ [operandNode])
        | Outcome.throw e => Outcome.throw e
        | Outcome.undefined => Outcome.undefined) = Outcome.ok nodes →
      ∃ (x : Node D) (toks : List (Node D)), wellFormed x = true ∧ Shape toks ∧
        nodes = front ++ x :: toks := by
    intro eq0 front h0
    cases hx : popOperandFromEquation ops (buildEquationTreeRec ops n) eq0 with
    | throw e => rw [hx] at h0; simp at h0
    | undefined => rw [hx] at h0; simp at h0
    | ok q =>
      obtain ⟨x, eq1⟩ := q
      rw [hx] at h0
      simp only at h0
      obtain ⟨_, _, _, hwf⟩ := popOperandFromEquation_inv ops _ hinv hx
      obtain ⟨toks, hn, hsh, _⟩ := whileLoop_inv ops _ hinv _ _ _ _ h0
      exact ⟨x, toks, hwf, hsh, by rw [hn]; simp⟩
  cases eq with
  | nil =>
    have : (equationNodes ops n [] : Outcome (List (Node D)))
        = Outcome.throw ErrorType.InvalidOperand := by
      cases n <;> rfl
    rw [this] at h
    simp at h
  | cons c t =>
    by_cases hc : c = '-'
    · subst hc
      simp only [equationNodes, popNegateFromEquation_minus] at h
      obtain ⟨x, toks, hwf, hsh, hn⟩ := key t _ h
      exact ⟨x, toks, hwf, hsh, Or.inr (by rw [hn]; rfl)⟩
    · simp only [equationNodes, popNegateFromEquation_other _ hc] at h
      obtain ⟨x, toks, hwf, hsh, hn⟩ := key (c :: t) _ h
      exact ⟨x, toks, hwf, hsh, Or.inl (by rw [hn]; rfl)⟩

theorem buildTreeFromNodes_reducesTo {D : Type} {nodes : List (Node D)} {root : Node D}
    (h : buildTreeFromNodes nodes = Outcome.ok root) : ReducesTo nodes root := by
  simp only [buildTreeFromNodes] at h
  cases h0 : processNegationNode nodes with
  | throw e => rw [h0] at h; simp at h
  | undefined => rw [h0] at h; simp at h
  | ok l0 =>
    rw [h0] at h
    simp only at h
    cases h1 : processOperatorNodes l0 Power Power with
    | throw e => rw [h1] at h; simp at h
    | undefined => rw [h1] at h; simp at h
    | ok l1 =>
      rw [h1] at h
      simp only at h
      cases h2 : processOperatorNodes l1 Multiplication Division with
      | throw e => rw [h2] at h; simp at h
      | undefined => rw [h2] at h; simp at h
      | ok l2 =>
        rw [h2] at h
        simp only at h
        cases h3 : processOperatorNodes l2 Addition Subtraction with
        | throw e => rw [h3] at h; simp at h
        | undefined => rw [h3] at h; simp at h
        | ok l3 =>
          rw [h3] at h
          simp only at h
          cases l3 with
          | nil => simp at h
          | cons r rest =>
            cases rest with
            | nil =>
              simp only [Outcome.ok.injEq] at h
              subst h
              exact ⟨l0, l1, l2, h0, h1, h2, h3⟩
            | cons r2 rest2 => simp at h

theorem tokenShape_reduces {D : Type} {nodes : List (Node D)} (h : TokenShape nodes) :
    ∃ root, wellFormed root = true ∧ ReducesTo nodes root ∧
      buildTreeFromNodes nodes = Outcome.ok root := by
  obtain ⟨x, toks, hwf, hsh, hn | hn⟩ := h
  · subst hn
    obtain ⟨root, hr, hb⟩ := buildTreeFromNodes_ok (processNegationNode_wellFormed toks hwf)
      hwf hsh
    exact ⟨root, hr, buildTreeFromNodes_reducesTo hb, hb⟩
  · subst hn
    obtain ⟨root, hr, hb⟩ := buildTreeFromNodes_ok (processNegationNode_negate x toks)
      (wellFormed_negate hwf) hsh
    exact ⟨root, hr, buildTreeFromNodes_reducesTo hb, hb⟩

theorem buildEquationTree_isUserResult {D : Type} (ops : FloatOps D) (s : List Char) :
    (buildEquationTree ops s).isUserResult :=
  buildEquationTreeRec_isUserResult ops _ _ false (by omega)

/-! ## Rounding to `double` -/

theorem roundHalfEven_intCast (n : ℤ) : roundHalfEven (n : ℚ) = n := by
  simp [roundHalfEven]

theorem roundBinary64_of_isBinary64 {q : ℚ} (h : IsBinary64 q) : roundBinary64 q = q := by
  obtain ⟨m, e0, hm, hlo, _, rfl⟩ := h
  by_cases hq : (m : ℚ) * (2 : ℚ) ^ e0 = 0
  · simp [roundBinary64, hq]
  · have h2 : (0 : ℚ) < (2 : ℚ) ^ e0 := zpow_pos (by norm_num) _
    have hm0 : m ≠ 0 := by
      rintro rfl
      simp at hq
    have habs : |(m : ℚ) * (2 : ℚ) ^ e0| = (|m| : ℤ) * (2 : ℚ) ^ e0 := by
      rw [abs_mul, abs_of_pos h2, Int.cast_abs]
    have hpos : (0 : ℚ) < |(m : ℚ) * (2 : ℚ) ^ e0| := abs_pos.mpr hq
    have hlog : Int.log 2 |(m : ℚ) * (2 : ℚ) ^ e0| < 53 + e0 := by
      rw [← Int.lt_zpow_iff_log_lt (by norm_num) hpos, habs, zpow_add₀ (by norm_num)]
      apply mul_lt_mul_of_pos_right _ h2
      have : ((|m| : ℤ) : ℚ) < (2 : ℚ) ^ (53 : ℤ) := by exact_mod_cast hm
      exact_mod_cast this
    have he : max (Int.log 2 |(m : ℚ) * (2 : ℚ) ^ e0| - 52) (-1074) ≤ e0 :=
      max_le (by omega) hlo
    obtain ⟨k, hk⟩ : ∃ k : ℕ, e0 = max (Int.log 2 |(m : ℚ) * (2 : ℚ) ^ e0| - 52) (-1074) + k :=
      ⟨(e0 - max (Int.log 2 |(m : ℚ) * (2 : ℚ) ^ e0| - 52) (-1074)).toNat, by omega⟩
    simp only [roundBinary64, hq, if_false]
    generalize max (Int.log 2 |(m : ℚ) * (2 : ℚ) ^ e0| - 52) (-1074) = e at hk
    subst hk
    have hpe : (0 : ℚ) < (2 : ℚ) ^ e := zpow_pos (by norm_num) _
    have hdiv : (m : ℚ) * (2 : ℚ) ^ (e + (k : ℤ)) / (2 : ℚ) ^ e = ((m * 2 ^ k : ℤ) : ℚ) := by
      rw [zpow_add₀ (by norm_num), zpow_natCast]
      push_cast
      field_simp
      ring
    rw [hdiv, roundHalfEven_intCast, zpow_add₀ (by norm_num), zpow_natCast]
    push_cast
    ring

theorem roundBinary64_tenth :
    roundBinary64 (1 / 10) = 3602879701896397 / 36028797018963968 := by
  have hlog : Int.log 2 |(1 / 10 : ℚ)| = -4 := by
    have hpos : (0 : ℚ) < |(1 / 10 : ℚ)| := by norm_num
    apply le_antisymm
    · have : Int.log 2 |(1 / 10 : ℚ)| < -3 := by
        rw [← Int.lt_zpow_iff_log_lt (by norm_num) hpos]
        norm_num [abs_of_pos]
      omega
    · rw [← Int.zpow_le_iff_le_log (by norm_num) hpos]
      norm_num [abs_of_pos]
  have hfloor : ⌊(1 / 10 : ℚ) / (2 : ℚ) ^ (-56 : ℤ)⌋ = 7205759403792793 := by
    rw [Int.floor_eq_iff]
    constructor <;> norm_num
  have he : max (Int.log 2 |(1 / 10 : ℚ)| - 52) (-1074) = -56 := by
    rw [hlog]
    decide
  have hr : roundHalfEven ((1 / 10 : ℚ) / (2 : ℚ) ^ (-56 : ℤ)) = 7205759403792794 := by
    simp only [roundHalfEven, hfloor]
    norm_num
  simp only [roundBinary64, he, hr]
  norm_num

theorem not_isBinary64_tenth : ¬ IsBinary64 (1 / 10) := by
  rintro ⟨m, e, _, _, _, h⟩
  have h10 : (10 : ℚ) * ((m : ℚ) * (2 : ℚ) ^ e) = 1 := by
    rw [← h]
    norm_num
  rcases le_or_lt 0 e with he | he
  · obtain ⟨k, rfl⟩ := Int.eq_ofNat_of_zero_le he
    have : ((10 * (m * 2 ^ k) : ℤ) : ℚ) = ((1 : ℤ) : ℚ) := by
      push_cast
      simpa using h10
    have h1 : 10 * (m * 2 ^ k) = (1 : ℤ) := by exact_mod_cast this
    omega
  · obtain ⟨k, hk⟩ : ∃ k : ℕ, e = -(k : ℤ) := ⟨(-e).toNat, by omega⟩
    subst hk
    have hpk : (2 : ℚ) ^ k ≠ 0 := pow_ne_zero _ (by norm_num)
    have : ((10 * m : ℤ) : ℚ) = ((2 ^ k : ℤ) : ℚ) := by
      push_cast
      rw [zpow_neg, zpow_natCast] at h10
      field_simp at h10
      linarith
    have h1 : 10 * m = (2 : ℤ) ^ k := by exact_mod_cast this
    have h5 : (5 : ℤ) ∣ 2 ^ k := ⟨2 * m, by rw [← h1]; ring⟩
    have hp : Prime (5 : ℤ) := by
      rw [Int.prime_iff_natAbs_prime]
      norm_num
    have := hp.dvd_of_dvd_pow h5
    omega

/-! # Claims -/

/-- C1: precedence tiers. For numeric literals `a`, `b`, `c` and binary operators
`lo`, `hi` with `hi` of a strictly higher tier than `lo`, building `a lo b hi c`
gives the tree `lo(a, hi(b, c))` and building `a hi b lo c` gives the tree
`lo(hi(a, b), c)`. -/
theorem precedence_tiers {D : Type} (ops : FloatOps D) (a b c : List Char) (lo hi : Char)
    (ha : isNumericLiteral a = true) (hb : isNumericLiteral b = true)
    (hc : isNumericLiteral c = true) (hlo : isOperatorChar lo = true)
    (hhi : isOperatorChar hi = true) (ht : tier lo < tier hi) :
    buildEquationTree ops (a ++ lo :: b ++ hi :: c)
      = Outcome.ok (Node.operator lo (literalNode ops a)
          (Node.operator hi (literalNode ops b) (literalNode ops c))) ∧
    buildEquationTree ops (a ++ hi :: b ++ lo :: c)
      = Outcome.ok (Node.operator lo
          (Node.operator hi (literalNode ops a) (literalNode ops b)) (literalNode ops c)) := by
  constructor
  · have e : a ++ lo :: b ++ hi :: c = a ++ lo :: (b ++ hi :: (c ++ [])) := by simp
    rw [e, buildEquationTree_of_no_space ops
        (removeWhitespace_flat ha hlo (removeWhitespace_flat hb hhi
          (by rw [List.append_nil]; exact removeWhitespace_numeric hc))),
      buildEquationTreeRec_literal ops _ false ha (literalEnd_cons_operator _ hlo),
      whileLoop_literal ops _ _ hlo hb (literalEnd_cons_operator _ hhi),
      whileLoop_literal ops _ _ hhi hc literalEnd_nil, whileLoop_nil]
    exact buildTreeFromNodes_lo_hi _ _ (wellFormed_literalNode ops a) hlo hhi ht
  · have e : a ++ hi :: b ++ lo :: c = a ++ hi :: (b ++ lo :: (c ++ [])) := by simp
    rw [e, buildEquationTree_of_no_space ops
        (removeWhitespace_flat ha hhi (removeWhitespace_flat hb hlo
          (by rw [List.append_nil]; exact removeWhitespace_numeric hc))),
      buildEquationTreeRec_literal ops _ false ha (literalEnd_cons_operator _ hhi),
      whileLoop_literal ops _ _ hhi hb (literalEnd_cons_operator _ hlo),
      whileLoop_literal ops _ _ hlo hc literalEnd_nil, whileLoop_nil]
    exact buildTreeFromNodes_hi_lo _ _ (wellFormed_literalNode ops a) hlo hhi ht

/-- Witness of C1 at `2+1*1` and `2*1+1` (the literals `2`, `1`, `1`, the operators
`+` and `*`). -/
theorem precedence_tiers_witness :
    buildEquationTree exactOps "2+1*1".toList
      = Outcome.ok (Node.operator '+' (literalNode exactOps ['2'])
          (Node.operator '*' (literalNode exactOps ['1']) (literalNode exactOps ['1']))) ∧
    buildEquationTree exactOps "2*1+1".toList
      = Outcome.ok (Node.operator '+'
          (Node.operator '*' (literalNode exactOps ['2']) (literalNode exactOps ['1']))
          (literalNode exactOps ['1'])) :=
  precedence_tiers exactOps ['2'] ['1'] ['1'] '+' '*' (by decide) (by decide) (by decide)
    (by decide) (by decide) (by decide)

/-- C2: left-associativity inside a tier, Power included. For numeric literals
`a`, `b`, `c` and binary operators `o1`, `o2` of the same precedence tier,
building `a o1 b o2 c` gives the tree `o2(o1(a, b), c)`; in particular `a^b^c`
builds `Power(Power(a, b), c)` and `a/b*c` builds `Mul(Div(a, b), c)`. -/
theorem left_associative_in_tier {D : Type} (ops : FloatOps D) (a b c : List Char)
    (o1 o2 : Char) (ha : isNumericLiteral a = true) (hb : isNumericLiteral b = true)
    (hc : isNumericLiteral c = true) (h1 : isOperatorChar o1 = true)
    (h2 : isOperatorChar o2 = true) (ht : tier o1 = tier o2) :
    buildEquationTree ops (a ++ o1 :: b ++ o2 :: c)
      = Outcome.ok (Node.operator o2
          (Node.operator o1 (literalNode ops a) (literalNode ops b)) (literalNode ops c)) ∧
    buildEquationTree ops (a ++ '^' :: b ++ '^' :: c)
      = Outcome.ok (Node.operator Power
          (Node.operator Power (literalNode ops a) (literalNode ops b)) (literalNode ops c)) ∧
    buildEquationTree ops (a ++ '/' :: b ++ '*' :: c)
      = Outcome.ok (Node.operator Multiplication
          (Node.operator Division (literalNode ops a) (literalNode ops b))
          (literalNode ops c)) := by
  have key : ∀ p q : Char, isOperatorChar p = true → isOperatorChar q = true →
      tier p = tier q →
      buildEquationTree ops (a ++ p :: b ++ q :: c)
        = Outcome.ok (Node.operator q
            (Node.operator p (literalNode ops a) (literalNode ops b)) (literalNode ops c)) := by
    intro p q hp hq hpq
    have e : a ++ p :: b ++ q :: c = a ++ p :: (b ++ q :: (c ++ [])) := by simp
    rw [e, buildEquationTree_of_no_space ops
        (removeWhitespace_flat ha hp (removeWhitespace_flat hb hq
          (by rw [List.append_nil]; exact removeWhitespace_numeric hc))),
      buildEquationTreeRec_literal ops _ false ha (literalEnd_cons_operator _ hp),
      whileLoop_literal ops _ _ hp hb (literalEnd_cons_operator _ hq),
      whileLoop_literal ops _ _ hq hc literalEnd_nil, whileLoop_nil]
    exact buildTreeFromNodes_same_tier _ _ (wellFormed_literalNode ops a) hp hq hpq
  exact ⟨key o1 o2 h1 h2 ht, key '^' '^' (by decide) (by decide) (by decide),
    key '/' '*' (by decide) (by decide) (by decide)⟩

/-- Witness of C2 at `2^3^2`. -/
theorem left_associative_in_tier_witness :
    buildEquationTree exactOps "2^3^2".toList
      = Outcome.ok (Node.operator '^'
          (Node.operator '^' (literalNode exactOps ['2']) (literalNode exactOps ['3']))
          (literalNode exactOps ['2'])) :=
  (left_associative_in_tier exactOps ['2'] ['3'] ['2'] '^' '^' (by decide) (by decide)
    (by decide) (by decide) (by decide) (by decide)).1

/-- C3 fails on the code: the text `0.1` denotes the decimal value `1/10`, no
`double` has that value, and with the literals converted as `strtod` converts
them the evaluation of `0.1` returns the `double` `3602879701896397 / 2^55`, not
`1/10`. -/
theorem single_literal_counterexample :
    decimalValue "0.1".toList = 1 / 10 ∧
    ¬ IsBinary64 (1 / 10) ∧
    evaluateEquation binary64Literals "0.1".toList
      = Outcome.ok (3602879701896397 / 36028797018963968) ∧
    evaluateEquation binary64Literals "0.1".toList ≠ Outcome.ok (1 / 10) := by
  have hv : decimalValue "0.1".toList = 1 / 10 := by
    have h := @decimalValue_decimal ['0'] ['1'] (by decide) (by decide)
    have h0 : digitsToNat ['0'] = 0 := by decide
    have h1 : digitsToNat ['1'] = 1 := by decide
    rw [h0, h1] at h
    rw [show "0.1".toList = ['0'] ++ '.' :: ['1'] from rfl, h]
    norm_num
  have he : evaluateEquation binary64Literals "0.1".toList
      = Outcome.ok (3602879701896397 / 36028797018963968) := by
    have hb := buildEquationTree_numeric binary64Literals
      (show isNumericLiteral "0.1".toList = true by decide)
    simp only [evaluateEquation, hb, literalNode, evaluateEquationTree, strtod, hv]
    exact congrArg Outcome.ok roundBinary64_tenth
  refine ⟨hv, not_isBinary64_tenth, he, ?_⟩
  rw [he]
  intro h
  simp only [Outcome.ok.injEq] at h
  norm_num at h

/-- C3 as amended: an equation that is a single numeric literal, the digits `d` or
`d` followed by `.` and the digits `f`, builds a single Literal node that holds
the `double` to which `strtod` converts the decimal value of the text (`d`,
respectively `d + f/10^|f|`), and evaluates to that `double`; when the conversion
is exact on the values a `double` can hold, the value returned and held in the
node is exactly the decimal value whenever a `double` can hold it. -/
theorem single_literal {D : Type} (ops : FloatOps D) (val : D → ℚ) (d f : List Char)
    (hd : d ≠ []) (hdd : ∀ c ∈ d, isDigit c = true) (hf : f ≠ [])
    (hff : ∀ c ∈ f, isDigit c = true)
    (hexact : ∀ q : ℚ, IsBinary64 q → val (ops.ofRat q) = q) :
    buildEquationTree ops d
      = Outcome.ok (Node.literal (ops.ofRat (digitsToNat d)) Node.nullptr Node.nullptr) ∧
    evaluateEquation ops d = Outcome.ok (ops.ofRat (digitsToNat d)) ∧
    buildEquationTree ops (d ++ '.' :: f)
      = Outcome.ok (Node.literal
          (ops.ofRat ((digitsToNat d : ℚ) + (digitsToNat f : ℚ) / (10 : ℚ) ^ f.length))
          Node.nullptr Node.nullptr) ∧
    evaluateEquation ops (d ++ '.' :: f)
      = Outcome.ok (ops.ofRat ((digitsToNat d : ℚ) + (digitsToNat f : ℚ) / (10 : ℚ) ^ f.length)) ∧
    (IsBinary64 (digitsToNat d : ℚ) →
      ∃ v, buildEquationTree ops d = Outcome.ok (Node.literal v Node.nullptr Node.nullptr) ∧
        evaluateEquation ops d = Outcome.ok v ∧ val v = (digitsToNat d : ℚ)) ∧
    (IsBinary64 ((digitsToNat d : ℚ) + (digitsToNat f : ℚ) / (10 : ℚ) ^ f.length) →
      ∃ v, buildEquationTree ops (d ++ '.' :: f)
          = Outcome.ok (Node.literal v Node.nullptr Node.nullptr) ∧
        evaluateEquation ops (d ++ '.' :: f) = Outcome.ok v ∧
        val v = (digitsToNat d : ℚ) + (digitsToNat f : ℚ) / (10 : ℚ) ^ f.length) := by
  have h1 := buildEquationTree_numeric ops (isNumericLiteral_digits hd hdd)
  have h2 := buildEquationTree_numeric ops (isNumericLiteral_decimal hd hdd hf hff)
  simp only [literalNode, strtod, decimalValue_digits hdd, decimalValue_decimal hdd hff]
    at h1 h2
  have e1 : evaluateEquation ops d = Outcome.ok (ops.ofRat (digitsToNat d)) := by
    simp only [evaluateEquation, h1, evaluateEquationTree]
  have e2 : evaluateEquation ops (d ++ '.' :: f)
      = Outcome.ok (ops.ofRat ((digitsToNat d : ℚ) + (digitsToNat f : ℚ) / (10 : ℚ) ^ f.length)) := by
    simp only [evaluateEquation, h2, evaluateEquationTree]
  exact ⟨h1, e1, h2, e2, fun hr => ⟨_, h1, e1, hexact _ hr⟩, fun hr => ⟨_, h2, e2, hexact _ hr⟩⟩

/-- Witness of C3 as amended at `12` and `12.5`, with the literals converted to the
nearest `double`: a `double` can hold both values and the evaluation returns
them. -/
theorem single_literal_witness :
    evaluateEquation binary64Literals "12".toList = Outcome.ok 12 ∧
    evaluateEquation binary64Literals "12.5".toList = Outcome.ok (25 / 2) := by
  have h12 : digitsToNat ['1', '2'] = 12 := by decide
  have h5 : digitsToNat ['5'] = 5 := by decide
  have h := single_literal binary64Literals id ['1', '2'] ['5'] (by decide) (by decide)
    (by decide) (by decide) (fun q hq => roundBinary64_of_isBinary64 hq)
  rw [h12, h5] at h
  obtain ⟨v1, _, hv1, hval1⟩ := h.2.2.2.2.1 ⟨12, 0, by norm_num, by norm_num, by norm_num,
    by norm_num⟩
  obtain ⟨v2, _, hv2, hval2⟩ := h.2.2.2.2.2 ⟨25, -1, by norm_num, by norm_num, by norm_num,
    by norm_num⟩
  simp only [id] at hval1 hval2
  refine ⟨?_, ?_⟩
  · rw [show "12".toList = ['1', '2'] from rfl, hv1, hval1]
    norm_num
  · rw [show "12.5".toList = ['1', '2'] ++ '.' :: ['5'] from rfl, hv2, hval2]
    norm_num

/-- C4: a leading unary minus applies to the single following operand and is
attached before any precedence pass. For numeric literals `a`, `b` and a binary
operator `o`, building `-a o b` gives the tree `o(Negate(a), b)` (so `-a^b` builds
`Power(Negate(a), b)` and not `Negate(Power(a, b))`), and building `-a` gives
`Negate(a)`. -/
theorem leading_negate {D : Type} (ops : FloatOps D) (a b : List Char) (o : Char)
    (ha : isNumericLiteral a = true) (hb : isNumericLiteral b = true)
    (ho : isOperatorChar o = true) :
    buildEquationTree ops ('-' :: a ++ o :: b)
      = Outcome.ok (Node.operator o (Node.operator Negate Node.nullptr (literalNode ops a))
          (literalNode ops b)) ∧
    buildEquationTree ops ('-' :: a ++ '^' :: b)
      = Outcome.ok (Node.operator Power (Node.operator Negate Node.nullptr (literalNode ops a))
          (literalNode ops b)) ∧
    buildEquationTree ops ('-' :: a ++ '^' :: b)
      ≠ Outcome.ok (Node.operator Negate Node.nullptr
          (Node.operator Power (literalNode ops a) (literalNode ops b))) ∧
    buildEquationTree ops ('-' :: a)
      = Outcome.ok (Node.operator Negate Node.nullptr (literalNode ops a)) := by
  have key : ∀ p : Char, isOperatorChar p = true →
      buildEquationTree ops ('-' :: a ++ p :: b)
        = Outcome.ok (Node.operator p (Node.operator Negate Node.nullptr (literalNode ops a))
            (literalNode ops b)) := by
    intro p hp
    have e : '-' :: a ++ p :: b = '-' :: (a ++ p :: (b ++ [])) := by simp
    have hsp : removeWhitespace ('-' :: (a ++ p :: (b ++ []))) = '-' :: (a ++ p :: (b ++ [])) := by
      rw [removeWhitespace_cons_of_not_space _ (by decide)]
      rw [removeWhitespace_flat ha hp (by rw [List.append_nil]; exact removeWhitespace_numeric hb)]
    rw [e, buildEquationTree_of_no_space ops hsp,
      buildEquationTreeRec_negate_literal ops _ false ha (literalEnd_cons_operator _ hp),
      whileLoop_literal ops _ _ hp hb literalEnd_nil, whileLoop_nil]
    exact buildTreeFromNodes_negate_three _ _ hp
  have hpow := key '^' (by decide)
  refine ⟨key o ho, hpow, ?_, ?_⟩
  · rw [hpow]
    intro h
    simp only [Outcome.ok.injEq, Node.operator.injEq] at h
    exact absurd h.1 (by decide)
  · have e : '-' :: a = '-' :: (a ++ []) := by simp
    have hsp : removeWhitespace ('-' :: (a ++ [])) = '-' :: (a ++ []) := by
      rw [removeWhitespace_cons_of_not_space _ (by decide), List.append_nil,
        removeWhitespace_numeric ha]
    rw [e, buildEquationTree_of_no_space ops hsp,
      buildEquationTreeRec_negate_literal ops _ false ha literalEnd_nil, whileLoop_nil]
    exact buildTreeFromNodes_negate

/-- Witness of C4 at `-4^3`. -/
theorem leading_negate_witness :
    buildEquationTree exactOps "-4^3".toList
      = Outcome.ok (Node.operator '^'
          (Node.operator Negate Node.nullptr (literalNode exactOps ['4']))
          (literalNode exactOps ['3'])) :=
  (leading_negate exactOps ['4'] ['3'] '^' (by decide) (by decide) (by decide)).1

/-- C5: grouping is transparent. When an equation `E` that is not empty after
whitespace removal builds the tree `T`, the equation `(E)` builds the same tree
`T` (also when the root of `T` is an attached Negate node, as for `-2`), hence
evaluates like `E`. -/
theorem grouping_transparent {D : Type} (ops : FloatOps D) (E : List Char) (T : Node D)
    (hne : removeWhitespace E ≠ []) (h : buildEquationTree ops E = Outcome.ok T) :
    buildEquationTree ops ('(' :: E ++ [')']) = Outcome.ok T ∧
    evaluateEquation ops ('(' :: E ++ [')']) = evaluateEquation ops E := by
  have hg := buildEquationTree_group ops hne h
  exact ⟨hg, by simp only [evaluateEquation, hg, h]⟩

/-- Witness of C5 at `-2`, whose tree has an attached Negate node at its root. -/
theorem grouping_transparent_witness :
    buildEquationTree exactOps "(-2)".toList
      = Outcome.ok (Node.operator Negate Node.nullptr (literalNode exactOps ['2'])) ∧
    evaluateEquation exactOps "(-2)".toList = evaluateEquation exactOps "-2".toList :=
  grouping_transparent exactOps "-2".toList
    (Node.operator Negate Node.nullptr (literalNode exactOps ['2'])) (by decide) (by rfl)

/-- C6: negation composes with grouping. When an equation `E` that is not empty
after whitespace removal builds the tree `T`, the equation `-(E)` builds
`Negate(T)` and evaluates to the negation of the value of `E`; `-(-(E))` evaluates
to the double negation of that value, which is the value of `E` as negation of a
`double` is an involution. -/
theorem negation_composes_with_grouping {D : Type} (ops : FloatOps D) (E : List Char)
    (T : Node D) (hne : removeWhitespace E ≠ []) (h : buildEquationTree ops E = Outcome.ok T) :
    buildEquationTree ops ('-' :: '(' :: E ++ [')'])
      = Outcome.ok (Node.operator Negate Node.nullptr T) ∧
    evaluateEquation ops E = Outcome.ok (evaluateEquationTree ops T) ∧
    evaluateEquation ops ('-' :: '(' :: E ++ [')'])
      = Outcome.ok (ops.neg (evaluateEquationTree ops T)) ∧
    evaluateEquation ops ('-' :: '(' :: ('-' :: '(' :: E ++ [')']) ++ [')'])
      = Outcome.ok (ops.neg (ops.neg (evaluateEquationTree ops T))) ∧
    ((∀ x, ops.neg (ops.neg x) = x) →
      evaluateEquation ops ('-' :: '(' :: ('-' :: '(' :: E ++ [')']) ++ [')'])
        = evaluateEquation ops E) := by
  have h1 := buildEquationTree_negate_group ops hne h
  have hne2 : removeWhitespace ('-' :: '(' :: E ++ [')']) ≠ [] := by
    have e : '-' :: '(' :: E ++ [')'] = '-' :: ('(' :: E ++ [')']) := by simp
    rw [e, removeWhitespace_cons_of_not_space _ (by decide)]
    simp
  have h2 := buildEquationTree_negate_group ops hne2 h1
  have e0 : evaluateEquation ops E = Outcome.ok (evaluateEquationTree ops T) := by
    simp only [evaluateEquation, h]
  have e1 : evaluateEquation ops ('-' :: '(' :: E ++ [')'])
      = Outcome.ok (ops.neg (evaluateEquationTree ops T)) := by
    simp only [evaluateEquation, h1, evaluateEquationTree_negate]
  have e2 : evaluateEquation ops ('-' :: '(' :: ('-' :: '(' :: E ++ [')']) ++ [')'])
      = Outcome.ok (ops.neg (ops.neg (evaluateEquationTree ops T))) := by
    simp only [evaluateEquation, h2, evaluateEquationTree_negate]
  refine ⟨h1, e0, e1, e2, ?_⟩
  intro hinv
  rw [e2, e0, hinv]

/-- Witness of C6 at `3`: `-(3)` builds `Negate(3)` and `-(-(3))` evaluates like `3`. -/
theorem negation_composes_with_grouping_witness :
    buildEquationTree exactOps "-(3)".toList
      = Outcome.ok (Node.operator Negate Node.nullptr (literalNode exactOps ['3'])) ∧
    evaluateEquation exactOps "-(-(3))".toList = evaluateEquation exactOps "3".toList :=
  have h := negation_composes_with_grouping exactOps "3".toList (literalNode exactOps ['3'])
    (by decide) (by rfl)
  ⟨h.1, h.2.2.2.2 (fun x => neg_neg x)⟩

/-- C7: whitespace is irrelevant. Building and evaluating an input give the same
outcome (the same tree or value, or the same error) as on the input with all
whitespace removed, and two inputs that agree after whitespace removal have the
same outcomes. -/
theorem whitespace_irrelevant {D : Type} (ops : FloatOps D) (s t : List Char)
    (h : removeWhitespace s = removeWhitespace t) :
    buildEquationTree ops s = buildEquationTree ops (removeWhitespace s) ∧
    evaluateEquation ops s = evaluateEquation ops (removeWhitespace s) ∧
    buildEquationTree ops s = buildEquationTree ops t ∧
    evaluateEquation ops s = evaluateEquation ops t := by
  have h1 : buildEquationTree ops s = buildEquationTree ops (removeWhitespace s) := by
    simp only [buildEquationTree, removeWhitespace_idem]
  have h2 : buildEquationTree ops s = buildEquationTree ops t := by
    simp only [buildEquationTree, h]
  refine ⟨h1, ?_, h2, ?_⟩
  · simp only [evaluateEquation, ← h1]
  · simp only [evaluateEquation, h2]

/-- Witness of C7 at ` 2 + 7  *  ( 3 +1) ` and `2+7*(3+1)`. -/
theorem whitespace_irrelevant_witness :
    evaluateEquation exactOps " 2 + 7  *  ( 3 +1) ".toList
      = evaluateEquation exactOps "2+7*(3+1)".toList :=
  (whitespace_irrelevant exactOps " 2 + 7  *  ( 3 +1) ".toList "2+7*(3+1)".toList
    (by decide)).2.2.2

/-- C8: an empty top-level equation, the empty string or a string made only of
whitespace, builds the absent tree and evaluates to `0`, without any error. -/
theorem empty_equation {D : Type} (ops : FloatOps D) (s : List Char)
    (h : ∀ c ∈ s, isspace c = true) :
    buildEquationTree ops s = Outcome.ok Node.nullptr ∧
    evaluateEquation ops s = Outcome.ok ops.zero := by
  have hs : removeWhitespace s = [] := by
    simp only [removeWhitespace, List.filter_eq_nil_iff]
    intro c hc
    simp [h c hc]
  have h1 : buildEquationTree ops s = Outcome.ok Node.nullptr := by
    simp [buildEquationTree, hs, buildEquationTreeRec]
  exact ⟨h1, by simp only [evaluateEquation, h1, evaluateEquationTree]⟩

/-- Witness of C8 at a string of two blanks and a tab. -/
theorem empty_equation_witness :
    buildEquationTree exactOps [' ', '\t', ' '] = Outcome.ok Node.nullptr ∧
    evaluateEquation exactOps [' ', '\t', ' '] = Outcome.ok exactOps.zero :=
  empty_equation exactOps [' ', '\t', ' '] (by decide)

/-- C9: an empty group is an error and never zero. For every remainder `r`,
evaluating `()r` fails with EmptyGroup, and for every numeric literal `a` and
binary operator `o`, evaluating `a o ()r` fails with EmptyGroup. -/
theorem empty_group {D : Type} (ops : FloatOps D) (a : List Char) (o : Char) (r : List Char)
    (ha : isNumericLiteral a = true) (ho : isOperatorChar o = true) :
    evaluateEquation ops ('(' :: ')' :: r) = Outcome.throw ErrorType.EmptyGroup ∧
    evaluateEquation ops (a ++ o :: '(' :: ')' :: r) = Outcome.throw ErrorType.EmptyGroup := by
  have hnl := all_isAnyButNewline_removeWhitespace r
  constructor
  · apply evaluateEquation_throw
    have hs : removeWhitespace ('(' :: ')' :: r) = '(' :: ')' :: removeWhitespace r := by
      rw [removeWhitespace_cons_of_not_space _ (by decide),
        removeWhitespace_cons_of_not_space _ (by decide)]
    simp only [buildEquationTree, hs, List.length_cons]
    exact buildEquationTreeRec_throw_operand ops _ (by decide) false
      (popOperandFromEquation_empty_group ops _ hnl)
  · apply evaluateEquation_throw
    have hs : removeWhitespace (a ++ o :: '(' :: ')' :: r)
        = a ++ o :: '(' :: ')' :: removeWhitespace r := by
      rw [removeWhitespace_append, removeWhitespace_numeric ha,
        removeWhitespace_cons_of_not_space _ (isspace_false_of_isOperatorChar ho),
        removeWhitespace_cons_of_not_space _ (by decide),
        removeWhitespace_cons_of_not_space _ (by decide)]
    simp only [buildEquationTree, hs]
    have hlen : (a ++ o :: '(' :: ')' :: removeWhitespace r).length
        = (removeWhitespace r).length + a.length + 2 + 1 := by
      simp only [List.length_append, List.length_cons]
      omega
    rw [hlen, buildEquationTreeRec_literal ops _ false ha (literalEnd_cons_operator _ ho),
      whileLoop_cons_operator ops _ _ _ _ ho, popOperandFromEquation_empty_group ops _ hnl]
    rfl

/-- Witness of C9 at `()` and `3+()`. -/
theorem empty_group_witness :
    evaluateEquation exactOps "()".toList = Outcome.throw ErrorType.EmptyGroup ∧
    evaluateEquation exactOps "3+()".toList = Outcome.throw ErrorType.EmptyGroup :=
  empty_group exactOps ['3'] '+' [] (by decide) (by decide)

/-- C10: unbalanced groups fail with MissingClosingSymbol. When the input without
its whitespace is `t` or `-t`, where `t` begins with `(` and the nesting level of
`t` (one more at `(`, one less at `)`) is above zero after each of its characters,
the last one included, evaluating the input fails with MissingClosingSymbol,
whatever the other characters are. -/
theorem missing_closing_symbol {D : Type} (ops : FloatOps D) (s t : List Char)
    (hs : removeWhitespace s = t ∨ removeWhitespace s = '-' :: t)
    (hopen : t.head? = some '(')
    (hlevel : ∀ k, k < t.length → 0 < nesting (t.take (k + 1))) :
    evaluateEquation ops s = Outcome.throw ErrorType.MissingClosingSymbol ∧
    buildEquationTree ops s = Outcome.throw ErrorType.MissingClosingSymbol := by
  have hb : buildEquationTree ops s = Outcome.throw ErrorType.MissingClosingSymbol := by
    have hall := all_isAnyButNewline_removeWhitespace s
    rcases hs with hs | hs
    · rw [hs] at hall
      have hp := fun n => popOperandFromEquation_unclosed ops (buildEquationTreeRec ops n)
        hall hopen hlevel
      simp only [buildEquationTree, hs]
      cases t with
      | nil => simp at hopen
      | cons c r =>
        simp only [List.head?_cons, Option.some.injEq] at hopen
        subst hopen
        exact buildEquationTreeRec_throw_operand ops _ (by decide) false (hp _)
    · rw [hs] at hall
      simp only [List.all_cons, Bool.and_eq_true] at hall
      have hp := fun n => popOperandFromEquation_unclosed ops (buildEquationTreeRec ops n)
        hall.2 hopen hlevel
      simp only [buildEquationTree, hs]
      exact buildEquationTreeRec_negate_throw_operand ops _ false (hp _)
  exact ⟨evaluateEquation_throw ops hb, hb⟩

/-- Witness of C10 at `-((4+(5*2))-3`. -/
theorem missing_closing_symbol_witness :
    evaluateEquation exactOps "- ((4+(5*2))-3".toList
      = Outcome.throw ErrorType.MissingClosingSymbol :=
  (missing_closing_symbol exactOps "- ((4+(5*2))-3".toList "((4+(5*2))-3".toList
    (Or.inr (by decide)) (by decide) (by decide)).1

/-- C12: consecutive operators with no operand between them fail with
InvalidOperand. For every numeric literal `a`, operator symbols `o1`, `o2` and
remainder `r`, evaluating `a o1 o2 r` fails with InvalidOperand, and evaluating
`--r` fails with InvalidOperand. -/
theorem consecutive_operators {D : Type} (ops : FloatOps D) (a : List Char) (o1 o2 : Char)
    (r : List Char) (ha : isNumericLiteral a = true) (h1 : isOperatorChar o1 = true)
    (h2 : isOperatorChar o2 = true) :
    evaluateEquation ops (a ++ o1 :: o2 :: r) = Outcome.throw ErrorType.InvalidOperand ∧
    evaluateEquation ops ('-' :: '-' :: r) = Outcome.throw ErrorType.InvalidOperand := by
  constructor
  · apply evaluateEquation_throw
    have hs : removeWhitespace (a ++ o1 :: o2 :: r) = a ++ o1 :: o2 :: removeWhitespace r := by
      rw [removeWhitespace_append, removeWhitespace_numeric ha,
        removeWhitespace_cons_of_not_space _ (isspace_false_of_isOperatorChar h1),
        removeWhitespace_cons_of_not_space _ (isspace_false_of_isOperatorChar h2)]
    simp only [buildEquationTree, hs]
    rw [buildEquationTreeRec_literal ops _ false ha (literalEnd_cons_operator _ h1),
      whileLoop_cons_operator ops _ _ _ _ h1,
      popOperandFromEquation_invalid ops _ _ (ne_open_of_isOperatorChar h2)
        (isDigit_false_of_isOperatorChar h2)]
    rfl
  · apply evaluateEquation_throw
    have hs : removeWhitespace ('-' :: '-' :: r) = '-' :: '-' :: removeWhitespace r := by
      rw [removeWhitespace_cons_of_not_space _ (by decide),
        removeWhitespace_cons_of_not_space _ (by decide)]
    simp only [buildEquationTree, hs]
    exact buildEquationTreeRec_negate_throw_operand ops _ false
      (popOperandFromEquation_invalid ops _ _ (by decide) (by decide))

/-- Witness of C12 at `1--3` and `--3`. -/
theorem consecutive_operators_witness :
    evaluateEquation exactOps "1--3".toList = Outcome.throw ErrorType.InvalidOperand ∧
    evaluateEquation exactOps "--3".toList = Outcome.throw ErrorType.InvalidOperand :=
  consecutive_operators exactOps ['1'] '-' '-' ['3'] (by decide) (by decide) (by decide)

/-- C13: errors come only from tree construction. Evaluating an input fails with
an error kind exactly when building its tree fails with that kind, and when the
build gives the tree `T` the evaluation returns `evaluateEquationTree T`, which is
a value for every tree, the absent tree included. -/
theorem errors_only_from_construction {D : Type} (ops : FloatOps D) (s : List Char) :
    (∀ e, evaluateEquation ops s = Outcome.throw e ↔ buildEquationTree ops s = Outcome.throw e) ∧
    (∀ T, buildEquationTree ops s = Outcome.ok T →
      evaluateEquation ops s = Outcome.ok (evaluateEquationTree ops T)) ∧
    (∀ T : Node D, ∃ v, evaluateEquationTree ops T = v) ∧
    evaluateEquationTree ops Node.nullptr = ops.zero := by
  refine ⟨?_, fun T h => evaluateEquation_ok ops h, fun T => ⟨_, rfl⟩, rfl⟩
  intro e
  constructor
  · intro h
    simp only [evaluateEquation] at h
    cases hb : buildEquationTree ops s with
    | ok T => rw [hb] at h; simp at h
    | throw e1 =>
      rw [hb] at h
      simp only [Outcome.throw.injEq] at h
      rw [h]
    | undefined => rw [hb] at h; simp at h
  · exact evaluateEquation_throw ops

/-- Witness of C13 at `3+()`, whose build fails with EmptyGroup, and at `2*3`. -/
theorem errors_only_from_construction_witness :
    evaluateEquation exactOps "3+()".toList = Outcome.throw ErrorType.EmptyGroup ∧
    evaluateEquation exactOps "2*3".toList
      = Outcome.ok (evaluateEquationTree exactOps
          (Node.operator '*' (literalNode exactOps ['2']) (literalNode exactOps ['3']))) :=
  have h := errors_only_from_construction exactOps
  ⟨((h "3+()".toList).1 ErrorType.EmptyGroup).2 (by rfl), (h "2*3".toList).2.1 _ (by rfl)⟩

/-- C15: tree well-formedness. When building an input succeeds with a tree that
is not absent, every node of the tree satisfies the invariant of the data model:
a Literal node has no children, a Negate node has a right child and no left
child, and a node of kind Add, Subtract, Multiply, Divide or Power has both
children. -/
theorem tree_well_formed {D : Type} (ops : FloatOps D) (s : List Char) (T : Node D)
    (h : buildEquationTree ops s = Outcome.ok T) (hT : T ≠ Node.nullptr) :
    wellFormed T = true := by
  simp only [buildEquationTree] at h
  have hi := buildEquationTreeRec_inv ops _ _ _ _ h
  apply hi.1
  intro h0
  rw [h0] at h
  simp only [List.length_nil, buildEquationTreeRec, List.isEmpty_nil, if_true,
    Bool.false_eq_true, if_false, Outcome.ok.injEq] at h
  exact hT h.symm

/-- Witness of C15 at `-4^3/5*(2+1)`. -/
theorem tree_well_formed_witness :
    wellFormed (Node.operator '*'
      (Node.operator '/'
        (Node.operator '^' (Node.operator Negate Node.nullptr (literalNode exactOps ['4']))
          (literalNode exactOps ['3']))
        (literalNode exactOps ['5']))
      (Node.operator '+' (literalNode exactOps ['2']) (literalNode exactOps ['1']))) = true :=
  tree_well_formed exactOps "-4^3/5*(2+1)".toList _ (by rfl) (by simp)

/-- C16 fails on the code: the group `(4-3)` has a body that builds, the remainder
`5` begins with neither an operator symbol nor `)`, and evaluating `(4-3)5` fails
with InvalidOperator, not with InvalidOperand. -/
theorem trailing_garbage_counterexample :
    buildEquationTree exactOps "4-3".toList
      = Outcome.ok (Node.operator '-' (literalNode exactOps ['4']) (literalNode exactOps ['3'])) ∧
    evaluateEquation exactOps "(4-3)5".toList = Outcome.throw ErrorType.InvalidOperator ∧
    evaluateEquation exactOps "(4-3)5".toList ≠ Outcome.throw ErrorType.InvalidOperand := by
  refine ⟨by rfl, by rfl, ?_⟩
  have h : evaluateEquation exactOps "(4-3)5".toList
      = Outcome.throw ErrorType.InvalidOperator := by rfl
  rw [h]
  decide

/-- C16 as amended: trailing garbage after a closing group is classified as
InvalidOperator. For every group `(G)` whose body `G` is not empty after
whitespace removal and builds, and every remainder `r` that after whitespace
removal is not empty and begins with a character that is not an operator symbol,
evaluating `(G)r` fails with InvalidOperator. -/
theorem trailing_garbage {D : Type} (ops : FloatOps D) (G r : List Char) (T : Node D)
    (c : Char) (r1 : List Char) (hne : removeWhitespace G ≠ [])
    (h : buildEquationTree ops G = Outcome.ok T) (hr : removeWhitespace r = c :: r1)
    (hc : isOperatorChar c = false) :
    evaluateEquation ops ('(' :: G ++ ')' :: r) = Outcome.throw ErrorType.InvalidOperator ∧
    buildEquationTree ops ('(' :: G ++ ')' :: r) = Outcome.throw ErrorType.InvalidOperator := by
  have hb : buildEquationTree ops ('(' :: G ++ ')' :: r)
      = Outcome.throw ErrorType.InvalidOperator := by
    obtain ⟨hbody, _, ht⟩ := buildEquationTree_body ops hne h
      (('(' :: removeWhitespace G ++ ')' :: removeWhitespace r).length)
      (by simp only [List.length_cons, List.length_append]; omega)
    simp only [buildEquationTree, removeWhitespace_group_rest]
    rw [buildEquationTreeRec_group ops _ false _ ht (all_isAnyButNewline_group_rest G r), hbody,
      hr]
    simp only [Outcome.bind, List.length_cons]
    rw [whileLoop_invalid_operator ops _ _ _ _ hc]
  exact ⟨evaluateEquation_throw ops hb, hb⟩

/-- Witness of C16 as amended at `(4-3)5`. -/
theorem trailing_garbage_witness :
    evaluateEquation exactOps "(4-3)5".toList = Outcome.throw ErrorType.InvalidOperator :=
  (trailing_garbage exactOps "4-3".toList ['5']
    (Node.operator '-' (literalNode exactOps ['4']) (literalNode exactOps ['3'])) '5' []
    (by decide) (by rfl) (by decide) (by decide)).1

/-- C18: a failure in a sub-group aborts the whole parse with the same error kind.
For every body `B` with balanced grouping symbols (the nesting level is never
negative and is zero at the end) whose build as a sub-group fails with the error
kind `e`, and for every remainder `r`, building `(B)r` fails with `e`, and so does
building `a o (B)r` for every numeric literal `a` and binary operator `o`. -/
theorem subgroup_failure_propagates {D : Type} (ops : FloatOps D) (B r a : List Char)
    (o : Char) (e : ErrorType)
    (hbal : ∀ k, k ≤ B.length → 0 ≤ nesting (B.take k)) (hzero : nesting B = 0)
    (hfail : buildSubGroup ops (removeWhitespace B) = Outcome.throw e)
    (ha : isNumericLiteral a = true) (ho : isOperatorChar o = true) :
    buildEquationTree ops ('(' :: B ++ ')' :: r) = Outcome.throw e ∧
    buildEquationTree ops (a ++ o :: '(' :: B ++ ')' :: r) = Outcome.throw e := by
  have ht := transparent_removeWhitespace_of_balanced hbal hzero
  have hnl := all_isAnyButNewline_group_rest B r
  constructor
  · simp only [buildEquationTree, removeWhitespace_group_rest]
    exact buildEquationTreeRec_group_throw ops _ false _ ht hnl
      (by simp only [List.length_cons, List.length_append]; omega) hfail
  · have hs : removeWhitespace (a ++ o :: '(' :: B ++ ')' :: r)
        = a ++ o :: ('(' :: removeWhitespace B ++ ')' :: removeWhitespace r) := by
      have e1 : a ++ o :: '(' :: B ++ ')' :: r = a ++ o :: ('(' :: B ++ ')' :: r) := by simp
      rw [e1, removeWhitespace_append, removeWhitespace_numeric ha,
        removeWhitespace_cons_of_not_space _ (isspace_false_of_isOperatorChar ho),
        removeWhitespace_group_rest]
    simp only [buildEquationTree, hs]
    rw [buildEquationTreeRec_literal ops _ false ha (literalEnd_cons_operator _ ho),
      whileLoop_cons_operator ops _ _ _ _ ho]
    have hp : popOperandFromEquation ops
        (buildEquationTreeRec ops (a ++ o :: ('(' :: removeWhitespace B ++ ')' :: removeWhitespace r)).length)
        ('(' :: removeWhitespace B ++ ')' :: removeWhitespace r) = Outcome.throw e := by
      rw [popOperandFromEquation_group ops _ _ ht hnl,
        buildEquationTreeRec_fuel ops _ ((removeWhitespace B).length + 1) _ true
          (by simp only [List.length_cons, List.length_append]; omega) (by omega)]
      simp only [buildSubGroup] at hfail
      rw [hfail]
      rfl
    rw [hp]
    rfl

/-- Witness of C18 at the body `4-`, which fails with InvalidOperand, before the
remainder `&`. -/
theorem subgroup_failure_propagates_witness :
    buildEquationTree exactOps "(4-)&".toList = Outcome.throw ErrorType.InvalidOperand ∧
    buildEquationTree exactOps "3+(4-)&".toList = Outcome.throw ErrorType.InvalidOperand :=
  subgroup_failure_propagates exactOps "4-".toList ['&'] ['3'] '+' ErrorType.InvalidOperand
    (by decide) (by decide) (by rfl) (by decide) (by decide)

/-- C11: an extra unmatched closing symbol fails with InvalidOperator. For every
equation `E` that is not empty after whitespace removal and builds, building and
evaluating `E)` fail with InvalidOperator. -/
theorem extra_closing_symbol {D : Type} (ops : FloatOps D) (E : List Char) (T : Node D)
    (hne : removeWhitespace E ≠ []) (h : buildEquationTree ops E = Outcome.ok T) :
    buildEquationTree ops (E ++ [')']) = Outcome.throw ErrorType.InvalidOperator ∧
    evaluateEquation ops (E ++ [')']) = Outcome.throw ErrorType.InvalidOperator := by
  have hb : buildEquationTree ops (E ++ [')']) = Outcome.throw ErrorType.InvalidOperator := by
    have hs : removeWhitespace (E ++ [')']) = removeWhitespace E ++ [')'] := by
      rw [removeWhitespace_append]
      rfl
    simp only [buildEquationTree] at h
    rw [buildEquationTreeRec_fuel ops _ ((removeWhitespace E).length + 1 + 1) _ false
      (by omega) (by omega)] at h
    simp only [buildEquationTree, hs, List.length_append, List.length_singleton]
    exact buildEquationTreeRec_append_close ops _ false hne h
  exact ⟨hb, evaluateEquation_throw ops hb⟩

/-- Witness of C11 at `(4-3)`: `(4-3))` fails with InvalidOperator. -/
theorem extra_closing_symbol_witness :
    evaluateEquation exactOps "(4-3))".toList = Outcome.throw ErrorType.InvalidOperator :=
  (extra_closing_symbol exactOps "(4-3)".toList
    (Node.operator '-' (literalNode exactOps ['4']) (literalNode exactOps ['3']))
    (by decide) (by rfl)).2

/-- C14 fails on the code: on the input `1.` the literal scan consumes `1.` and
leaves the empty remainder; it does not consume `1` and leave a remainder that
begins with `.`. -/
theorem literal_scan_counterexample :
    popLiteralFromEquation exactOps ['1', '.']
      = Outcome.ok (literalNode exactOps ['1', '.'], []) ∧
    popLiteralFromEquation exactOps ['1', '.']
      ≠ Outcome.ok (literalNode exactOps ['1'], ['.']) := by
  have h : popLiteralFromEquation exactOps ['1', '.']
      = Outcome.ok (literalNode exactOps ['1', '.'], []) := by rfl
  refine ⟨h, ?_⟩
  rw [h]
  intro hc
  simp only [Outcome.ok.injEq, Prod.mk.injEq] at hc
  exact absurd hc.2 (by decide)

/-- C14 as amended: on an input whose leading digits `d` are not followed by two
or more consecutive dots, the literal scan consumes `d` and, when a dot follows,
that dot and the digits `f` after it (there may be none), it returns the node of
the consumed text and everything after it as the remainder; and on every input it
fails, with InvalidOperand, exactly when the input does not begin with a digit.
On `1.` the consumed text is `1.` and the remainder is empty. -/
theorem literal_scan {D : Type} (ops : FloatOps D) (d f rest : List Char) (hne : d ≠ [])
    (hd : ∀ c ∈ d, isDigit c = true) (hf : ∀ c ∈ f, isDigit c = true)
    (hr : ∀ c, rest.head? = some c → isDigit c = false) :
    ((∀ c, rest.head? = some c → c ≠ '.') →
      popLiteralFromEquation ops (d ++ rest) = Outcome.ok (literalNode ops d, rest)) ∧
    ((f = [] → ∀ c, rest.head? = some c → c ≠ '.') →
      popLiteralFromEquation ops (d ++ '.' :: f ++ rest)
        = Outcome.ok (literalNode ops (d ++ '.' :: f), rest)) ∧
    (∀ (s : List Char) (e : ErrorType), popLiteralFromEquation ops s = Outcome.throw e ↔
      (e = ErrorType.InvalidOperand ∧ ∀ c, s.head? = some c → isDigit c = false)) := by
  refine ⟨?_, ?_, popLiteralFromEquation_throw_iff ops⟩
  · intro h
    have hend : LiteralEnd rest := fun c hc => ⟨hr c hc, h c hc⟩
    simp only [popLiteralFromEquation, searchOperandLiteral_digits hne hd hend, literalNode]
  · intro h
    have hend : f = [] → LiteralEnd rest := fun hf0 c hc => ⟨hr c hc, h hf0 c hc⟩
    simp only [popLiteralFromEquation, searchOperandLiteral_one_dot hne hd hf hr hend,
      literalNode]

/-- Witness of C14 as amended at `1.`, `1.5+2` and `12*3`. -/
theorem literal_scan_witness :
    popLiteralFromEquation exactOps "12*3".toList
      = Outcome.ok (literalNode exactOps ['1', '2'], ['*', '3']) ∧
    popLiteralFromEquation exactOps "1.".toList
      = Outcome.ok (literalNode exactOps ['1', '.'], []) ∧
    popLiteralFromEquation exactOps "1.5+2".toList
      = Outcome.ok (literalNode exactOps ['1', '.', '5'], ['+', '2']) :=
  ⟨(literal_scan exactOps ['1', '2'] [] ['*', '3'] (by decide) (by decide) (by decide)
      (by decide)).1 (by decide),
   (literal_scan exactOps ['1'] [] [] (by decide) (by decide) (by decide)
      (by decide)).2.1 (by decide),
   (literal_scan exactOps ['1'] ['5'] ['+', '2'] (by decide) (by decide) (by decide)
      (by decide)).2.1 (by decide)⟩

/-- C20: MissingClosingSymbol is sound and arises only at top level. When
building an input fails with MissingClosingSymbol the input has strictly more
`(` than `)`, so no input with at least as many `)` as `(` fails with
MissingClosingSymbol; and the recursive build of the body that
`popGroupFromEquation` takes out of an equation never fails with
MissingClosingSymbol. -/
theorem missing_closing_symbol_sound {D : Type} (ops : FloatOps D) (s : List Char) :
    (buildEquationTree ops s = Outcome.throw ErrorType.MissingClosingSymbol →
      s.count ')' < s.count '(') ∧
    (s.count '(' ≤ s.count ')' →
      buildEquationTree ops s ≠ Outcome.throw ErrorType.MissingClosingSymbol) ∧
    (∀ n : Nat, s.head? = some '(' → ¬ 0 < (scanGroup s 0 0).1 →
      buildEquationTreeRec ops n (groupStr s) true
        ≠ Outcome.throw ErrorType.MissingClosingSymbol) := by
  have h1 : buildEquationTree ops s = Outcome.throw ErrorType.MissingClosingSymbol →
      s.count ')' < s.count '(' := by
    intro h
    simp only [buildEquationTree] at h
    have := buildEquationTreeRec_missing ops _ _ _ h
    rw [nesting_removeWhitespace] at this
    simp only [nesting] at this
    omega
  refine ⟨h1, fun hle hcon => ?_, ?_⟩
  · have := h1 hcon
    omega
  · intro n hhead hclosed hcon
    cases s with
    | nil => simp at hhead
    | cons c t =>
      simp only [List.head?_cons, Option.some.injEq] at hhead
      subst hhead
      rcases popGroupFromEquation_cases (buildEquationTreeRec ops n) t with
        ⟨_, h0, _⟩ | ⟨body, r, _, h2, _, h4, _⟩
      · exact hclosed h0
      · rw [h4] at hcon
        have := buildEquationTreeRec_missing ops n body true hcon
        omega

/-- Witness of C20 at `(4+(3)`, which fails with MissingClosingSymbol and has two
`(` and one `)`, and at the body `4+(3)` taken out of `(4+(3))`. -/
theorem missing_closing_symbol_sound_witness :
    "(4+(3)".toList.count ')' < "(4+(3)".toList.count '(' ∧
    buildEquationTreeRec exactOps 7 (groupStr "(4+(3))".toList) true
      ≠ Outcome.throw ErrorType.MissingClosingSymbol :=
  ⟨(missing_closing_symbol_sound exactOps "(4+(3)".toList).1 (by rfl),
   (missing_closing_symbol_sound exactOps "(4+(3))".toList).2.2 7 (by decide) (by decide)⟩

/-- C17: the three in-place passes are equivalent to a left fold per precedence
tier. For every token sequence `x0 o1 x1 ... on xn` (`n >= 0`, each `xi` an
operand subtree, each `oi` one of `+ - * / ^`), `buildTreeFromNodes` returns the
tree of the reference left-associative grammar
`expr := term (('+'|'-') term)*`, `term := factor (('*'|'/') factor)*`,
`factor := operand ('^' operand)*`, the same holds behind a leading Negate
token, and the operands stand at the leaves in their order from left to right. -/
theorem passes_refine_grammar {D : Type} (x0 : Node D) (rest : List (Char × Node D))
    (h0 : isOperand x0 = true) (hops : ∀ p ∈ rest, isOperatorChar p.1 = true) :
    buildTreeFromNodes (x0 :: tokenTail rest) = Outcome.ok (exprTree x0 rest) ∧
    buildTreeFromNodes (Node.operator Negate Node.nullptr Node.nullptr :: x0 :: tokenTail rest)
      = Outcome.ok (exprTree (Node.operator Negate Node.nullptr x0) rest) ∧
    leaves (exprTree x0 rest) = leaves x0 ++ leavesTail rest :=
  ⟨buildTreeFromNodes_tokenTail (processNegationNode_operand _ h0) hops,
   buildTreeFromNodes_tokenTail (processNegationNode_negate x0 _) hops,
   leaves_exprTree x0 rest⟩

/-- Witness of C17 at the tokens of `2/4^3*5-6`: the tree is
`Sub(Mul(Div(2, Power(4, 3)), 5), 6)`. -/
theorem passes_refine_grammar_witness :
    buildTreeFromNodes (literalNode exactOps ['2'] :: tokenTail
        [('/', literalNode exactOps ['4']), ('^', literalNode exactOps ['3']),
         ('*', literalNode exactOps ['5']), ('-', literalNode exactOps ['6'])])
      = Outcome.ok (Node.operator '-'
          (Node.operator '*'
            (Node.operator '/' (literalNode exactOps ['2'])
              (Node.operator '^' (literalNode exactOps ['4']) (literalNode exactOps ['3'])))
            (literalNode exactOps ['5']))
          (literalNode exactOps ['6'])) :=
  (passes_refine_grammar (literalNode exactOps ['2'])
    [('/', literalNode exactOps ['4']), ('^', literalNode exactOps ['3']),
     ('*', literalNode exactOps ['5']), ('-', literalNode exactOps ['6'])]
    (by rfl) (by decide)).1

/-- C19: acceptance characterisation. Building an input succeeds exactly when the
input without its whitespace is empty or is generated by the grammar
`Expr := ['-'] Operand (Op Operand)*`, `Operand := Literal | '(' Expr ')'`,
`Op := one of + - * / ^`, `Literal := one or more digits, then zero or more '.',
then zero or more digits`; every other input fails with InvalidOperand,
InvalidOperator, EmptyGroup or MissingClosingSymbol. -/
theorem acceptance_characterisation {D : Type} (ops : FloatOps D) (s : List Char) :
    ((∃ T, buildEquationTree ops s = Outcome.ok T) ↔
      (removeWhitespace s = [] ∨ Generates Category.expr (removeWhitespace s))) ∧
    (¬ (removeWhitespace s = [] ∨ Generates Category.expr (removeWhitespace s)) →
      buildEquationTree ops s = Outcome.throw ErrorType.InvalidOperand ∨
      buildEquationTree ops s = Outcome.throw ErrorType.InvalidOperator ∨
      buildEquationTree ops s = Outcome.throw ErrorType.EmptyGroup ∨
      buildEquationTree ops s = Outcome.throw ErrorType.MissingClosingSymbol) := by
  refine ⟨buildEquationTree_ok_iff ops s, fun hn => ?_⟩
  have hu : (buildEquationTree ops s).isUserResult :=
    buildEquationTreeRec_isUserResult ops _ _ false (by omega)
  rcases isUserResult_cases hu with h | h
  · exact absurd ((buildEquationTree_ok_iff ops s).mp h) hn
  · exact h

/-- Witness of C19 at `-(4-3)*2.`, which the grammar generates and which builds,
and at `4+`, which the grammar does not generate and which fails with
InvalidOperand. -/
theorem acceptance_characterisation_witness :
    (∃ T, buildEquationTree exactOps "-(4-3)*2.".toList = Outcome.ok T) ∧
    (buildEquationTree exactOps "4+".toList = Outcome.throw ErrorType.InvalidOperand ∨
      buildEquationTree exactOps "4+".toList = Outcome.throw ErrorType.InvalidOperator ∨
      buildEquationTree exactOps "4+".toList = Outcome.throw ErrorType.EmptyGroup ∨
      buildEquationTree exactOps "4+".toList
        = Outcome.throw ErrorType.MissingClosingSymbol) :=
  have lit : ∀ c : Char, isDigit c = true → IsLiteralText [c] :=
    fun c hc => ⟨[c], [], [], rfl, by simp, by simpa using hc, by simp, by simp⟩
  have g43 : Generates Category.expr ['4', '-', '3'] :=
    @Generates.plain ['4'] ['-', '3'] (Generates.literal (lit '4' (by decide)))
      (@Generates.cons '-' ['3'] [] (by decide)
        (Generates.literal (lit '3' (by decide))) Generates.nil)
  have g2 : Generates Category.operand ['2', '.'] :=
    Generates.literal ⟨['2'], ['.'], [], rfl, by decide, by decide, by decide, by decide⟩
  have g : Generates Category.expr (removeWhitespace "-(4-3)*2.".toList) :=
    @Generates.negated ['(', '4', '-', '3', ')'] ['*', '2', '.']
      (Generates.group g43)
      (@Generates.cons '*' ['2', '.'] [] (by decide) g2 Generates.nil)
  ⟨(acceptance_characterisation exactOps "-(4-3)*2.".toList).1.mpr (Or.inr g),
   (acceptance_characterisation exactOps "4+".toList).2 (fun h => by
      obtain ⟨T, hT⟩ := (buildEquationTree_ok_iff exactOps "4+".toList).mpr h
      have hb : buildEquationTree exactOps "4+".toList
          = Outcome.throw ErrorType.InvalidOperand := by rfl
      rw [hb] at hT
      simp at hT)⟩

/-- C21: the internal-error branch is unreachable. For every input, building the
tree and evaluating the equation never fail with UnknownError, and both return or
fail with another error; for an equation that is not empty the build is the
tokenisation followed by `buildTreeFromNodes`; whenever the tokenisation succeeds
its sequence has the shape `[Negate] operand (operator operand)*`; and on every
sequence of that shape the negation step and the three precedence passes leave
exactly one node, which `buildTreeFromNodes` returns. -/
theorem unknown_error_unreachable {D : Type} (ops : FloatOps D) (s : List Char) :
    buildEquationTree ops s ≠ Outcome.throw ErrorType.UnknownError ∧
    evaluateEquation ops s ≠ Outcome.throw ErrorType.UnknownError ∧
    buildEquationTree ops s ≠ Outcome.undefined ∧
    evaluateEquation ops s ≠ Outcome.undefined ∧
    (∀ (n : Nat) (sub : Bool), s ≠ [] →
      buildEquationTreeRec ops (n + 1) s sub
        = (equationNodes ops n s).bind buildTreeFromNodes) ∧
    (∀ (n : Nat) (nodes : List (Node D)), equationNodes ops n s = Outcome.ok nodes →
      TokenShape nodes) ∧
    (∀ nodes : List (Node D), TokenShape nodes →
      ∃ root, ReducesTo nodes root ∧ buildTreeFromNodes nodes = Outcome.ok root) := by
  have hu := buildEquationTree_isUserResult ops s
  have hb1 : buildEquationTree ops s ≠ Outcome.throw ErrorType.UnknownError := by
    intro h
    rw [h] at hu
    exact hu rfl
  have hb2 : buildEquationTree ops s ≠ Outcome.undefined := by
    intro h
    rw [h] at hu
    exact hu
  refine ⟨hb1, ?_, hb2, ?_, fun n sub hne => buildEquationTreeRec_equationNodes ops n s sub hne,
    fun n nodes h => equationNodes_tokenShape ops n s nodes h, fun nodes h => ?_⟩
  · intro h
    simp only [evaluateEquation] at h
    cases hb : buildEquationTree ops s with
    | ok T => rw [hb] at h; simp at h
    | throw e =>
      rw [hb] at h
      simp only [Outcome.throw.injEq] at h
      exact hb1 (by rw [hb, h])
    | undefined => exact hb2 hb
  · intro h
    simp only [evaluateEquation] at h
    cases hb : buildEquationTree ops s with
    | ok T => rw [hb] at h; simp at h
    | throw e => rw [hb] at h; simp at h
    | undefined => exact hb2 hb
  · obtain ⟨root, _, hr, hb⟩ := tokenShape_reduces h
    exact ⟨root, hr, hb⟩

/-- Witness of C21 at `-2*3+4`: the tokens are Negate, 2, `*`, 3, `+`, 4, and the
negation step and the passes leave the one node `Add(Mul(Negate(2), 3), 4)`. -/
theorem unknown_error_unreachable_witness :
    equationNodes exactOps 6 "-2*3+4".toList
      = Outcome.ok [operatorNode Negate, literalNode exactOps ['2'], operatorNode '*',
          literalNode exactOps ['3'], operatorNode '+', literalNode exactOps ['4']] ∧
    TokenShape [operatorNode Negate, literalNode exactOps ['2'], operatorNode '*',
      literalNode exactOps ['3'], operatorNode '+', literalNode exactOps ['4']] ∧
    (∃ root, ReducesTo [operatorNode Negate, literalNode exactOps ['2'], operatorNode '*',
        literalNode exactOps ['3'], operatorNode '+', literalNode exactOps ['4']] root ∧
      buildTreeFromNodes [operatorNode Negate, literalNode exactOps ['2'], operatorNode '*',
        literalNode exactOps ['3'], operatorNode '+', literalNode exactOps ['4']]
        = Outcome.ok root) ∧
    buildEquationTree exactOps "-2*3+4".toList
      = Outcome.ok (Node.operator '+'
          (Node.operator '*' (Node.operator Negate Node.nullptr (literalNode exactOps ['2']))
            (literalNode exactOps ['3']))
          (literalNode exactOps ['4'])) :=
  have h := unknown_error_unreachable exactOps "-2*3+4".toList
  have hs : TokenShape [operatorNode Negate, literalNode exactOps ['2'], operatorNode '*',
      literalNode exactOps ['3'], operatorNode '+', literalNode exactOps ['4']] :=
    h.2.2.2.2.2.1 6 _ (by rfl)
  ⟨by rfl, hs, h.2.2.2.2.2.2 _ hs, by rfl⟩

end EquationEvaluator
